import Mathlib

/-! # Ledger core of the blockchain node

Shallow embedding of the ledger code in `src/blockchain.h` (the hash-indexed,
pruning-aware `Blockchain` with `add_block`, `prune_blockchain`,
`validate_blockchain`), of `src/blockchain.cpp` (`addBlock`,
`isValidNewBlock`), of the transaction pool in `src/NetworkingLayer.cpp`
(`insertTransaction`, `selectTransactionsForBlock`, `removeTransaction`), of
the rounds of `src/consensus.cpp` (`startRound`, `selectLeader`,
`distributeRewards`, `distributeFees`), of `src/consensus.h` (`Node`,
`select_leader`, `run_consensus_round`), of the codec of `src/compression.h`
and `src/compression.cpp` (`compress_data`, `decompress_data`,
`recursiveCompress`) and of the mock proofs of `src/snark_proof.cpp`,
followed by the properties established about them.

Conventions.
* `std::string` is `String`; `uint64_t` / `size_t` values are `Nat`, reduced
  modulo `2 ^ 64` where the source does arithmetic on them.
* `std::shared_ptr<T>` and reference parameters are modelled by the value they refer to.
* `std::vector<T>` is `List T`; `std::unordered_map<std::string, T>` is an
  association list with at most one entry per key.
* Facts fixed by the C++ implementation rather than by the repository (the
  value of `std::hash<std::string>`, the rendering of a `double` by
  `std::to_string`, `sizeof`) are the fields of a `Platform`.
* The wall-clock reading `std::time(nullptr)` is an explicit argument `now`.
-/

namespace Ledger

/-! ## Platform parameters -/

/-- Implementation-defined ingredients of `blockchain.h`. -/
structure Platform where
  /-- The value of `std::hash<std::string>{}(data)` (a `size_t`). -/
  strHash : String → Nat
  /-- The text `std::to_string` produces for a `double`, given by its IEEE-754 bit pattern. -/
  doubleToString : Nat → String
  /-- The constant `sizeof(Block)`. -/
  sizeofBlock : Nat
  /-- The constant `sizeof(Transaction)`. -/
  sizeofTransaction : Nat

/-! ## `blockchain.h`: transactions and blocks -/

/-- Class `Transaction` of `blockchain.h`; `amount` is the bit pattern of the `double`. -/
structure Transaction where
  sender : String
  receiver : String
  amount : Nat
  timestamp : Nat
  snark_proof : String
  deriving DecidableEq, Repr

/-- `Transaction::get_transaction_data`. -/
def Transaction.get_transaction_data (P : Platform) (t : Transaction) : String :=
  t.sender ++ t.receiver ++ P.doubleToString t.amount ++ toString t.timestamp

/-- Class `Block` of `blockchain.h` (all fields are public). -/
structure Block where
  index : Nat
  previous_hash : String
  block_hash : String
  timestamp : Nat
  transactions : List Transaction
  block_proposer : String
  is_valid : Bool
  deriving DecidableEq, Repr

/-- The local `data` of `Block::compute_hash`: the string that is digested. -/
def Block.hash_data (P : Platform) (b : Block) : String :=
  b.transactions.foldl (fun data txn => data ++ txn.get_transaction_data P)
    (toString b.index ++ b.previous_hash ++ toString b.timestamp ++ b.block_proposer)

/-- `Block::compute_hash`. -/
def Block.compute_hash (P : Platform) (b : Block) : String :=
  toString (P.strHash (b.hash_data P))

/-- `Block::get_block_hash`. -/
def Block.get_block_hash (b : Block) : String := b.block_hash

/-- The constructor `Block::Block(idx, prev_hash, txns, proposer)`, run at clock reading `now`. -/
def Block.new (P : Platform) (idx : Nat) (prev_hash : String) (txns : List Transaction)
    (proposer : String) (now : Nat) : Block :=
  let b : Block :=
    { index := idx, previous_hash := prev_hash, block_hash := "", timestamp := now,
      transactions := txns, block_proposer := proposer, is_valid := true }
  { b with block_hash := b.compute_hash P }

/-! ## `blockchain.h`: the hash index -/

/-- The type of `block_map`. -/
abbrev BlockMap := List (String × Block)

/-- The assignment `block_map[k] = v`: overwrite the entry for `k`, or add one. -/
def BlockMap.assign (m : BlockMap) (k : String) (v : Block) : BlockMap :=
  if m.any (fun e => e.1 == k) then m.map (fun e => if e.1 = k then (k, v) else e)
  else m ++ [(k, v)]

/-- The call `block_map.erase(k)`. -/
def BlockMap.erase (m : BlockMap) (k : String) : BlockMap :=
  m.filter (fun e => e.1 != k)

/-- Lookup of a key in `block_map`. -/
def BlockMap.find (m : BlockMap) (k : String) : Option Block :=
  (List.find? (fun e => e.1 == k) m).map Prod.snd

/-- The keys of `block_map`. -/
def BlockMap.keys (m : BlockMap) : List String := m.map Prod.fst

/-! ## `blockchain.h`: the ledger -/

/-- Class `Blockchain` of `blockchain.h`. -/
structure Blockchain where
  difficulty : Nat
  max_block_size : Nat
  max_chain_size : Nat
  chain : List Block
  block_map : BlockMap
  deriving DecidableEq, Repr

/-- `Blockchain::create_genesis_block`. -/
def create_genesis_block (P : Platform) (now : Nat) : Block :=
  Block.new P 0 "0" [] "genesis_proposer" now

/-- The constructor `Blockchain::Blockchain(max_size, max_chain)`. -/
def Blockchain.new (P : Platform) (max_size max_chain now : Nat) : Blockchain :=
  let genesis := create_genesis_block P now
  { difficulty := 1, max_block_size := max_size, max_chain_size := max_chain,
    chain := [genesis],
    block_map := BlockMap.assign [] genesis.get_block_hash genesis }

/-- `Blockchain::get_latest_block`: `chain.back()`, undefined on an empty chain. -/
def get_latest_block (s : Blockchain) : Option Block := s.chain.getLast?

/-- `Blockchain::prune_blockchain`. -/
def prune_blockchain (s : Blockchain) : Blockchain :=
  if s.chain.length > s.max_chain_size then
    match s.chain with
    | [] => s
    | block_to_remove :: rest =>
      { s with chain := rest, block_map := s.block_map.erase block_to_remove.get_block_hash }
  else s

/-- The `block_size` that `add_block` accumulates (a `uint64_t`). -/
def block_size (P : Platform) (b : Block) : Nat :=
  b.transactions.foldl (fun acc _ => (acc + P.sizeofTransaction) % 2 ^ 64)
    (P.sizeofBlock % 2 ^ 64)

/-- `Blockchain::add_block`: the returned flag and the ledger after the call. -/
def add_block (P : Platform) (s : Blockchain) (b : Block) : Bool × Blockchain :=
  if b.index ≠ s.chain.length then (false, s)
  else if block_size P b > s.max_block_size then (false, s)
  else
    let s1 := if s.chain.length > s.max_chain_size then prune_blockchain s else s
    (true, { s1 with chain := s1.chain ++ [b],
                     block_map := s1.block_map.assign b.get_block_hash b })

/-- The loop body of `validate_blockchain` from position `i` on, `previous_block` being
`chain[i - 1]` and the list the blocks `chain[i], chain[i + 1], ...`. -/
def validate_from (P : Platform) : Block → List Block → Bool
  | _, [] => true
  | previous_block, current_block :: rest =>
    if current_block.previous_hash ≠ previous_block.get_block_hash then false
    else if current_block.get_block_hash ≠ current_block.compute_hash P then false
    else validate_from P current_block rest

/-- `Blockchain::validate_blockchain`: the loop starts at position 1. -/
def validate_blockchain (P : Platform) (s : Blockchain) : Bool :=
  match s.chain with
  | [] => true
  | first :: rest => validate_from P first rest

/-- Replacement of one of the hashed fields of a block by the value `v`. -/
inductive FieldMutation where
  | index (v : Nat)
  | previous_hash (v : String)
  | timestamp (v : Nat)
  | block_proposer (v : String)
  | transactions (v : List Transaction)
  deriving DecidableEq, Repr

/-- The block after the replacement; the stored `block_hash` is left as it was. -/
def FieldMutation.apply : FieldMutation → Block → Block
  | .index v, b => { b with index := v }
  | .previous_hash v, b => { b with previous_hash := v }
  | .timestamp v, b => { b with timestamp := v }
  | .block_proposer v, b => { b with block_proposer := v }
  | .transactions v, b => { b with transactions := v }

/-- The replacement puts a different value into the field. -/
def FieldMutation.differs : FieldMutation → Block → Prop
  | .index v, b => v ≠ b.index
  | .previous_hash v, b => v ≠ b.previous_hash
  | .timestamp v, b => v ≠ b.timestamp
  | .block_proposer v, b => v ≠ b.block_proposer
  | .transactions v, b => v ≠ b.transactions

/-- What the loop of `Block::compute_hash` appends to `data`: the transaction data of the
block's transactions, concatenated in order. -/
def transactions_data (P : Platform) (txns : List Transaction) : String :=
  txns.foldl (fun data txn => data ++ txn.get_transaction_data P) ""

/-- The replacement puts a different value into the field and, for the transaction list,
one whose concatenated transaction data is different. -/
def FieldMutation.changes_data (P : Platform) : FieldMutation → Block → Prop
  | .transactions v, b => transactions_data P v ≠ transactions_data P b.transactions
  | m, b => m.differs b

/-- The ledger with the block at position `k` of the chain replaced by `b`. -/
def Blockchain.with_block (s : Blockchain) (k : Nat) (b : Block) : Blockchain :=
  { s with chain := s.chain.set k b }

/-- Ledger states obtained from a constructed ledger by `add_block` calls only. -/
inductive ReachableByAdd (P : Platform) (max_size max_chain : Nat) : Blockchain → Prop
  | init (now : Nat) : ReachableByAdd P max_size max_chain (Blockchain.new P max_size max_chain now)
  | add (s : Blockchain) (b : Block) :
      ReachableByAdd P max_size max_chain s →
      ReachableByAdd P max_size max_chain (add_block P s b).2

/-- Ledger states obtained from a constructed ledger by `add_block` and
`prune_blockchain` calls. -/
inductive Reachable (P : Platform) (max_size max_chain : Nat) : Blockchain → Prop
  | init (now : Nat) : Reachable P max_size max_chain (Blockchain.new P max_size max_chain now)
  | add (s : Blockchain) (b : Block) :
      Reachable P max_size max_chain s → Reachable P max_size max_chain (add_block P s b).2
  | prune (s : Blockchain) :
      Reachable P max_size max_chain s → Reachable P max_size max_chain (prune_blockchain s)

/-- Ledger states obtained from a constructed ledger by `prune_blockchain` calls and by
`add_block` calls whose block carries a `block_hash` that no block currently in the chain
carries. -/
inductive ReachableFresh (P : Platform) (max_size max_chain : Nat) : Blockchain → Prop
  | init (now : Nat) :
      ReachableFresh P max_size max_chain (Blockchain.new P max_size max_chain now)
  | add (s : Blockchain) (b : Block) :
      ReachableFresh P max_size max_chain s →
      (∀ c ∈ s.chain, c.block_hash ≠ b.block_hash) →
      ReachableFresh P max_size max_chain (add_block P s b).2
  | prune (s : Blockchain) :
      ReachableFresh P max_size max_chain s →
      ReachableFresh P max_size max_chain (prune_blockchain s)

/-- Ledger states obtained from a constructed ledger by `add_block` calls each made while
the chain holds at most `max_chain_size` blocks, so that none of them prunes. -/
inductive ReachableUnpruned (P : Platform) (max_size max_chain : Nat) : Blockchain → Prop
  | init (now : Nat) :
      ReachableUnpruned P max_size max_chain (Blockchain.new P max_size max_chain now)
  | add (s : Blockchain) (b : Block) :
      ReachableUnpruned P max_size max_chain s →
      s.chain.length ≤ s.max_chain_size →
      ReachableUnpruned P max_size max_chain (add_block P s b).2

/-- The hash index that lists the blocks of a chain in chain order. -/
def index_of_chain (l : List Block) : BlockMap := l.map (fun b => (b.block_hash, b))

/-! ## A reference platform for concrete runs -/

/-- A `size_t`-valued string digest standing in for `std::hash<std::string>`: a polynomial
rolling hash modulo `2 ^ 64`. -/
def polyHash (s : String) : Nat :=
  s.data.foldl (fun acc c => (acc * 1099511628211 + c.toNat) % 2 ^ 64) 14695981039346656037

/-- A 64-bit platform: `sizeof(Block) = 144`, `sizeof(Transaction) = 112`, amounts printed
as the decimal numeral of their bit pattern, and `polyHash` as the string digest. -/
def refPlatform : Platform :=
  { strHash := polyHash, doubleToString := fun a => toString a,
    sizeofBlock := 144, sizeofTransaction := 112 }

/-- A collision-free string digest: the characters read as the digits of a numeral in
bijective base `0x110001`. -/
def idealHash (s : String) : Nat :=
  s.data.foldl (fun acc c => acc * 0x110001 + (c.toNat + 1)) 0

/-- The platform `refPlatform` with the collision-free digest `idealHash`. -/
def idealPlatform : Platform :=
  { refPlatform with strHash := idealHash }

/-! ## Sequential appends -/

/-- The block a proposer builds on top of the ledger: `index` is the latest block's index
plus one and `previous_hash` the latest block's hash (undefined on an empty chain). -/
def build_next (P : Platform) (s : Blockchain) (txns : List Transaction) (proposer : String)
    (now : Nat) : Option Block :=
  match get_latest_block s with
  | none => none
  | some latest => some (Block.new P (latest.index + 1) latest.get_block_hash txns proposer now)

/-- Appends one block after another, each built by `build_next` at the given clock readings;
returns the flags of the `add_block` calls and the final ledger. -/
def append_seq (P : Platform) (proposer : String) : Blockchain → List Nat → List Bool × Blockchain
  | s, [] => ([], s)
  | s, now :: rest =>
    match build_next P s [] proposer now with
    | none => ([], s)
    | some b =>
      let r := add_block P s b
      let t := append_seq P proposer r.2 rest
      (r.1 :: t.1, t.2)

/-! ## Concrete ledgers used in the evaluations below -/

/-- A fresh ledger with the default bounds of the constructor. -/
def freshLedger : Blockchain := Blockchain.new refPlatform (1024 * 1024 * 1) 1000 1700000000

/-- A fresh ledger with `max_chain_size = 1`. -/
def smallLedger : Blockchain := Blockchain.new refPlatform (1024 * 1024 * 1) 1 1700000000

/-- The ledger `smallLedger` after two sequential appends; the second one pruned the genesis
block. -/
def prunedLedger : Blockchain :=
  (append_seq refPlatform "node-a" smallLedger [1700000001, 1700000002]).2

/-- A fresh ledger with `max_chain_size = 0`. -/
def zeroLedger : Blockchain := Blockchain.new refPlatform (1024 * 1024 * 1) 0 1700000000

/-- A fresh ledger with `max_chain_size = 3`. -/
def mediumLedger : Blockchain := Blockchain.new refPlatform (1024 * 1024 * 1) 3 1700000000

/-- The clock readings of the five sequential appends of the pruning scenario. -/
def fiveTicks : List Nat := [1700000001, 1700000002, 1700000003, 1700000004, 1700000005]

/-- A linked, well-hashed chain of three blocks: a fresh ledger after two sequential
appends. -/
def linkedLedger : Blockchain :=
  (append_seq refPlatform "node-a" freshLedger [1700000001, 1700000002]).2

/-- A transfer from `al` to `ice`. -/
def txAlIce : Transaction :=
  { sender := "al", receiver := "ice", amount := 5, timestamp := 9, snark_proof := "" }

/-- A transfer from `ali` to `ce` with the amount and timestamp of `txAlIce`. -/
def txAliCe : Transaction :=
  { sender := "ali", receiver := "ce", amount := 5, timestamp := 9, snark_proof := "" }

/-- The genesis block of `idealLedger`. -/
def idealGenesis : Block := create_genesis_block idealPlatform 1700000000

/-- The block appended to the genesis block in `idealLedger`; it carries `txAlIce`. -/
def idealSecond : Block :=
  Block.new idealPlatform 1 idealGenesis.get_block_hash [txAlIce] "node-a" 1700000001

/-- A linked, well-hashed chain of two blocks on the platform with the collision-free
digest. -/
def idealLedger : Blockchain :=
  (add_block idealPlatform (Blockchain.new idealPlatform (1024 * 1024 * 1) 1000 1700000000)
    idealSecond).2

/-- The block of index 1 that `build_next` produces on `smallLedger`. -/
def firstBlock : Block :=
  Block.new refPlatform 1 (create_genesis_block refPlatform 1700000000).get_block_hash []
    "node-a" 1700000001

/-- The block of index 2 built on `firstBlock`: the latest block of `prunedLedger`. -/
def secondBlock : Block :=
  Block.new refPlatform 2 firstBlock.get_block_hash [] "node-a" 1700000002

/-- A block carrying index 2, built on the latest block of `prunedLedger`. -/
def staleBlock : Block :=
  Block.new refPlatform 2 "anything" [] "node-b" 1700000003

/-- The ledger `prunedLedger` after `add_block(secondBlock)` (the block it already ends
with) and then `add_block(staleBlock)`. -/
def twinLedger : Blockchain :=
  (add_block refPlatform (add_block refPlatform prunedLedger secondBlock).2 staleBlock).2

/-- The ledger `mediumLedger` after `add_block(firstBlock)`. -/
def grownLedger : Blockchain := (add_block refPlatform mediumLedger firstBlock).2

/-- A well-hashed block with the expected index 1 whose `previous_hash` is not the hash of
the genesis block of `freshLedger`. -/
def unlinkedBlock : Block :=
  Block.new refPlatform 1 "not-the-genesis-hash" [] "node-a" 1700000001

/-- The block `build_next` produces on `freshLedger`, with its stored hash overwritten. -/
def forgedBlock : Block :=
  { Block.new refPlatform 1 (create_genesis_block refPlatform 1700000000).get_block_hash []
      "node-a" 1700000001 with block_hash := "forged" }

/-! ## Auxiliary definitions for the proofs -/

/-- Boolean check that each block of a list names its predecessor's hash. -/
def links_ok : List Block → Bool
  | [] => true
  | [_] => true
  | a :: b :: rest => decide (b.previous_hash = a.block_hash) && links_ok (b :: rest)

/-- The number a list of decimal digit characters denotes. -/
def digitsVal (l : List Char) : Nat := l.foldl (fun a c => a * 10 + (c.toNat - 48)) 0

/-- The fold of `idealHash` on lists of characters. -/
def idealFold (l : List Char) : Nat :=
  l.foldl (fun acc c => acc * 0x110001 + (c.toNat + 1)) 0

/-- The ledger invariant under fresh hashes: `block_map` lists the chain. -/
def IndexMatches (s : Blockchain) : Prop :=
  s.block_map = index_of_chain s.chain ∧ (s.chain.map Block.block_hash).Nodup

end Ledger

/-! # `blockchain.cpp`: the proof-of-work ledger

The classes `Block` and `Transaction` used by `blockchain.cpp` are declared in headers that
are not part of the sources at hand; the code reads them only through accessors, which are
the fields of `BlockApi`. -/

namespace BlockchainCpp

/-- The accessors `blockchain.cpp` calls on `Block` and `Transaction`. -/
structure BlockApi (B Tx : Type) where
  /-- `Block::getHash`. -/
  getHash : B → String
  /-- `Block::getPreviousHash`. -/
  getPreviousHash : B → String
  /-- `Block::getTransactions`. -/
  getTransactions : B → List Tx
  /-- `Transaction::isValid`. -/
  isValid : Tx → Bool

/-- `Blockchain::isValidTransaction`. -/
def isValidTransaction {B Tx : Type} (A : BlockApi B Tx) : List Tx → Bool
  | [] => true
  | tx :: rest => if !A.isValid tx then false else isValidTransaction A rest

/-- `Blockchain::isValidProofOfWork`: `block.getHash().substr(0, 4) == "0000"`. -/
def isValidProofOfWork {B Tx : Type} (A : BlockApi B Tx) (block : B) : Bool :=
  String.mk ((A.getHash block).data.take 4) == "0000"

/-- `Blockchain::isValidNewBlock`. -/
def isValidNewBlock {B Tx : Type} (A : BlockApi B Tx) (newBlock previousBlock : B) : Bool :=
  if A.getPreviousHash newBlock ≠ A.getHash previousBlock then false
  else if !isValidProofOfWork A newBlock then false
  else if !isValidTransaction A (A.getTransactions newBlock) then false
  else true

/-- `Blockchain::addBlock` on the member `chain`; `chain.back()` is undefined on an empty
chain. -/
def addBlock {B Tx : Type} (A : BlockApi B Tx) (chain : List B) (newBlock : B) :
    Option (List B) :=
  match chain.getLast? with
  | none => none
  | some last =>
    if isValidNewBlock A newBlock last then some (chain ++ [newBlock]) else some chain

/-- Chains obtained from the constructor (which pushes the genesis block) by `addBlock`
calls. -/
inductive Reach {B Tx : Type} (A : BlockApi B Tx) (genesis : B) : List B → Prop
  | init : Reach A genesis [genesis]
  | add (chain : List B) (newBlock : B) (chain2 : List B) :
      Reach A genesis chain → addBlock A chain newBlock = some chain2 → Reach A genesis chain2

/-- A concrete block type for running `blockchain.cpp`: the values its accessors return. -/
structure PlainBlock where
  hash : String
  previousHash : String
  transactions : List Bool
  deriving DecidableEq, Repr

/-- Accessors of `PlainBlock`; a transaction is represented by its validity. -/
def plainApi : BlockApi PlainBlock Bool :=
  { getHash := PlainBlock.hash, getPreviousHash := PlainBlock.previousHash,
    getTransactions := PlainBlock.transactions, isValid := fun tx => tx }

/-- A genesis block. -/
def plainGenesis : PlainBlock := { hash := "0000aa", previousHash := "0", transactions := [true] }

/-- A mined block on top of `plainGenesis`. -/
def plainNext : PlainBlock :=
  { hash := "0000bb", previousHash := "0000aa", transactions := [true, true] }

end BlockchainCpp

/-! # `NetworkingLayer.cpp`: the transaction pool

Embedding of `TransactionPool` (`insertTransaction`, `selectTransactionsForBlock`,
`removeTransaction`, `getTransactions`). Three ingredients come from outside the class and
are arguments of the functions that use them: the proof validator, `std::sort`, and the
`operator==` on `Transaction` that `std::remove` calls and the sources do not define.
For runs on concrete pools the `std::sort` of the GNU C++ library is embedded as well.
`removeTransaction` receives its transaction by reference and hands the reference on to
`std::remove`, so its argument is a `TxRef`: the reference may be to an element of the very
vector that `std::remove` rewrites. -/

namespace TxPool

/-- Struct `Transaction` of the pool; `snark_proof` is the list of its bytes. -/
structure Transaction where
  sender : String
  receiver : String
  amount : Nat
  timestamp : Nat
  signature : String
  snark_proof : List Nat
  deriving DecidableEq, Repr

/-- Class `SnarkProofValidator`: its method `validateProof`. -/
structure SnarkProofValidator where
  validateProof : List Nat → Bool

/-- The body of `SnarkProofValidator::validateProof` in the sources: `return true`. -/
def SnarkProofValidator.source : SnarkProofValidator :=
  { validateProof := fun _ => true }

/-- The comparator handed to `std::sort`: `a.timestamp < b.timestamp`. -/
def by_timestamp (a b : Transaction) : Bool := decide (a.timestamp < b.timestamp)

/-- What the C++ standard promises of `std::sort` with the comparator `by_timestamp`: the
result is a rearrangement of the input in which no element compares less than an earlier
one. The order of elements with equal timestamps is left to the implementation. -/
structure StdSort where
  sort : List Transaction → List Transaction
  perm : ∀ l, (sort l).Perm l
  sorted : ∀ l, (sort l).Pairwise (fun a b => by_timestamp b a = false)

/-- Class `TransactionPool`. -/
structure TransactionPool where
  transactions : List Transaction
  deriving DecidableEq, Repr

/-- A pool right after default construction. -/
def TransactionPool.empty : TransactionPool := { transactions := [] }

/-- `TransactionPool::getTransactions`. -/
def getTransactions (pool : TransactionPool) : List Transaction := pool.transactions

/-- `TransactionPool::validateTransactionProof`. -/
def validateTransactionProof (proofValidator : SnarkProofValidator) (tx : Transaction) : Bool :=
  proofValidator.validateProof tx.snark_proof

/-- `TransactionPool::insertTransaction`. -/
def insertTransaction (proofValidator : SnarkProofValidator) (pool : TransactionPool)
    (tx : Transaction) : TransactionPool :=
  if validateTransactionProof proofValidator tx then
    { pool with transactions := pool.transactions ++ [tx] }
  else pool

/-- The selection loop of `selectTransactionsForBlock` over the sorted transactions still to
visit, `total_size` (a `size_t`) being the size accumulated so far. -/
def select_loop (sizeofTx max_block_size : Nat) : List Transaction → Nat → List Transaction
  | [], _ => []
  | tx :: rest, total_size =>
    if (total_size + sizeofTx) % 2 ^ 64 > max_block_size then []
    else tx :: select_loop sizeofTx max_block_size rest ((total_size + sizeofTx) % 2 ^ 64)

/-- `TransactionPool::selectTransactionsForBlock`: the returned vector and the pool after the
call (`std::sort` works on the member `transactions` itself); `sizeofTx` is the constant
`sizeof(Transaction)`. -/
def selectTransactionsForBlock (S : StdSort) (sizeofTx : Nat) (pool : TransactionPool)
    (max_block_size : Nat) : List Transaction × TransactionPool :=
  let sorted := S.sort pool.transactions
  (select_loop sizeofTx max_block_size sorted 0, { pool with transactions := sorted })

/-- What a `const Transaction&` refers to: an object outside the vector `transactions` of
the pool, or the element at position `i` of that vector (as `getTransactions()[i]` is). -/
inductive TxRef where
  | outside (tx : Transaction)
  | element (i : Nat)
  deriving DecidableEq, Repr

/-- The transaction read through a reference while the vector holds `v`; there is none
behind a reference to a position past the end. -/
def TxRef.read : TxRef → List Transaction → Option Transaction
  | TxRef.outside tx, _ => some tx
  | TxRef.element i, v => v[i]?

/-- The loop of `std::remove` after the first match was found: `first` visits the `n`
positions still to come, `result` is the position written next. An element that does not
compare equal to `value` is move-assigned to `*result`, which leaves `movedFrom` of it at
`*first`; `value` is read through the reference at each comparison. -/
def remove_loop (eq : Transaction → Transaction → Bool)
    (movedFrom : Transaction → Transaction) (value : TxRef) :
    Nat → List Transaction → Nat → Nat → Option (List Transaction × Nat)
  | 0, v, result, _ => some (v, result)
  | n + 1, v, result, first =>
    match v[first]?, value.read v with
    | some x, some val =>
      if eq x val then remove_loop eq movedFrom value n v result (first + 1)
      else
        remove_loop eq movedFrom value n ((v.set first (movedFrom x)).set result x)
          (result + 1) (first + 1)
    | _, _ => none

/-- `std::remove(v.begin(), v.end(), value)`: the vector after the call and the position of
the returned iterator. It finds the first element equal to `value`, then moves every later
element that is not equal to `value` down. `eq` is the `operator==` of `Transaction`,
`movedFrom` the state a transaction is left in when it has been moved from, which the
standard leaves unspecified. -/
def std_remove (eq : Transaction → Transaction → Bool)
    (movedFrom : Transaction → Transaction) (v : List Transaction) (value : TxRef) :
    Option (List Transaction × Nat) :=
  match value.read v with
  | none => none
  | some val =>
    let first := v.findIdx (fun t => eq t val)
    if first = v.length then some (v, first)
    else remove_loop eq movedFrom value (v.length - (first + 1)) v first (first + 1)

/-- `TransactionPool::removeTransaction`: `std::remove` over the member vector with the
reference `tx` as its value, `erase` of the tail from the returned iterator on, and the
message that reads `tx.sender` and `tx.receiver` after that (undefined when `tx` refers to
an erased element). -/
def removeTransaction (eq : Transaction → Transaction → Bool)
    (movedFrom : Transaction → Transaction) (pool : TransactionPool) (tx : TxRef) :
    Option TransactionPool :=
  match std_remove eq movedFrom pool.transactions tx with
  | none => none
  | some (v, result) =>
    let erased := v.take result
    match tx.read erased with
    | none => none
    | some _ => some { pool with transactions := erased }

/-! ## `std::sort` of the GNU C++ library

The routines of `bits/stl_algo.h` and `bits/stl_heap.h` behind `std::sort`, with the
comparator `by_timestamp`. A range is a vector `v` with the positions `first` and `last` of
its two iterators; an access outside the vector is undefined (`none`). Loops carry a bound on
the number of their iterations. An element that the library moves through a temporary is
copied: the slot it leaves is written again before it is read. -/

/-- Assignment to `v[i]`. -/
def write_at (v : List Transaction) (i : Nat) (x : Transaction) : Option (List Transaction) :=
  if i < v.length then some (v.set i x) else none

/-- `std::iter_swap(a, b)`. -/
def iter_swap (v : List Transaction) (a b : Nat) : Option (List Transaction) :=
  match v[a]?, v[b]? with
  | some x, some y => some ((v.set a y).set b x)
  | _, _ => none

/-- `std::__lg`: the position of the highest set bit; the first argument bounds the loop. -/
def lg_loop : Nat → Nat → Nat
  | 0, _ => 0
  | fuel + 1, n => if n ≥ 2 then lg_loop fuel (n / 2) + 1 else 0

/-- `std::__lg(n)`. -/
def lg (n : Nat) : Nat := lg_loop n n

/-- `std::__move_median_to_first(result, a, b, c, comp)`. -/
def move_median_to_first (v : List Transaction) (result a b c : Nat) :
    Option (List Transaction) :=
  match v[a]?, v[b]?, v[c]? with
  | some xa, some xb, some xc =>
    if by_timestamp xa xb then
      if by_timestamp xb xc then iter_swap v result b
      else if by_timestamp xa xc then iter_swap v result c
      else iter_swap v result a
    else if by_timestamp xa xc then iter_swap v result a
    else if by_timestamp xb xc then iter_swap v result c
    else iter_swap v result b
  | _, _, _ => none

/-- The loop `while (comp(first, pivot)) ++first` of `__unguarded_partition`: the position
it stops at. -/
def partition_scan_up (v : List Transaction) (pivot : Nat) : Nat → Nat → Option Nat
  | 0, _ => none
  | fuel + 1, first =>
    match v[first]?, v[pivot]? with
    | some x, some p =>
      if by_timestamp x p then partition_scan_up v pivot fuel (first + 1) else some first
    | _, _ => none

/-- The loop `while (comp(pivot, last)) --last` of `__unguarded_partition`: the position it
stops at. -/
def partition_scan_down (v : List Transaction) (pivot : Nat) : Nat → Option Nat
  | 0 =>
    match v[pivot]?, v[0]? with
    | some p, some x => if by_timestamp p x then none else some 0
    | _, _ => none
  | last + 1 =>
    match v[pivot]?, v[last + 1]? with
    | some p, some x =>
      if by_timestamp p x then partition_scan_down v pivot last else some (last + 1)
    | _, _ => none

/-- `std::__unguarded_partition(first, last, pivot, comp)`: the vector after the call and
the position returned. -/
def unguarded_partition (pivot : Nat) :
    Nat → List Transaction → Nat → Nat → Option (List Transaction × Nat)
  | 0, _, _, _ => none
  | fuel + 1, v, first, last =>
    match partition_scan_up v pivot (v.length + 1 - first) first with
    | none => none
    | some first2 =>
      if last = 0 then none
      else
        match partition_scan_down v pivot (last - 1) with
        | none => none
        | some last2 =>
          if first2 < last2 then
            match iter_swap v first2 last2 with
            | none => none
            | some v2 => unguarded_partition pivot fuel v2 (first2 + 1) last2
          else some (v, first2)

/-- `std::__unguarded_partition_pivot(first, last, comp)`. -/
def unguarded_partition_pivot (v : List Transaction) (first last : Nat) :
    Option (List Transaction × Nat) :=
  let mid := first + (last - first) / 2
  match move_median_to_first v first (first + 1) mid (last - 1) with
  | none => none
  | some v2 => unguarded_partition first (v2.length + 1) v2 (first + 1) last

/-- `std::__push_heap(first, holeIndex, topIndex, value, comp)`. -/
def push_heap (first topIndex : Nat) (value : Transaction) :
    Nat → List Transaction → Nat → Option (List Transaction)
  | 0, _, _ => none
  | fuel + 1, v, holeIndex =>
    let parent := (holeIndex - 1) / 2
    if holeIndex > topIndex then
      match v[first + parent]? with
      | none => none
      | some p =>
        if by_timestamp p value then
          match write_at v (first + holeIndex) p with
          | none => none
          | some v2 => push_heap first topIndex value fuel v2 parent
        else write_at v (first + holeIndex) value
    else write_at v (first + holeIndex) value

/-- The loop `while (secondChild < (len - 1) / 2)` of `__adjust_heap`: the vector and the
values of `holeIndex` and `secondChild` after it. -/
def adjust_heap_loop (first len : Nat) :
    Nat → List Transaction → Nat → Nat → Option (List Transaction × Nat × Nat)
  | 0, _, _, _ => none
  | fuel + 1, v, holeIndex, secondChild =>
    if secondChild < (len - 1) / 2 then
      let secondChild1 := 2 * (secondChild + 1)
      match v[first + secondChild1]?, v[first + (secondChild1 - 1)]? with
      | some x, some y =>
        let secondChild2 := if by_timestamp x y then secondChild1 - 1 else secondChild1
        match v[first + secondChild2]? with
        | none => none
        | some z =>
          match write_at v (first + holeIndex) z with
          | none => none
          | some v2 => adjust_heap_loop first len fuel v2 secondChild2 secondChild2
      | _, _ => none
    else some (v, holeIndex, secondChild)

/-- `std::__adjust_heap(first, holeIndex, len, value, comp)`. The distance type is signed:
`(len - 2) / 2` is negative for `len = 0`, hence the test `2 ≤ len`. -/
def adjust_heap (v : List Transaction) (first holeIndex len : Nat) (value : Transaction) :
    Option (List Transaction) :=
  let topIndex := holeIndex
  match adjust_heap_loop first len (len + 1) v holeIndex holeIndex with
  | none => none
  | some (v2, holeIndex2, secondChild) =>
    if len % 2 = 0 ∧ 2 ≤ len ∧ secondChild = (len - 2) / 2 then
      let secondChild1 := 2 * (secondChild + 1)
      match v2[first + (secondChild1 - 1)]? with
      | none => none
      | some x =>
        match write_at v2 (first + holeIndex2) x with
        | none => none
        | some v3 =>
          push_heap first topIndex value (secondChild1 + 1) v3 (secondChild1 - 1)
    else push_heap first topIndex value (holeIndex2 + 1) v2 holeIndex2

/-- `std::__pop_heap(first, last, result, comp)`. -/
def pop_heap (v : List Transaction) (first last result : Nat) : Option (List Transaction) :=
  match v[result]?, v[first]? with
  | some value, some top =>
    match write_at v result top with
    | none => none
    | some v2 => adjust_heap v2 first 0 (last - first) value
  | _, _ => none

/-- The loop of `__make_heap` from `parent` down to 0. -/
def make_heap_loop (first len : Nat) : List Transaction → Nat → Option (List Transaction)
  | v, 0 =>
    match v[first]? with
    | none => none
    | some value => adjust_heap v first 0 len value
  | v, parent + 1 =>
    match v[first + (parent + 1)]? with
    | none => none
    | some value =>
      match adjust_heap v first (parent + 1) len value with
      | none => none
      | some v2 => make_heap_loop first len v2 parent

/-- `std::__make_heap(first, last, comp)`. -/
def make_heap (v : List Transaction) (first last : Nat) : Option (List Transaction) :=
  if last - first < 2 then some v
  else make_heap_loop first (last - first) v ((last - first - 2) / 2)

/-- The loop of `__heap_select` over the positions `i` from `middle` on. -/
def heap_select_loop (first middle : Nat) :
    Nat → List Transaction → Nat → Option (List Transaction)
  | 0, v, _ => some v
  | n + 1, v, i =>
    match v[i]?, v[first]? with
    | some x, some top =>
      if by_timestamp x top then
        match pop_heap v first middle i with
        | none => none
        | some v2 => heap_select_loop first middle n v2 (i + 1)
      else heap_select_loop first middle n v (i + 1)
    | _, _ => none

/-- `std::__heap_select(first, middle, last, comp)`. -/
def heap_select (v : List Transaction) (first middle last : Nat) : Option (List Transaction) :=
  match make_heap v first middle with
  | none => none
  | some v2 => heap_select_loop first middle (last - middle) v2 middle

/-- The loop of `__sort_heap`, `n` being `last - first`. -/
def sort_heap_loop (first : Nat) : Nat → List Transaction → Option (List Transaction)
  | 0, v => some v
  | n + 1, v =>
    if n + 1 > 1 then
      match pop_heap v first (first + n) (first + n) with
      | none => none
      | some v2 => sort_heap_loop first n v2
    else some v

/-- `std::__sort_heap(first, last, comp)`. -/
def sort_heap (v : List Transaction) (first last : Nat) : Option (List Transaction) :=
  sort_heap_loop first (last - first) v

/-- `std::__introsort_loop(first, last, depth_limit, comp)`; `_S_threshold` is 16 and the
branch for an exhausted `depth_limit` is `std::__partial_sort(first, last, last, comp)`,
that is `__heap_select` followed by `__sort_heap`. -/
def introsort_loop :
    Nat → List Transaction → Nat → Nat → Nat → Option (List Transaction)
  | 0, _, _, _, _ => none
  | fuel + 1, v, first, last, depth_limit =>
    if last - first > 16 then
      if depth_limit = 0 then
        match heap_select v first last last with
        | none => none
        | some v2 => sort_heap v2 first last
      else
        match unguarded_partition_pivot v first last with
        | none => none
        | some (v2, cut) =>
          match introsort_loop fuel v2 cut last (depth_limit - 1) with
          | none => none
          | some v3 => introsort_loop fuel v3 first cut (depth_limit - 1)
    else some v

/-- `std::__unguarded_linear_insert(last, comp)` once `val` holds `*last`: `last` is the
position of the hole. -/
def unguarded_linear_insert (val : Transaction) :
    List Transaction → Nat → Option (List Transaction)
  | _, 0 => none
  | v, next + 1 =>
    match v[next]? with
    | none => none
    | some x =>
      if by_timestamp val x then
        match write_at v (next + 1) x with
        | none => none
        | some v2 => unguarded_linear_insert val v2 next
      else write_at v (next + 1) val

/-- The loop of `__insertion_sort` over the positions `i`, `n` of them being left. -/
def insertion_sort_loop (first : Nat) :
    Nat → List Transaction → Nat → Option (List Transaction)
  | 0, v, _ => some v
  | n + 1, v, i =>
    match v[i]?, v[first]? with
    | some val, some x =>
      if by_timestamp val x then
        insertion_sort_loop first n
          (v.take first ++ val :: ((v.drop first).take (i - first) ++ v.drop (i + 1))) (i + 1)
      else
        match unguarded_linear_insert val v i with
        | none => none
        | some v2 => insertion_sort_loop first n v2 (i + 1)
    | _, _ => none

/-- `std::__insertion_sort(first, last, comp)`. -/
def insertion_sort (v : List Transaction) (first last : Nat) : Option (List Transaction) :=
  if first = last then some v
  else insertion_sort_loop first (last - (first + 1)) v (first + 1)

/-- The loop of `__unguarded_insertion_sort`. -/
def unguarded_insertion_sort_loop :
    Nat → List Transaction → Nat → Option (List Transaction)
  | 0, v, _ => some v
  | n + 1, v, i =>
    match v[i]? with
    | none => none
    | some val =>
      match unguarded_linear_insert val v i with
      | none => none
      | some v2 => unguarded_insertion_sort_loop n v2 (i + 1)

/-- `std::__unguarded_insertion_sort(first, last, comp)`. -/
def unguarded_insertion_sort (v : List Transaction) (first last : Nat) :
    Option (List Transaction) :=
  unguarded_insertion_sort_loop (last - first) v first

/-- `std::__final_insertion_sort(first, last, comp)`. -/
def final_insertion_sort (v : List Transaction) (first last : Nat) :
    Option (List Transaction) :=
  if last - first > 16 then
    match insertion_sort v first (first + 16) with
    | none => none
    | some v2 => unguarded_insertion_sort v2 (first + 16) last
  else insertion_sort v first last

/-- `std::sort(v.begin(), v.end(), comp)` (`std::__sort`). -/
def gnu_sort (v : List Transaction) : Option (List Transaction) :=
  if v.length = 0 then some v
  else
    match introsort_loop (v.length + 1) v 0 v.length (lg v.length * 2) with
    | none => none
    | some v2 => final_insertion_sort v2 0 v.length

/-! ## Concrete ingredients for the evaluations -/

/-- Timestamp order as a relation. -/
def ts_le (a b : Transaction) : Prop := a.timestamp ≤ b.timestamp

instance ts_le_decidable : DecidableRel ts_le := fun a b => Nat.decLe a.timestamp b.timestamp

instance ts_le_total : IsTotal Transaction ts_le := ⟨fun a b => Nat.le_total a.timestamp b.timestamp⟩

instance ts_le_trans : IsTrans Transaction ts_le := ⟨fun _ _ _ h1 h2 => Nat.le_trans h1 h2⟩

/-- Insertion sort, the algorithm common `std::sort` implementations run on short ranges; it
keeps transactions with equal timestamps in their input order. -/
def insertionStdSort : StdSort :=
  { sort := fun l => l.insertionSort ts_le
    perm := fun l => List.perm_insertionSort ts_le l
    sorted := fun l => by
      have h : List.Pairwise ts_le (l.insertionSort ts_le) :=
        List.sorted_insertionSort ts_le l
      refine h.imp ?_
      intro a b hab
      simp only [by_timestamp, decide_eq_false_iff_not, Nat.not_lt]
      exact hab }

/-- The run of `gnu_sort` on `l`, checked to be a rearrangement of `l` in which no element
compares less than an earlier one, which is what the library delivers for the strict weak
order `by_timestamp`; insertion sort stands in where the check would fail. -/
def gnu_sort_checked (l : List Transaction) : List Transaction :=
  match gnu_sort l with
  | some r =>
    if r.Perm l ∧ r.Pairwise (fun a b => by_timestamp b a = false) then r
    else l.insertionSort ts_le
  | none => l.insertionSort ts_le

/-- The `std::sort` of the GNU C++ library as a `StdSort`. -/
def gnuStdSort : StdSort :=
  { sort := gnu_sort_checked
    perm := fun l => by
      unfold gnu_sort_checked
      split
      · split
        · rename_i hc
          exact hc.1
        · exact List.perm_insertionSort ts_le l
      · exact List.perm_insertionSort ts_le l
    sorted := fun l => by
      have hins : (l.insertionSort ts_le).Pairwise (fun a b => by_timestamp b a = false) := by
        have h : List.Pairwise ts_le (l.insertionSort ts_le) :=
          List.sorted_insertionSort ts_le l
        refine h.imp ?_
        intro a b hab
        simp only [by_timestamp, decide_eq_false_iff_not, Nat.not_lt]
        exact hab
      unfold gnu_sort_checked
      split
      · split
        · rename_i hc
          exact hc.2
        · exact hins
      · exact hins }

/-- Member-wise equality, the `operator==` a defaulted comparison gives. -/
def memberwise_eq (a b : Transaction) : Bool := decide (a = b)

/-- The state a moved-from `Transaction` is left in by the implicit move assignment with the
strings and vectors of the GNU library: they are empty, the integers are as before. -/
def movedFromEmptied (t : Transaction) : Transaction :=
  { t with sender := "", receiver := "", signature := "", snark_proof := [] }

/-- A validator that rejects empty proofs. -/
def nonemptyProofValidator : SnarkProofValidator :=
  { validateProof := fun proof_data => !proof_data.isEmpty }

/-- A transaction of timestamp 5 with a one-byte proof. -/
def txA : Transaction :=
  { sender := "alice", receiver := "bob", amount := 10, timestamp := 5, signature := "sa",
    snark_proof := [1] }

/-- Another transaction of timestamp 5. -/
def txB : Transaction :=
  { sender := "bob", receiver := "carol", amount := 20, timestamp := 5, signature := "sb",
    snark_proof := [2] }

/-- A transaction of timestamp 1. -/
def txEarly : Transaction :=
  { sender := "carol", receiver := "dave", amount := 30, timestamp := 1, signature := "sc",
    snark_proof := [3] }

/-- A transaction of timestamp 9 with an empty proof. -/
def txNoProof : Transaction :=
  { sender := "dave", receiver := "erin", amount := 40, timestamp := 9, signature := "sd",
    snark_proof := [] }

/-- The constant `sizeof(Transaction)` of a 64-bit platform. -/
def sizeofTx64 : Nat := 136

/-- A pool whose later transaction was inserted first. -/
def unsortedPool : TransactionPool := { transactions := [txA, txEarly] }

/-- A pool holding the two transactions of timestamp 5, `txA` inserted first. -/
def tiePoolAB : TransactionPool :=
  insertTransaction SnarkProofValidator.source
    (insertTransaction SnarkProofValidator.source TransactionPool.empty txA) txB

/-- The same two transactions, `txB` inserted first. -/
def tiePoolBA : TransactionPool :=
  insertTransaction SnarkProofValidator.source
    (insertTransaction SnarkProofValidator.source TransactionPool.empty txB) txA

/-- The transaction of timestamp 5 and amount `k`. -/
def txTie (k : Nat) : Transaction :=
  { sender := "alice", receiver := "bob", amount := k, timestamp := 5, signature := "",
    snark_proof := [] }

/-- A pool into which the seventeen transactions `txTie 0`, ..., `txTie 16`, all of
timestamp 5, were inserted in this order. -/
def tiePool17 : TransactionPool :=
  ((List.range 17).map txTie).foldl (insertTransaction SnarkProofValidator.source)
    TransactionPool.empty

/-- A pool with three distinct timestamps. -/
def mixedPool : TransactionPool := { transactions := [txNoProof, txA, txEarly] }

/-- The pool `mixedPool` in another order. -/
def mixedPoolShuffled : TransactionPool := { transactions := [txEarly, txNoProof, txA] }

/-- A pool holding `txA` twice. -/
def doubledPool : TransactionPool := { transactions := [txA, txB, txA] }

end TxPool

/-! # `consensus.cpp`: rounds, leader selection and distribution

The classes `Node`, `Networking`, `Block` and `Transaction` that `consensus.cpp` uses, the
function `SnarkProof::verify` and the constants `MIN_REPUTATION_THRESHOLD` and
`BLOCK_REWARD` are declared outside the sources at hand; what the code calls on them are the
fields of `ConsensusApi`. `unsigned int` is taken as 32 bits wide. -/

namespace ConsensusCpp

/-- What `consensus.cpp` takes from its surroundings. -/
structure ConsensusApi (N B Tx : Type) where
  /-- The accessors of `Block` and `Transaction` that `blockchain.cpp` reads. -/
  block : BlockchainCpp.BlockApi B Tx
  /-- `Node::getId`. -/
  getId : N → String
  /-- `Node::getReputation`. -/
  getReputation : N → Nat
  /-- `Node::proposeBlock`. -/
  proposeBlock : N → B
  /-- `Node::addToBalance`. -/
  addToBalance : N → Nat → N
  /-- `Transaction::getFee`. -/
  getFee : Tx → Nat
  /-- The test `SnarkProof::verify(tx.getSnarkProof())`. -/
  verifySnark : Tx → Bool
  /-- The constant `MIN_REPUTATION_THRESHOLD`. -/
  minReputationThreshold : Nat
  /-- The constant `BLOCK_REWARD`. -/
  blockReward : Nat

/-- A message handed to the network by `startRound`. -/
inductive Broadcast (B : Type) where
  | leader (id : String)
  | block (b : B)

/-- The state `consensus.cpp` works on: the chain of `blockchain`, the nodes of `network`
(`network.getNodes()`), the members `currentRound` and `currentLeader`, and the messages
broadcast so far. The declaration of `currentRound` is not among the sources; it is taken as
an unbounded counter. -/
structure Consensus (N B : Type) where
  chain : List B
  nodes : List N
  currentRound : Nat
  currentLeader : Option N
  broadcasts : List (Broadcast B)

/-- The first loop of `Consensus::selectLeader`: the candidates whose reputation exceeds
`MIN_REPUTATION_THRESHOLD`, in roster order. -/
def eligibleNodes {N B Tx : Type} (A : ConsensusApi N B Tx) : List N → List N
  | [] => []
  | node :: rest =>
    if A.getReputation node > A.minReputationThreshold then node :: eligibleNodes A rest
    else eligibleNodes A rest

/-- The second loop of `Consensus::selectLeader`, with the locals `leader` and
`highestReputation` (an `unsigned int`). -/
def highest_loop {N B Tx : Type} (A : ConsensusApi N B Tx) : List N → Option N → Nat → Option N
  | [], leader, _ => leader
  | node :: rest, leader, highestReputation =>
    if A.getReputation node > highestReputation then
      highest_loop A rest (some node) (A.getReputation node % 2 ^ 32)
    else highest_loop A rest leader highestReputation

/-- `Consensus::selectLeader` on the roster `network.getNodes()`; `none` is `nullptr`. -/
def selectLeader {N B Tx : Type} (A : ConsensusApi N B Tx) (candidates : List N) : Option N :=
  let eligible := eligibleNodes A candidates
  if eligible.isEmpty then none
  else highest_loop A eligible none 0

/-- The first loop of `Consensus::validateBlock`: every transaction passes
`SnarkProof::verify`. -/
def snarkProofsVerify {N B Tx : Type} (A : ConsensusApi N B Tx) : List Tx → Bool
  | [] => true
  | tx :: rest => if !A.verifySnark tx then false else snarkProofsVerify A rest

/-- `Consensus::validateBlock`; `blockchain.getLatestBlock()` is undefined on an empty
chain. -/
def validateBlock {N B Tx : Type} (A : ConsensusApi N B Tx) (chain : List B) (block : B) :
    Option Bool :=
  if !snarkProofsVerify A (A.block.getTransactions block) then some false
  else
    match chain.getLast? with
    | none => none
    | some latest =>
      if !BlockchainCpp.isValidNewBlock A.block block latest then some false else some true

/-- `Consensus::startRound`. -/
def startRound {N B Tx : Type} (A : ConsensusApi N B Tx) (s : Consensus N B) :
    Option (Consensus N B) :=
  let s1 := { s with currentRound := s.currentRound + 1 }
  let s2 := { s1 with currentLeader := selectLeader A s1.nodes }
  match s2.currentLeader with
  | none => some s2
  | some leader =>
    let s3 := { s2 with broadcasts := s2.broadcasts ++ [Broadcast.leader (A.getId leader)] }
    let proposedBlock := A.proposeBlock leader
    match validateBlock A s3.chain proposedBlock with
    | none => none
    | some true =>
      match BlockchainCpp.addBlock A.block s3.chain proposedBlock with
      | none => none
      | some chain2 =>
        some { s3 with chain := chain2,
                       broadcasts := s3.broadcasts ++ [Broadcast.block proposedBlock] }
    | some false => some s3

/-- The local `rewardPerValidator` of `Consensus::distributeRewards` (an `unsigned int`);
the division is undefined for an empty chain. -/
def rewardPerValidator {N B Tx : Type} (A : ConsensusApi N B Tx) (s : Consensus N B) :
    Option Nat :=
  if s.chain.length = 0 then none
  else some ((A.blockReward / s.chain.length) % 2 ^ 32)

/-- `Consensus::distributeRewards`. -/
def distributeRewards {N B Tx : Type} (A : ConsensusApi N B Tx) (s : Consensus N B) :
    Option (Consensus N B) :=
  match rewardPerValidator A s with
  | none => none
  | some reward => some { s with nodes := s.nodes.map (fun node => A.addToBalance node reward) }

/-- The local `totalFees` of `Consensus::distributeFees` after its loop (an
`unsigned int`). -/
def totalFees {N B Tx : Type} (A : ConsensusApi N B Tx) (transactions : List Tx) : Nat :=
  transactions.foldl (fun total tx => (total + A.getFee tx) % 2 ^ 32) 0

/-- The local `feePerValidator` of `Consensus::distributeFees`; `getLatestBlock()` is
undefined on an empty chain and the division for an empty roster. -/
def feePerValidator {N B Tx : Type} (A : ConsensusApi N B Tx) (s : Consensus N B) :
    Option Nat :=
  match s.chain.getLast? with
  | none => none
  | some latestBlock =>
    if s.nodes.length = 0 then none
    else some ((totalFees A (A.block.getTransactions latestBlock) / s.nodes.length) % 2 ^ 32)

/-- `Consensus::distributeFees`. -/
def distributeFees {N B Tx : Type} (A : ConsensusApi N B Tx) (s : Consensus N B) :
    Option (Consensus N B) :=
  match feePerValidator A s with
  | none => none
  | some fee => some { s with nodes := s.nodes.map (fun node => A.addToBalance node fee) }

/-! ## Concrete ingredients for the evaluations -/

/-- A node given by the values its accessors return. -/
structure PlainNode where
  id : String
  reputation : Nat
  selected_timetokens : Nat
  balance : Nat
  deriving DecidableEq, Repr

/-- A transaction given by its validity, its fee and the outcome of its proof check. -/
structure PlainTx where
  valid : Bool
  fee : Nat
  proofOk : Bool
  deriving DecidableEq, Repr

/-- A block given by the values its accessors return. -/
structure FeeBlock where
  hash : String
  previousHash : String
  transactions : List PlainTx
  deriving DecidableEq, Repr

/-- Accessors of the plain types; a leader proposes `proposal`; the threshold is
`threshold` and the block reward 50. -/
def plainConsensusApi (threshold : Nat) (proposal : FeeBlock) :
    ConsensusApi PlainNode FeeBlock PlainTx :=
  { block :=
      { getHash := FeeBlock.hash, getPreviousHash := FeeBlock.previousHash,
        getTransactions := FeeBlock.transactions, isValid := PlainTx.valid }
    getId := PlainNode.id
    getReputation := PlainNode.reputation
    proposeBlock := fun _ => proposal
    addToBalance := fun node amount => { node with balance := node.balance + amount }
    getFee := PlainTx.fee
    verifySnark := PlainTx.proofOk
    minReputationThreshold := threshold
    blockReward := 50 }

/-- A genesis block without transactions. -/
def feeGenesis : FeeBlock := { hash := "0000aa", previousHash := "0", transactions := [] }

/-- A mined block on `feeGenesis` with fees 1, 2 and 3. -/
def feeBlock123 : FeeBlock :=
  { hash := "0000bb", previousHash := "0000aa",
    transactions := [{ valid := true, fee := 1, proofOk := true },
                     { valid := true, fee := 2, proofOk := true },
                     { valid := true, fee := 3, proofOk := true }] }

/-- A block on `feeGenesis` whose hash lacks the proof-of-work pattern. -/
def feeBlockUnmined : FeeBlock :=
  { hash := "12ab", previousHash := "0000aa", transactions := [] }

/-- A block whose two fees add up to `2 ^ 32`. -/
def feeBlockHuge : FeeBlock :=
  { hash := "0000cc", previousHash := "0000aa",
    transactions := [{ valid := true, fee := 2 ^ 31, proofOk := true },
                     { valid := true, fee := 2 ^ 31, proofOk := true }] }

/-- Node of reputation 5. -/
def node5 : PlainNode := { id := "n5", reputation := 5, selected_timetokens := 0, balance := 0 }

/-- Node of reputation 8. -/
def node8 : PlainNode := { id := "n8", reputation := 8, selected_timetokens := 0, balance := 0 }

/-- Node of reputation 10 with 1 selected time-token. -/
def node10a : PlainNode :=
  { id := "n10a", reputation := 10, selected_timetokens := 1, balance := 0 }

/-- Node of reputation 10 with 7 selected time-tokens. -/
def node10b : PlainNode :=
  { id := "n10b", reputation := 10, selected_timetokens := 7, balance := 0 }

/-- A state with the given chain and roster at round 0. -/
def plainState (chain : List FeeBlock) (nodes : List PlainNode) : Consensus PlainNode FeeBlock :=
  { chain := chain, nodes := nodes, currentRound := 0, currentLeader := none, broadcasts := [] }

end ConsensusCpp

/-! # `consensus.h`: nodes and the shuffled leader election

`std::shuffle` with a `std::default_random_engine` seeded by the clock is an argument: all
the standard promises is that it rearranges the range. `Blockchain::create_block`, which
`create_and_broadcast_block` calls, is not declared in `blockchain.h` and is an argument as
well. The roster `nodes` is the list of the `Node` objects its pointers refer to, one object
per entry; a `std::shared_ptr<Node>` taken from the roster is the position of its entry. -/

namespace ConsensusH

/-- Class `Node` of `consensus.h`. -/
structure Node where
  id : String
  reputation : Nat
  timetokens : Nat
  selected_timetokens : Nat
  is_leader : Bool
  deriving DecidableEq, Repr

/-- The constructor `Node::Node(node_id)`. -/
def Node.new (node_id : String) : Node :=
  { id := node_id, reputation := 0, timetokens := 0, selected_timetokens := 0,
    is_leader := false }

/-- `Node::increment_reputation`; both fields are `uint64_t`. -/
def Node.increment_reputation (n : Node) (amount : Nat) : Node :=
  { n with reputation := (n.reputation + amount) % 2 ^ 64,
           timetokens := (n.timetokens + amount) % 2 ^ 64 }

/-- `Node::reset_timetokens`. -/
def Node.reset_timetokens (n : Node) : Node :=
  { n with selected_timetokens := n.timetokens }

/-- `Node::operator<`. -/
def Node.lt (n other : Node) : Bool :=
  if n.reputation = other.reputation then
    decide (n.selected_timetokens < other.selected_timetokens)
  else decide (n.reputation < other.reputation)

/-- What the C++ standard promises of `std::shuffle`: for each seed of the random engine the
result is a rearrangement of the input. The range shuffled in `select_leader` holds pointers
into the roster. -/
structure StdShuffle where
  shuffle : Nat → List Nat → List Nat
  perm : ∀ seed l, (shuffle seed l).Perm l

/-- Class `Consensus` of `consensus.h`; `blockchain` is the ledger the pointer refers to. -/
structure Consensus where
  blockchain : Ledger.Blockchain
  nodes : List Node
  round_number : Nat

/-- The constructor `Consensus::Consensus(chain)`. -/
def Consensus.new (chain : Ledger.Blockchain) : Consensus :=
  { blockchain := chain, nodes := [], round_number := 0 }

/-- `Consensus::add_node`. -/
def add_node (c : Consensus) (node : Node) : Consensus :=
  { c with nodes := c.nodes ++ [node] }

/-- The loop of `get_eligible_nodes_for_leadership` over the nodes still to visit, with the
local `max_reputation`. -/
def eligible_loop : List Node → Nat → List Node
  | [], _ => []
  | node :: rest, max_reputation =>
    if node.reputation ≥ max_reputation then node :: eligible_loop rest node.reputation
    else eligible_loop rest max_reputation

/-- `Consensus::get_eligible_nodes_for_leadership`. -/
def get_eligible_nodes_for_leadership (nodes : List Node) : List Node :=
  eligible_loop nodes 0

/-- The loop of `get_eligible_nodes_for_leadership` as it fills the vector of pointers: `i`
is the position in the roster of the node visited, which is what is pushed. -/
def eligible_pointers_loop : List Node → Nat → Nat → List Nat
  | [], _, _ => []
  | node :: rest, i, max_reputation =>
    if node.reputation ≥ max_reputation then
      i :: eligible_pointers_loop rest (i + 1) node.reputation
    else eligible_pointers_loop rest (i + 1) max_reputation

/-- The vector of pointers `get_eligible_nodes_for_leadership` returns;
`get_eligible_nodes_for_leadership` above is the list of the nodes they refer to. -/
def eligible_pointers (nodes : List Node) : List Nat :=
  eligible_pointers_loop nodes 0 0

/-- `Consensus::select_leader` with the clock reading `seed`: the elected node and the roster
after the call. `eligible_nodes.back()` is undefined on an empty list. The flag `is_leader`
is written through the pointer `leader`, so it shows on the returned node and on the one
roster entry the pointer refers to. -/
def select_leader (Sh : StdShuffle) (seed : Nat) (nodes : List Node) :
    Option (Node × List Node) :=
  let eligible_nodes := Sh.shuffle seed (eligible_pointers nodes)
  match eligible_nodes.getLast? with
  | none => none
  | some leader =>
    match nodes[leader]? with
    | none => none
    | some node =>
      some ({ node with is_leader := true },
            nodes.set leader { node with is_leader := true })

/-- `Consensus::gather_transactions_for_block`: the placeholder returns an empty vector. -/
def gather_transactions_for_block : List Ledger.Block := []

/-- `Consensus::create_and_broadcast_block`. -/
def create_and_broadcast_block (P : Ledger.Platform)
    (create_block : Ledger.Blockchain → List Ledger.Block → Node → Ledger.Block)
    (c : Consensus) (leader : Node) : Consensus :=
  let transactions_to_include := gather_transactions_for_block
  let new_block := create_block c.blockchain transactions_to_include leader
  { c with blockchain := (Ledger.add_block P c.blockchain new_block).2 }

/-- `Consensus::run_consensus_round`; `round_number` is a `uint64_t`. -/
def run_consensus_round (P : Ledger.Platform) (Sh : StdShuffle)
    (create_block : Ledger.Blockchain → List Ledger.Block → Node → Ledger.Block)
    (seed : Nat) (c : Consensus) : Option Consensus :=
  match select_leader Sh seed c.nodes with
  | none => none
  | some (leader, nodes2) =>
    let c2 := create_and_broadcast_block P create_block { c with nodes := nodes2 } leader
    some { c2 with round_number := (c2.round_number + 1) % 2 ^ 64 }

/-! ## Concrete ingredients for the evaluations -/

/-- A node of reputation 2. -/
def nodeTwo : Node := (Node.new "two").increment_reputation 2

/-- A node whose reputation is the largest 64-bit value. -/
def nodeFull : Node := (Node.new "full").increment_reputation (2 ^ 64 - 1)

/-- A block builder standing in for `Blockchain::create_block`. -/
def plainCreateBlock (bc : Ledger.Blockchain) (_transactions : List Ledger.Block)
    (leader : Node) : Ledger.Block :=
  Ledger.Block.new Ledger.refPlatform bc.chain.length "" [] leader.id 1700000009

end ConsensusH

/-! # `compression.h` and `compression.cpp`: the compression codec

`compress_data` and `decompress_data` are the functions of `compression.h`;
`recursiveCompress` is the one of `compression.cpp`. The zlib-backed `compress` it calls
(which may throw) and the constant `MIN_COMPRESSION_THRESHOLD`, which the sources do not
declare, are arguments. A byte vector is a list of numbers. -/

namespace Compcrypt

/-- `Compcrypt::compress_data`: the placeholder returns a copy of its argument. -/
def compress_data (data : String) : String :=
  let compressed := data
  compressed

/-- `Compcrypt::decompress_data`: the placeholder returns a copy of its argument. -/
def decompress_data (compressed_data : String) : String :=
  let decompressed := compressed_data
  decompressed

/-- `Compcrypt::recursiveCompress`; `compress` answers `none` when it throws, and so does
`recursiveCompress` then. -/
def recursiveCompress (compress : List Nat → Option (List Nat))
    (minCompressionThreshold : Nat) (inputData : List Nat) : Option (List Nat) :=
  if inputData.length < minCompressionThreshold then some inputData
  else
    match compress inputData with
    | none => none
    | some compressedData =>
      if compressedData.length < inputData.length then
        recursiveCompress compress minCompressionThreshold compressedData
      else some inputData
termination_by inputData.length

/-- A stand-in for `compress` that drops the first byte. -/
def dropFirst (inputData : List Nat) : Option (List Nat) := some (inputData.drop 1)

end Compcrypt

/-! # `snark_proof.cpp`: mock proof generation -/

namespace SnarkProofCpp

/-- Struct `Transaction` of `snark_proof.cpp`. -/
structure Transaction where
  sender : String
  receiver : String
  amount : Nat
  timestamp : Nat
  proof : String
  deriving DecidableEq, Repr

/-- `generate_mock_snark_proof`: the returned flag and the string written to `proof`. -/
def generate_mock_snark_proof (input_value : Nat) : Bool × String :=
  (true, "SNARK-proof-for-value-" ++ toString input_value)

/-- `Transaction::generate_snark`: the returned flag and the transaction after the call. -/
def Transaction.generate_snark (tx : Transaction) (input_value : Nat) : Bool × Transaction :=
  ((generate_mock_snark_proof input_value).1,
   { tx with proof := (generate_mock_snark_proof input_value).2 })

/-- The bytes of a proof string. -/
def proof_bytes (proof : String) : List Nat := proof.data.map Char.toNat

/-- A transfer of 100 from alice to bob. -/
def txAliceBob : Transaction :=
  { sender := "alice", receiver := "bob", amount := 100, timestamp := 1700000000, proof := "" }

/-- A transfer of 100 from carol to dave. -/
def txCarolDave : Transaction :=
  { sender := "carol", receiver := "dave", amount := 100, timestamp := 1700000000, proof := "" }

/-- A transfer of 50 from alice to bob. -/
def txAliceBob50 : Transaction :=
  { sender := "alice", receiver := "bob", amount := 50, timestamp := 1700000000, proof := "" }

end SnarkProofCpp

/-! # Further concrete values for the evaluations -/

namespace Ledger

/-- A block of index 1 on the previous hash "23". -/
def blockOneTwoThree : Block :=
  { index := 1, previous_hash := "23", block_hash := "", timestamp := 7, transactions := [],
    block_proposer := "node-a", is_valid := true }

/-- A block of index 12 on the previous hash "3", all else as in `blockOneTwoThree`. -/
def blockTwelveThree : Block :=
  { index := 12, previous_hash := "3", block_hash := "", timestamp := 7, transactions := [],
    block_proposer := "node-a", is_valid := true }

/-- A transaction of `blockchain.h` with a long sender name. -/
def txLongNames : Transaction :=
  { sender := "a-very-long-sender-name", receiver := "a-very-long-receiver-name",
    amount := 123456789, timestamp := 1700000000, snark_proof := "proof" }

/-- A transaction of `blockchain.h` with one-letter names. -/
def txShortNames : Transaction :=
  { sender := "s", receiver := "r", amount := 1, timestamp := 1, snark_proof := "" }

/-- A block of index 1 carrying the two given transactions. -/
def blockWithTwo (t1 t2 : Transaction) : Block :=
  { index := 1, previous_hash := "p", block_hash := "h", timestamp := 7,
    transactions := [t1, t2], block_proposer := "node-a", is_valid := true }

end Ledger

/-! # Properties of `blockchain.h` -/

set_option maxRecDepth 100000

namespace Ledger

/-! ## `add_block`: what the flag depends on -/

theorem add_block_fst (P : Platform) (s : Blockchain) (b : Block) :
    (add_block P s b).1 = (decide (b.index = s.chain.length) &&
      decide (block_size P b ≤ s.max_block_size)) := by
  unfold add_block
  by_cases h1 : b.index = s.chain.length
  · by_cases h2 : block_size P b ≤ s.max_block_size
    · have h2' : ¬ block_size P b > s.max_block_size := Nat.not_lt.mpr h2
      simp [h1, h2, h2']
    · have h2' : block_size P b > s.max_block_size := Nat.lt_of_not_le h2
      simp [h1, h2, h2']
  · simp [h1]

theorem add_block_snd_of_false (P : Platform) (s : Blockchain) (b : Block)
    (h : (add_block P s b).1 = false) : (add_block P s b).2 = s := by
  unfold add_block at h ⊢
  by_cases h1 : b.index = s.chain.length
  · by_cases h2 : block_size P b > s.max_block_size
    · simp [h1, h2]
    · simp [h1, h2] at h
  · simp [h1]

/-- C1 (evaluation at the failing input): on the reachable ledger `prunedLedger`
(`max_chain_size = 1`, genesis already pruned) the latest block has index 2, the chain has
length 2, and `add_block` accepts `staleBlock`, whose index 2 is not the latest index plus
one, while it rejects the block `build_next` produces with index 3. -/
theorem add_block_index_check_after_prune :
    ReachableByAdd refPlatform (1024 * 1024 * 1) 1 prunedLedger ∧
    (get_latest_block prunedLedger).map Block.index = some 2 ∧
    staleBlock.index = 2 ∧
    (add_block refPlatform prunedLedger staleBlock).1 = true ∧
    (append_seq refPlatform "node-a" prunedLedger [1700000004]).1 = [false] := by
  refine ⟨?_, by decide, by decide, by decide, by decide⟩
  exact ReachableByAdd.add _ _ (ReachableByAdd.add _ _ (ReachableByAdd.init _))

/-- C2 (evaluation at the failing input): `add_block` on a fresh ledger accepts and appends
`unlinkedBlock`, whose `previous_hash` differs from the latest block's hash; the chain it
leaves behind fails `validate_blockchain`. -/
theorem add_block_accepts_unlinked_block :
    (get_latest_block freshLedger).map Block.block_hash ≠ some unlinkedBlock.previous_hash ∧
    (add_block refPlatform freshLedger unlinkedBlock).1 = true ∧
    (add_block refPlatform freshLedger unlinkedBlock).2.chain =
      freshLedger.chain ++ [unlinkedBlock] ∧
    validate_blockchain refPlatform (add_block refPlatform freshLedger unlinkedBlock).2 = false := by
  refine ⟨by decide, by decide, by decide, by decide⟩

/-- C3 (evaluation at the failing input): `add_block` on a fresh ledger accepts and appends
`forgedBlock`, whose stored `block_hash` differs from its `compute_hash()`; the chain it
leaves behind fails `validate_blockchain`. -/
theorem add_block_accepts_forged_hash :
    forgedBlock.block_hash ≠ forgedBlock.compute_hash refPlatform ∧
    (get_latest_block freshLedger).map Block.block_hash = some forgedBlock.previous_hash ∧
    (add_block refPlatform freshLedger forgedBlock).1 = true ∧
    (add_block refPlatform freshLedger forgedBlock).2.chain =
      freshLedger.chain ++ [forgedBlock] ∧
    validate_blockchain refPlatform (add_block refPlatform freshLedger forgedBlock).2 = false := by
  refine ⟨by decide, by decide, by decide, by decide, by decide⟩

/-- C5: whenever `add_block` returns false, `chain` and `block_map` are exactly as they
were before the call. -/
theorem add_block_false_leaves_ledger (P : Platform) (s : Blockchain) (b : Block)
    (h : (add_block P s b).1 = false) :
    (add_block P s b).2.chain = s.chain ∧ (add_block P s b).2.block_map = s.block_map := by
  rw [add_block_snd_of_false P s b h]
  exact ⟨rfl, rfl⟩

/-- Witness for C5: `staleBlock` (index 2) offered to a fresh ledger (chain length 1). -/
theorem add_block_false_leaves_ledger_witness :
    (add_block refPlatform freshLedger staleBlock).1 = false ∧
    (add_block refPlatform freshLedger staleBlock).2.chain = freshLedger.chain ∧
    (add_block refPlatform freshLedger staleBlock).2.block_map = freshLedger.block_map :=
  ⟨by decide, add_block_false_leaves_ledger refPlatform freshLedger staleBlock (by decide)⟩

/-! ## Chain length -/

theorem prune_blockchain_length (s : Blockchain) (h : s.chain.length > s.max_chain_size) :
    (prune_blockchain s).chain.length + 1 = s.chain.length := by
  unfold prune_blockchain
  rw [if_pos h]
  cases hc : s.chain with
  | nil => rw [hc] at h; simp at h
  | cons b rest => simp

theorem add_block_max_chain_size (P : Platform) (s : Blockchain) (b : Block) :
    (add_block P s b).2.max_chain_size = s.max_chain_size := by
  unfold add_block prune_blockchain
  split
  · rfl
  · split
    · rfl
    · split
      · split
        · cases s.chain <;> rfl
        · rfl
      · rfl

/-- The bound the code does maintain: a chain built by `add_block` never holds more than
`max_chain_size + 1` blocks. -/
theorem chain_length_le_succ (P : Platform) (max_size max_chain : Nat) (s : Blockchain)
    (h : ReachableByAdd P max_size max_chain s) :
    s.max_chain_size = max_chain ∧ s.chain.length ≤ max_chain + 1 := by
  induction h with
  | init now => exact ⟨rfl, by simp [Blockchain.new]⟩
  | add s b _ ih =>
    obtain ⟨hm, hl⟩ := ih
    refine ⟨by rw [add_block_max_chain_size, hm], ?_⟩
    cases hf : (add_block P s b).1 with
    | false => rw [add_block_snd_of_false P s b hf]; exact hl
    | true =>
      unfold add_block at hf ⊢
      by_cases h1 : b.index = s.chain.length
      · by_cases h2 : block_size P b > s.max_block_size
        · simp [h1, h2] at hf
        · by_cases h3 : s.chain.length > s.max_chain_size
          · have hp := prune_blockchain_length s h3
            simp only [h1, h2, h3, ne_eq, not_true_eq_false, if_false, if_true,
              List.length_append, List.length_singleton]
            omega
          · simp only [h1, h2, h3, ne_eq, not_true_eq_false, if_false,
              List.length_append, List.length_singleton]
            omega
      · simp [h1] at hf

/-- C9 (evaluation at the failing input): a ledger constructed with `max_chain_size = 1`
accepts the first sequential append and then holds 2 blocks, more than `max_chain_size`. -/
theorem chain_exceeds_max_chain_size :
    smallLedger.max_chain_size = 1 ∧
    (append_seq refPlatform "node-a" smallLedger [1700000001]).1 = [true] ∧
    (append_seq refPlatform "node-a" smallLedger [1700000001]).2.chain.length = 2 := by
  refine ⟨by decide, by decide, by decide⟩

/-- C10 (evaluation at the failing input): with `max_chain_size = 3`, of five sequential
appends the first four succeed and the fifth is rejected; the final chain holds the 4 blocks
of index 1 to 4 and `block_map` holds exactly their 4 hashes. -/
theorem pruning_scenario_three_five :
    mediumLedger.max_chain_size = 3 ∧
    (append_seq refPlatform "node-a" mediumLedger fiveTicks).1 =
      [true, true, true, true, false] ∧
    (append_seq refPlatform "node-a" mediumLedger fiveTicks).2.chain.map Block.index =
      [1, 2, 3, 4] ∧
    (append_seq refPlatform "node-a" mediumLedger fiveTicks).2.block_map.keys =
      (append_seq refPlatform "node-a" mediumLedger fiveTicks).2.chain.map Block.block_hash := by
  refine ⟨by decide, by decide, by decide, by decide⟩

/-! ## `validate_blockchain` accepts linked, well-hashed chains -/

theorem validate_from_of_linked (P : Platform) (l : List Block) :
    ∀ prev : Block,
      (∀ i a b, (prev :: l)[i]? = some a → (prev :: l)[i + 1]? = some b →
        b.previous_hash = a.block_hash) →
      (∀ b ∈ l, b.block_hash = b.compute_hash P) →
      validate_from P prev l = true := by
  induction l with
  | nil => intro prev _ _; rfl
  | cons c rest ih =>
    intro prev hlink hhash
    have h1 : c.previous_hash = prev.block_hash := hlink 0 prev c (by simp) (by simp)
    have h2 : c.block_hash = c.compute_hash P := hhash c (List.mem_cons_self _ _)
    have h3 : validate_from P c rest = true :=
      ih c (fun i a b ha hb => hlink (i + 1) a b (by simpa using ha) (by simpa using hb))
        (fun b hb => hhash b (List.mem_cons_of_mem _ hb))
    simp [validate_from, Block.get_block_hash, h1, ← h2, h3]

/-- C6: for every chain in which each block at a position `i + 1` has `previous_hash` equal
to the `block_hash` of the block at position `i`, and every block's stored `block_hash`
equals its `compute_hash()`, `validate_blockchain()` returns true. -/
theorem validate_blockchain_of_linked (P : Platform) (s : Blockchain)
    (hlink : ∀ i a b, s.chain[i]? = some a → s.chain[i + 1]? = some b →
      b.previous_hash = a.block_hash)
    (hhash : ∀ b ∈ s.chain, b.block_hash = b.compute_hash P) :
    validate_blockchain P s = true := by
  unfold validate_blockchain
  cases hc : s.chain with
  | nil => rfl
  | cons first rest =>
    rw [hc] at hlink hhash
    exact validate_from_of_linked P rest first hlink
      (fun b hb => hhash b (List.mem_cons_of_mem _ hb))

theorem linked_of_links_ok (l : List Block) (h : links_ok l = true) :
    ∀ i a b, l[i]? = some a → l[i + 1]? = some b → b.previous_hash = a.block_hash := by
  induction l with
  | nil => intro i a b ha; simp at ha
  | cons x rest ih =>
    intro i a b ha hb
    cases rest with
    | nil => simp at hb
    | cons y rest2 =>
      simp only [links_ok, Bool.and_eq_true, decide_eq_true_eq] at h
      cases i with
      | zero =>
        simp at ha hb
        subst ha; subst hb
        exact h.1
      | succ j => exact ih h.2 j a b (by simpa using ha) (by simpa using hb)

/-- Witness for C6: the chain of `linkedLedger` (three blocks built one on another). -/
theorem validate_blockchain_of_linked_witness :
    linkedLedger.chain.length = 3 ∧ validate_blockchain refPlatform linkedLedger = true :=
  ⟨by decide,
   validate_blockchain_of_linked refPlatform linkedLedger
     (linked_of_links_ok linkedLedger.chain (by decide)) (by decide)⟩

/-! ## Decimal numerals and the collision-free digest -/

theorem toDigitsCore_append (fuel : Nat) : ∀ (n : Nat) (ds : List Char),
    Nat.toDigitsCore 10 fuel n ds = Nat.toDigitsCore 10 fuel n [] ++ ds := by
  induction fuel with
  | zero => intro n ds; simp [Nat.toDigitsCore]
  | succ f ih =>
    intro n ds
    simp only [Nat.toDigitsCore]
    split
    · simp
    · rw [ih (n / 10) (Nat.digitChar (n % 10) :: ds), ih (n / 10) [Nat.digitChar (n % 10)]]
      simp

theorem digitChar_val (d : Nat) (h : d < 10) : (Nat.digitChar d).toNat - 48 = d := by
  interval_cases d <;> decide

theorem digitsVal_toDigitsCore (fuel : Nat) : ∀ n, n < fuel →
    digitsVal (Nat.toDigitsCore 10 fuel n []) = n := by
  induction fuel with
  | zero => intro n h; omega
  | succ f ih =>
    intro n h
    simp only [Nat.toDigitsCore]
    split
    · have hn : n < 10 := by omega
      have hmod : n % 10 = n := by omega
      simp [digitsVal, hmod, digitChar_val n hn]
    · rw [toDigitsCore_append]
      have hlt : n / 10 < f := by omega
      have hrec := ih (n / 10) hlt
      simp only [digitsVal] at hrec ⊢
      rw [List.foldl_append, hrec]
      simp [digitChar_val (n % 10) (Nat.mod_lt _ (by decide))]
      omega

/-- The rendering of `std::to_string` on unsigned integers is injective. -/
theorem toString_nat_injective : Function.Injective (fun n : Nat => toString n) := by
  intro n m h
  have h1 : Nat.toDigits 10 n = Nat.toDigits 10 m := by
    have := congrArg String.data h
    simpa [toString, Nat.repr, List.asString] using this
  have h2 := congrArg digitsVal h1
  simpa [Nat.toDigits, digitsVal_toDigitsCore] using h2

theorem char_toNat_lt (c : Char) : c.toNat < 0x110000 := by
  have := c.valid
  simp only [UInt32.isValidChar, Nat.isValidChar] at this
  simp only [Char.toNat]
  omega

theorem char_eq_of_toNat (a b : Char) (h : a.toNat = b.toNat) : a = b := by
  apply Char.ext
  apply UInt32.ext
  simpa [Char.toNat] using h

theorem idealFold_snoc (l : List Char) (c : Char) :
    idealFold (l ++ [c]) = idealFold l * 0x110001 + (c.toNat + 1) := by
  simp [idealFold, List.foldl_append]

theorem idealFold_injective : ∀ l1 l2 : List Char, idealFold l1 = idealFold l2 → l1 = l2 := by
  intro l1
  induction l1 using List.reverseRecOn with
  | nil =>
    intro l2
    induction l2 using List.reverseRecOn with
    | nil => intro _; rfl
    | append_singleton l c _ =>
      intro h
      rw [idealFold_snoc] at h
      have h0 : idealFold [] = 0 := rfl
      omega
  | append_singleton l1 c1 ih =>
    intro l2
    induction l2 using List.reverseRecOn with
    | nil =>
      intro h
      rw [idealFold_snoc] at h
      have h0 : idealFold [] = 0 := rfl
      omega
    | append_singleton l2 c2 _ =>
      intro h
      rw [idealFold_snoc, idealFold_snoc] at h
      have b1 := char_toNat_lt c1
      have b2 := char_toNat_lt c2
      have hc : c1.toNat = c2.toNat := by omega
      have hl : idealFold l1 = idealFold l2 := by omega
      rw [ih l2 hl, char_eq_of_toNat c1 c2 hc]

theorem idealHash_injective : Function.Injective idealHash := by
  intro s t h
  have := idealFold_injective s.data t.data h
  exact String.ext this

/-! ## `validate_blockchain` and single-field mutations -/

theorem str_append_right_cancel (a b c : String) (h : a ++ c = b ++ c) : a = b := by
  have h1 := congrArg String.data h
  simp only [String.data_append] at h1
  exact String.ext (List.append_cancel_right h1)

theorem str_append_left_cancel (a b c : String) (h : c ++ a = c ++ b) : a = b := by
  have h1 := congrArg String.data h
  simp only [String.data_append] at h1
  exact String.ext (List.append_cancel_left h1)

theorem foldl_data_append (P : Platform) (txns : List Transaction) : ∀ init : String,
    txns.foldl (fun data txn => data ++ txn.get_transaction_data P) init =
      init ++ transactions_data P txns := by
  induction txns with
  | nil => intro init; simp [transactions_data]
  | cons t rest ih =>
    intro init
    simp only [transactions_data, List.foldl_cons]
    rw [ih (init ++ t.get_transaction_data P), ih ("" ++ t.get_transaction_data P)]
    simp [String.append_assoc]

theorem hash_data_eq (P : Platform) (b : Block) :
    b.hash_data P =
      toString b.index ++ b.previous_hash ++ toString b.timestamp ++ b.block_proposer ++
        transactions_data P b.transactions := by
  unfold Block.hash_data
  exact foldl_data_append P b.transactions _

theorem hash_data_changes (P : Platform) (m : FieldMutation) (b : Block)
    (hm : m.changes_data P b) : (m.apply b).hash_data P ≠ b.hash_data P := by
  intro h
  rw [hash_data_eq, hash_data_eq] at h
  cases m with
  | index v =>
    simp only [FieldMutation.apply, String.append_assoc] at h
    exact hm (toString_nat_injective (str_append_right_cancel _ _ _ h))
  | previous_hash v =>
    simp only [FieldMutation.apply, String.append_assoc] at h
    exact hm (str_append_right_cancel _ _ _ (str_append_left_cancel _ _ _ h))
  | timestamp v =>
    simp only [FieldMutation.apply, String.append_assoc] at h
    have h1 := str_append_left_cancel _ _ _ (str_append_left_cancel _ _ _ h)
    exact hm (toString_nat_injective (str_append_right_cancel _ _ _ h1))
  | block_proposer v =>
    simp only [FieldMutation.apply, String.append_assoc] at h
    have h1 := str_append_left_cancel _ _ _
      (str_append_left_cancel _ _ _ (str_append_left_cancel _ _ _ h))
    exact hm (str_append_right_cancel _ _ _ h1)
  | transactions v =>
    simp only [FieldMutation.apply] at h
    exact hm (str_append_left_cancel _ _ _ h)

theorem compute_hash_changes (P : Platform) (hinj : Function.Injective P.strHash)
    (m : FieldMutation) (b : Block) (hm : m.changes_data P b) :
    (m.apply b).compute_hash P ≠ b.compute_hash P := by
  intro h
  exact hash_data_changes P m b hm (hinj (toString_nat_injective h))

theorem apply_block_hash (m : FieldMutation) (b : Block) :
    (m.apply b).block_hash = b.block_hash := by
  cases m <;> rfl

theorem validate_from_hashes (P : Platform) (l : List Block) : ∀ prev : Block,
    validate_from P prev l = true → ∀ c ∈ l, c.block_hash = c.compute_hash P := by
  induction l with
  | nil => intro prev _ c hc; simp at hc
  | cons x rest ih =>
    intro prev h c hc
    simp only [validate_from, Block.get_block_hash, ne_eq, ite_not] at h
    by_cases h1 : x.previous_hash = prev.block_hash
    · by_cases h2 : x.block_hash = x.compute_hash P
      · simp only [h1, h2, if_true] at h
        rcases List.mem_cons.mp hc with rfl | hc
        · exact h2
        · exact ih x h c hc
      · simp [h1, h2] at h
    · simp [h1] at h

/-- C7 (counterexample): on the platform with the collision-free digest, the valid two-block
chain `idealLedger` still passes `validate_blockchain` after the index of its first block
(position 0) is replaced by 7, and also after the transaction list of its second block
(position 1) is replaced by a different list with the same concatenated transaction data. -/
theorem validate_blockchain_misses_mutation :
    Function.Injective idealPlatform.strHash ∧
    validate_blockchain idealPlatform idealLedger = true ∧
    (idealLedger.chain[0]? = some idealGenesis ∧
      (FieldMutation.index 7).differs idealGenesis ∧
      validate_blockchain idealPlatform
        (idealLedger.with_block 0 ((FieldMutation.index 7).apply idealGenesis)) = true) ∧
    (idealLedger.chain[1]? = some idealSecond ∧
      (FieldMutation.transactions [txAliCe]).differs idealSecond ∧
      validate_blockchain idealPlatform
        (idealLedger.with_block 1 ((FieldMutation.transactions [txAliCe]).apply idealSecond))
          = true) := by
  refine ⟨idealHash_injective, by decide!, ⟨by decide, ?_, by decide!⟩,
    ⟨by decide!, ?_, by decide!⟩⟩
  · show (7 : Nat) ≠ idealGenesis.index
    decide
  · show [txAliCe] ≠ idealSecond.transactions
    decide

/-- C7 (amended): for every chain on which `validate_blockchain()` returns true and every
position `k >= 1` in it, replacing exactly one of index, previous_hash, timestamp or
block_proposer of `chain[k]` by a different value, or its transactions by a list whose
concatenated transaction data is different, with the stored block_hash left as it was and
the digest collision-free, makes `validate_blockchain()` return false. -/
theorem validate_blockchain_detects_mutation (P : Platform)
    (hinj : Function.Injective P.strHash) (s : Blockchain)
    (hv : validate_blockchain P s = true) (k : Nat) (hk : 1 ≤ k) (b : Block)
    (hb : s.chain[k]? = some b) (m : FieldMutation) (hm : m.changes_data P b) :
    validate_blockchain P (s.with_block k (m.apply b)) = false := by
  obtain ⟨j, rfl⟩ : ∃ j, k = j + 1 := ⟨k - 1, by omega⟩
  unfold validate_blockchain Blockchain.with_block at *
  cases hc : s.chain with
  | nil => rw [hc] at hb; simp at hb
  | cons first rest =>
    rw [hc] at hb hv
    simp only [List.getElem?_cons_succ] at hb
    simp only [List.set_cons_succ]
    obtain ⟨hj, hget⟩ := List.getElem?_eq_some.mp hb
    have hbmem : b ∈ rest := by
      rw [← hget]
      exact List.getElem_mem _
    have hold : b.block_hash = b.compute_hash P :=
      validate_from_hashes P rest first hv b hbmem
    have hmem : m.apply b ∈ rest.set j (m.apply b) := List.mem_set rest j hj _
    cases hres : validate_from P first (rest.set j (m.apply b)) with
    | false => rfl
    | true =>
      have hnew := validate_from_hashes P _ first hres (m.apply b) hmem
      rw [apply_block_hash, hold] at hnew
      exact absurd hnew.symm (compute_hash_changes P hinj m b hm)

/-- Witness for C7 (amended): the timestamp of the second block of `idealLedger` replaced. -/
theorem validate_blockchain_detects_mutation_witness :
    validate_blockchain idealPlatform
      (idealLedger.with_block 1 ((FieldMutation.timestamp 5).apply idealSecond)) = false :=
  validate_blockchain_detects_mutation idealPlatform idealHash_injective idealLedger
    (by decide!) 1 (by decide) idealSecond (by decide!) (FieldMutation.timestamp 5)
    (by show (5 : Nat) ≠ idealSecond.timestamp; decide)

/-! ## The hash index -/

theorem assign_fresh (m : BlockMap) (k : String) (v : Block) (h : ∀ e ∈ m, e.1 ≠ k) :
    m.assign k v = m ++ [(k, v)] := by
  unfold BlockMap.assign
  have hany : m.any (fun e => e.1 == k) = false := by
    rw [List.any_eq_false]
    intro e he
    simpa using h e he
  rw [hany]
  simp

theorem erase_index_of_chain (x : Block) (rest : List Block)
    (h : ∀ c ∈ rest, c.block_hash ≠ x.block_hash) :
    BlockMap.erase (index_of_chain (x :: rest)) x.block_hash = index_of_chain rest := by
  unfold BlockMap.erase index_of_chain
  simp only [List.map_cons, bne_self_eq_false, Bool.false_eq_true, not_false_eq_true,
    List.filter_cons_of_neg]
  rw [List.filter_eq_self]
  intro e he
  obtain ⟨c, hc, rfl⟩ := List.mem_map.mp he
  simpa using h c hc

theorem find_index_of_chain (l : List Block) (hnd : (l.map Block.block_hash).Nodup)
    (k : String) (v : Block) :
    BlockMap.find (index_of_chain l) k = some v ↔ (v ∈ l ∧ v.block_hash = k) := by
  induction l with
  | nil => simp [BlockMap.find, index_of_chain]
  | cons x rest ih =>
    rw [List.map_cons, List.nodup_cons] at hnd
    have ih2 := ih hnd.2
    by_cases hx : x.block_hash = k
    · have hfind : BlockMap.find (index_of_chain (x :: rest)) k = some x := by
        simp [BlockMap.find, index_of_chain, hx]
      rw [hfind]
      constructor
      · intro h
        have hv : x = v := Option.some.inj h
        subst hv
        exact ⟨List.mem_cons_self _ _, hx⟩
      · rintro ⟨hmem, hk⟩
        rcases List.mem_cons.mp hmem with rfl | hin
        · rfl
        · exfalso
          apply hnd.1
          rw [hx, ← hk]
          exact List.mem_map_of_mem _ hin
    · have hfind : BlockMap.find (index_of_chain (x :: rest)) k =
          BlockMap.find (index_of_chain rest) k := by
        simp [BlockMap.find, index_of_chain, hx]
      rw [hfind, ih2]
      constructor
      · rintro ⟨hmem, hk⟩
        exact ⟨List.mem_cons_of_mem _ hmem, hk⟩
      · rintro ⟨hmem, hk⟩
        rcases List.mem_cons.mp hmem with rfl | hin
        · exact absurd hk hx
        · exact ⟨hin, hk⟩

theorem prune_blockchain_index (s : Blockchain) (h : IndexMatches s) :
    IndexMatches (prune_blockchain s) := by
  unfold prune_blockchain
  split
  · cases hc : s.chain with
    | nil => simpa using h
    | cons x rest =>
      obtain ⟨hm, hnd⟩ := h
      rw [hc] at hm hnd
      rw [List.map_cons, List.nodup_cons] at hnd
      refine ⟨?_, hnd.2⟩
      show BlockMap.erase s.block_map x.get_block_hash = index_of_chain rest
      rw [hm]
      apply erase_index_of_chain
      intro c hc2 heq
      apply hnd.1
      rw [← heq]
      exact List.mem_map_of_mem _ hc2
  · exact h

theorem prune_blockchain_sublist (s : Blockchain) :
    ∀ c ∈ (prune_blockchain s).chain, c ∈ s.chain := by
  unfold prune_blockchain
  split
  · cases hc : s.chain with
    | nil => intro c h; simp [hc] at h
    | cons x rest => intro c h; exact List.mem_cons_of_mem _ h
  · intro c h; exact h

theorem push_index (s : Blockchain) (b : Block) (h : IndexMatches s)
    (hfresh : ∀ c ∈ s.chain, c.block_hash ≠ b.block_hash) :
    IndexMatches { s with chain := s.chain ++ [b],
                          block_map := s.block_map.assign b.get_block_hash b } := by
  obtain ⟨hm, hnd⟩ := h
  constructor
  · show s.block_map.assign b.get_block_hash b = index_of_chain (s.chain ++ [b])
    rw [assign_fresh]
    · rw [hm]; simp [index_of_chain, Block.get_block_hash]
    · intro e he
      rw [hm] at he
      obtain ⟨c, hc, rfl⟩ := List.mem_map.mp he
      exact hfresh c hc
  · show ((s.chain ++ [b]).map Block.block_hash).Nodup
    rw [List.map_append, List.nodup_append]
    refine ⟨hnd, by simp, ?_⟩
    intro k hk1 hk2
    obtain ⟨c, hc, rfl⟩ := List.mem_map.mp hk1
    simp only [List.map_cons, List.map_nil, List.mem_singleton] at hk2
    exact hfresh c hc hk2

theorem add_block_index (P : Platform) (s : Blockchain) (b : Block) (h : IndexMatches s)
    (hfresh : ∀ c ∈ s.chain, c.block_hash ≠ b.block_hash) :
    IndexMatches (add_block P s b).2 := by
  unfold add_block
  split
  · exact h
  · split
    · exact h
    · split
      · exact push_index _ b (prune_blockchain_index s h)
          (fun c hc => hfresh c (prune_blockchain_sublist s c hc))
      · exact push_index s b h hfresh

theorem reachableFresh_index (P : Platform) (max_size max_chain : Nat) (s : Blockchain)
    (h : ReachableFresh P max_size max_chain s) : IndexMatches s := by
  induction h with
  | init now =>
    constructor
    · simp [Blockchain.new, BlockMap.assign, index_of_chain, Block.get_block_hash]
    · simp [Blockchain.new]
  | add s b _ hfresh ih => exact add_block_index P s b ih hfresh
  | prune s _ ih => exact prune_blockchain_index s ih

/-- C8 (counterexample): the ledger `twinLedger` is reachable by `add_block` calls alone,
its chain holds `secondBlock`, and `block_map` has no entry for that block's hash. -/
theorem block_map_misses_chain_block :
    Reachable refPlatform (1024 * 1024 * 1) 1 twinLedger ∧
    secondBlock ∈ twinLedger.chain ∧
    twinLedger.block_map.find secondBlock.block_hash = none := by
  refine ⟨?_, by decide, by decide⟩
  exact Reachable.add _ _ (Reachable.add _ _
    (Reachable.add _ _ (Reachable.add _ _ (Reachable.init _))))

/-- C8 (amended): in every ledger state reachable from construction by `prune_blockchain`
calls and by `add_block` calls whose block carries a hash that no block currently in the
chain carries, `block_map` maps a key to a block exactly when that block is in the chain and
carries that hash, and the keys of `block_map` are exactly the hashes of the chain blocks. -/
theorem block_map_matches_chain (P : Platform) (max_size max_chain : Nat) (s : Blockchain)
    (h : ReachableFresh P max_size max_chain s) :
    (∀ k v, s.block_map.find k = some v ↔ (v ∈ s.chain ∧ v.block_hash = k)) ∧
    (∀ k, k ∈ s.block_map.keys ↔ ∃ v ∈ s.chain, v.block_hash = k) := by
  obtain ⟨hm, hnd⟩ := reachableFresh_index P max_size max_chain s h
  constructor
  · intro k v
    rw [hm]
    exact find_index_of_chain s.chain hnd k v
  · intro k
    rw [hm]
    simp [BlockMap.keys, index_of_chain]

/-- Witness for C8 (amended): `grownLedger`, reached by appending `firstBlock`, whose hash
differs from the genesis hash; its index maps the hash of `firstBlock` to `firstBlock`. -/
theorem block_map_matches_chain_witness :
    (∀ c ∈ mediumLedger.chain, c.block_hash ≠ firstBlock.block_hash) ∧
    (grownLedger.block_map.find firstBlock.block_hash = some firstBlock ↔
      (firstBlock ∈ grownLedger.chain ∧ firstBlock.block_hash = firstBlock.block_hash)) :=
  ⟨by decide,
   (block_map_matches_chain refPlatform (1024 * 1024 * 1) 3 grownLedger
     (ReachableFresh.add _ _ (ReachableFresh.init _) (by decide))).1 _ _⟩

end Ledger

/-! # Properties of `blockchain.cpp` -/

namespace BlockchainCpp

theorem isValidTransaction_iff {B Tx : Type} (A : BlockApi B Tx) (txs : List Tx) :
    isValidTransaction A txs = true ↔ ∀ tx ∈ txs, A.isValid tx = true := by
  induction txs with
  | nil => simp [isValidTransaction]
  | cons t rest ih =>
    cases ht : A.isValid t <;> simp [isValidTransaction, ht, ih]

theorem isValidNewBlock_iff {B Tx : Type} (A : BlockApi B Tx) (newBlock previousBlock : B) :
    isValidNewBlock A newBlock previousBlock = true ↔
      (A.getPreviousHash newBlock = A.getHash previousBlock ∧
       (A.getHash newBlock).data.take 4 = ['0', '0', '0', '0'] ∧
       ∀ tx ∈ A.getTransactions newBlock, A.isValid tx = true) := by
  unfold isValidNewBlock isValidProofOfWork
  rw [← isValidTransaction_iff]
  have hpow : (String.mk ((A.getHash newBlock).data.take 4) == "0000") = true ↔
      (A.getHash newBlock).data.take 4 = ['0', '0', '0', '0'] := by
    rw [beq_iff_eq]
    constructor
    · intro h; exact congrArg String.data h
    · intro h; rw [h]
  by_cases h1 : A.getPreviousHash newBlock = A.getHash previousBlock
  · by_cases h2 : (String.mk ((A.getHash newBlock).data.take 4) == "0000") = true
    · cases h3 : isValidTransaction A (A.getTransactions newBlock) <;>
        simp [h1, h2, h3, hpow.mp h2]
    · have h2n : ¬ (A.getHash newBlock).data.take 4 = ['0', '0', '0', '0'] :=
        fun h => h2 (hpow.mpr h)
      simp [h1, h2, h2n]
  · simp [h1]

theorem reach_ne_nil {B Tx : Type} (A : BlockApi B Tx) (genesis : B) (chain : List B)
    (h : Reach A genesis chain) : chain ≠ [] := by
  induction h with
  | init => simp
  | add chain newBlock chain2 _ hadd ih =>
    unfold addBlock at hadd
    cases hl : chain.getLast? with
    | none => rw [hl] at hadd; simp at hadd
    | some last =>
      rw [hl] at hadd
      simp only at hadd
      split at hadd
      · have := Option.some.inj hadd
        subst this
        simp
      · have := Option.some.inj hadd
        subst this
        exact ih

theorem linked_snoc {B Tx : Type} (A : BlockApi B Tx) (chain : List B) (last newBlock : B)
    (hl : chain.getLast? = some last)
    (hlink : ∀ i a b, chain[i]? = some a → chain[i + 1]? = some b →
      A.getPreviousHash b = A.getHash a)
    (hnew : A.getPreviousHash newBlock = A.getHash last) :
    ∀ i a b, (chain ++ [newBlock])[i]? = some a → (chain ++ [newBlock])[i + 1]? = some b →
      A.getPreviousHash b = A.getHash a := by
  intro i a b ha hb
  have hlast : chain[chain.length - 1]? = some last := by
    rw [List.getLast?_eq_getElem?] at hl
    exact hl
  have hne : chain ≠ [] := by
    intro h; rw [h] at hl; simp at hl
  have hpos : 0 < chain.length := List.length_pos.mpr hne
  by_cases h1 : i + 1 < chain.length
  · rw [List.getElem?_append_left (by omega)] at ha
    rw [List.getElem?_append_left h1] at hb
    exact hlink i a b ha hb
  · by_cases h2 : i + 1 = chain.length
    · rw [List.getElem?_append_left (by omega)] at ha
      rw [List.getElem?_append_right (by omega)] at hb
      have hi : i = chain.length - 1 := by omega
      rw [hi, hlast] at ha
      have hidx : i + 1 - chain.length = 0 := by omega
      rw [hidx] at hb
      simp only [List.getElem?_cons_zero, Option.some.injEq] at ha hb
      subst ha; subst hb
      exact hnew
    · have : (chain ++ [newBlock])[i + 1]? = none := by
        rw [List.getElem?_eq_none_iff]
        simp only [List.length_append, List.length_singleton]
        omega
      rw [this] at hb
      simp at hb

theorem reach_linked {B Tx : Type} (A : BlockApi B Tx) (genesis : B) (chain : List B)
    (h : Reach A genesis chain) :
    ∀ i a b, chain[i]? = some a → chain[i + 1]? = some b →
      A.getPreviousHash b = A.getHash a := by
  induction h with
  | init => intro i a b _ hb; simp at hb
  | add chain newBlock chain2 _ hadd ih =>
    unfold addBlock at hadd
    cases hl : chain.getLast? with
    | none => rw [hl] at hadd; simp at hadd
    | some last =>
      rw [hl] at hadd
      simp only at hadd
      by_cases hv : isValidNewBlock A newBlock last = true
      · rw [if_pos hv] at hadd
        have := Option.some.inj hadd
        subst this
        exact linked_snoc A chain last newBlock hl ih
          ((isValidNewBlock_iff A newBlock last).mp hv).1
      · rw [if_neg hv] at hadd
        have := Option.some.inj hadd
        subst this
        exact ih

/-- C4: in every chain reachable from construction through `addBlock`, every non-genesis
block's previous hash equals the hash of the block just before it; `addBlock` is defined
there, appends `newBlock` exactly when `isValidNewBlock(newBlock, last block)` holds and
otherwise leaves the chain unchanged; and `isValidNewBlock` holds exactly when the previous
hash equals the last block's hash, the hash starts with "0000" and every transaction is
valid. -/
theorem addBlock_keeps_chain_linked {B Tx : Type} (A : BlockApi B Tx) (genesis : B) (chain : List B)
    (h : Reach A genesis chain) :
    (∀ i a b, chain[i]? = some a → chain[i + 1]? = some b →
      A.getPreviousHash b = A.getHash a) ∧
    (∀ newBlock, ∃ last, chain.getLast? = some last ∧
      addBlock A chain newBlock =
        some (if isValidNewBlock A newBlock last = true then chain ++ [newBlock] else chain)) ∧
    (∀ newBlock previousBlock, isValidNewBlock A newBlock previousBlock = true ↔
      (A.getPreviousHash newBlock = A.getHash previousBlock ∧
       (A.getHash newBlock).data.take 4 = ['0', '0', '0', '0'] ∧
       ∀ tx ∈ A.getTransactions newBlock, A.isValid tx = true)) := by
  refine ⟨reach_linked A genesis chain h, ?_, isValidNewBlock_iff A⟩
  intro newBlock
  have hne := reach_ne_nil A genesis chain h
  cases hl : chain.getLast? with
  | none => exact absurd (List.getLast?_eq_none_iff.mp hl) hne
  | some last =>
    refine ⟨last, rfl, ?_⟩
    unfold addBlock
    rw [hl]
    simp only
    split <;> rfl

/-- Witness for C4: the chain `[plainGenesis, plainNext]`, reached by one `addBlock`. -/
theorem addBlock_keeps_chain_linked_witness :
    addBlock plainApi [plainGenesis] plainNext = some [plainGenesis, plainNext] ∧
    plainApi.getPreviousHash plainNext = plainApi.getHash plainGenesis :=
  ⟨by decide,
   (addBlock_keeps_chain_linked plainApi plainGenesis [plainGenesis, plainNext]
     (Reach.add [plainGenesis] plainNext _ Reach.init (by decide))).1 0 plainGenesis plainNext
     (by decide) (by decide)⟩

end BlockchainCpp

/-! # Further properties of `blockchain.h` -/

namespace Ledger

/-! ## Non-emptiness of the chain -/

theorem prune_blockchain_max_chain_size (s : Blockchain) :
    (prune_blockchain s).max_chain_size = s.max_chain_size := by
  unfold prune_blockchain
  split
  · cases s.chain <;> rfl
  · rfl

theorem add_block_chain_ne_nil (P : Platform) (s : Blockchain) (b : Block)
    (h : s.chain ≠ []) : (add_block P s b).2.chain ≠ [] := by
  unfold add_block
  split
  · exact h
  · split
    · exact h
    · simp

theorem prune_blockchain_chain_ne_nil (s : Blockchain) (hm : 1 ≤ s.max_chain_size)
    (h : s.chain ≠ []) : (prune_blockchain s).chain ≠ [] := by
  unfold prune_blockchain
  split
  · rename_i hlen
    cases hc : s.chain with
    | nil => exact absurd hc h
    | cons x rest =>
      rw [hc] at hlen
      simp only [List.length_cons] at hlen
      show rest ≠ []
      intro hr
      rw [hr] at hlen
      simp only [List.length_nil] at hlen
      omega
  · exact h

theorem reachable_chain_ne_nil (P : Platform) (max_size max_chain : Nat) (s : Blockchain)
    (hm : 1 ≤ max_chain) (h : Reachable P max_size max_chain s) :
    s.max_chain_size = max_chain ∧ s.chain ≠ [] := by
  induction h with
  | init now => exact ⟨rfl, by simp [Blockchain.new]⟩
  | add s b _ ih =>
    exact ⟨by rw [add_block_max_chain_size, ih.1], add_block_chain_ne_nil P s b ih.2⟩
  | prune s _ ih =>
    exact ⟨by rw [prune_blockchain_max_chain_size, ih.1],
      prune_blockchain_chain_ne_nil s (by rw [ih.1]; exact hm) ih.2⟩

theorem reachableByAdd_chain_ne_nil (P : Platform) (max_size max_chain : Nat) (s : Blockchain)
    (h : ReachableByAdd P max_size max_chain s) : s.chain ≠ [] := by
  induction h with
  | init now => simp [Blockchain.new]
  | add s b _ ih => exact add_block_chain_ne_nil P s b ih

/-- C11 (counterexample): on a ledger constructed with `max_chain_size = 0`, one call of
`prune_blockchain` removes the genesis block; the state is reachable, its chain is empty and
`get_latest_block` is undefined on it. -/
theorem prune_empties_chain :
    Reachable refPlatform (1024 * 1024 * 1) 0 (prune_blockchain zeroLedger) ∧
    (prune_blockchain zeroLedger).chain = [] ∧
    get_latest_block (prune_blockchain zeroLedger) = none := by
  refine ⟨Reachable.prune _ (Reachable.init _), by decide, by decide⟩

/-- C11 (amended): in every ledger state reachable from a construction with
`max_chain_size >= 1` by any sequence of `add_block` and `prune_blockchain` calls, and in
every state reachable by `add_block` calls alone for any `max_chain_size`, `chain` is
non-empty and `get_latest_block()` is defined. -/
theorem chain_nonempty (P : Platform) (max_size max_chain : Nat) (s : Blockchain)
    (h : (1 ≤ max_chain ∧ Reachable P max_size max_chain s) ∨
      ReachableByAdd P max_size max_chain s) :
    s.chain ≠ [] ∧ ∃ b, get_latest_block s = some b := by
  have hne : s.chain ≠ [] := by
    rcases h with ⟨hm, hr⟩ | hr
    · exact (reachable_chain_ne_nil P max_size max_chain s hm hr).2
    · exact reachableByAdd_chain_ne_nil P max_size max_chain s hr
  refine ⟨hne, ?_⟩
  unfold get_latest_block
  cases hl : s.chain.getLast? with
  | none => exact absurd (List.getLast?_eq_none_iff.mp hl) hne
  | some b => exact ⟨b, rfl⟩

/-- Witness for C11 (amended): `smallLedger` (`max_chain_size = 1`) after an append and a
`prune_blockchain` call. -/
theorem chain_nonempty_witness :
    (prune_blockchain (add_block refPlatform smallLedger firstBlock).2).chain ≠ [] ∧
    ∃ b, get_latest_block (prune_blockchain (add_block refPlatform smallLedger firstBlock).2)
      = some b :=
  chain_nonempty refPlatform (1024 * 1024 * 1) 1
    (prune_blockchain (add_block refPlatform smallLedger firstBlock).2)
    (Or.inl ⟨by decide, Reachable.prune _ (Reachable.add _ _ (Reachable.init _))⟩)

/-! ## Positions and indices -/

/-- C12 (counterexample): in the ledger `prunedLedger`, reachable by `add_block` calls, the
block at position 0 has index 1 and the block at position 1 has index 2. -/
theorem pruned_chain_index_shifted :
    ReachableByAdd refPlatform (1024 * 1024 * 1) 1 prunedLedger ∧
    prunedLedger.chain.map Block.index = [1, 2] := by
  refine ⟨?_, by decide⟩
  exact ReachableByAdd.add _ _ (ReachableByAdd.add _ _ (ReachableByAdd.init _))

/-- C12 (amended): in every ledger state reachable from construction by `add_block` calls
none of which pruned (each made while the chain held at most `max_chain_size` blocks), the
block stored at position `i` of `chain` has index `i`, for every position `i`. -/
theorem unpruned_chain_index (P : Platform) (max_size max_chain : Nat) (s : Blockchain)
    (h : ReachableUnpruned P max_size max_chain s) :
    ∀ (i : Nat) (b : Block), s.chain[i]? = some b → b.index = i := by
  induction h with
  | init now =>
    intro i b hb
    cases i with
    | zero =>
      simp only [Blockchain.new, List.getElem?_cons_zero, Option.some.injEq] at hb
      rw [← hb]
      rfl
    | succ j => simp [Blockchain.new] at hb
  | add s c _ hlen ih =>
    cases hf : (add_block P s c).1 with
    | false => rw [add_block_snd_of_false P s c hf]; exact ih
    | true =>
      intro i b hb
      unfold add_block at hf hb
      by_cases h1 : c.index = s.chain.length
      · by_cases h2 : block_size P c > s.max_block_size
        · simp [h1, h2] at hf
        · have h3 : ¬ s.chain.length > s.max_chain_size := Nat.not_lt.mpr hlen
          simp only [h1, h2, h3, ne_eq, not_true_eq_false, if_false] at hb
          by_cases hi : i < s.chain.length
          · rw [List.getElem?_append_left hi] at hb
            exact ih i b hb
          · rw [List.getElem?_append_right (Nat.le_of_not_lt hi)] at hb
            cases hk : i - s.chain.length with
            | zero =>
              rw [hk] at hb
              simp only [List.getElem?_cons_zero, Option.some.injEq] at hb
              rw [← hb, h1]
              omega
            | succ k =>
              rw [hk] at hb
              simp at hb
      · simp [h1] at hf

/-- Witness for C12 (amended): `linkedLedger`, a default ledger after two sequential
appends; its block at position 2 has index 2. -/
theorem unpruned_chain_index_witness :
    linkedLedger.chain.length = 3 ∧ secondBlock.index = 2 :=
  ⟨by decide,
   unpruned_chain_index refPlatform (1024 * 1024 * 1) 1000 linkedLedger
     (ReachableUnpruned.add _ _
       (ReachableUnpruned.add _ _ (ReachableUnpruned.init _) (by decide)) (by decide))
     2 secondBlock (by decide)⟩

/-! ## The freshly constructed ledger -/

/-- C13: a freshly constructed `Blockchain` holds exactly one block, the genesis block, with
index 0, previous_hash "0", no transactions, block_proposer "genesis_proposer" and
block_hash equal to its own `compute_hash()`; and `block_map` contains exactly one entry,
mapping that hash to that block. -/
theorem fresh_blockchain_holds_genesis (P : Platform) (max_size max_chain now : Nat) :
    ∃ g : Block,
      (Blockchain.new P max_size max_chain now).chain = [g] ∧
      g.index = 0 ∧ g.previous_hash = "0" ∧ g.transactions = [] ∧
      g.block_proposer = "genesis_proposer" ∧
      g.block_hash = g.compute_hash P ∧
      (Blockchain.new P max_size max_chain now).block_map = [(g.block_hash, g)] ∧
      BlockMap.find (Blockchain.new P max_size max_chain now).block_map g.block_hash = some g := by
  refine ⟨create_genesis_block P now, rfl, rfl, rfl, rfl, rfl, rfl, ?_, ?_⟩
  · simp [Blockchain.new, BlockMap.assign, Block.get_block_hash]
  · simp [Blockchain.new, BlockMap.assign, BlockMap.find, Block.get_block_hash]

end Ledger

/-! # Properties of the transaction pool -/

namespace TxPool

/-! ## Admission -/

/-- C14: for every validator, pool and transaction `tx`: if `validateTransactionProof(tx)`
is false, `insertTransaction(tx)` leaves the pool's transaction list unchanged (so `tx` is
present afterwards only if it was before, and the size is unchanged); if it is true, the
list becomes the old list with `tx` appended at the end. -/
theorem insertTransaction_gated (V : SnarkProofValidator) (pool : TransactionPool)
    (tx : Transaction) :
    (validateTransactionProof V tx = false →
      getTransactions (insertTransaction V pool tx) = getTransactions pool ∧
      (tx ∈ getTransactions (insertTransaction V pool tx) → tx ∈ getTransactions pool) ∧
      (getTransactions (insertTransaction V pool tx)).length = (getTransactions pool).length) ∧
    (validateTransactionProof V tx = true →
      getTransactions (insertTransaction V pool tx) = getTransactions pool ++ [tx]) := by
  constructor
  · intro h
    have hsame : insertTransaction V pool tx = pool := by
      unfold insertTransaction
      rw [h]
      rfl
    rw [hsame]
    exact ⟨rfl, fun hmem => hmem, rfl⟩
  · intro h
    unfold insertTransaction
    rw [h]
    rfl

/-- Witness for C14: a validator that rejects empty proofs, offered `txNoProof` (rejected)
and `txA` (accepted) on the pool `tiePoolAB`. -/
theorem insertTransaction_gated_witness :
    getTransactions (insertTransaction nonemptyProofValidator tiePoolAB txNoProof) =
      getTransactions tiePoolAB ∧
    getTransactions (insertTransaction nonemptyProofValidator tiePoolAB txA) =
      getTransactions tiePoolAB ++ [txA] :=
  ⟨((insertTransaction_gated nonemptyProofValidator tiePoolAB txNoProof).1 (by decide)).1,
   (insertTransaction_gated nonemptyProofValidator tiePoolAB txA).2 (by decide)⟩

/-- C15 (counterexample): with the validator of the sources, inserting `txA` into the empty
pool and then inserting it again leaves a pool that holds `txA` twice. -/
theorem insertTransaction_accepts_duplicate :
    txA ∈ getTransactions
      (insertTransaction SnarkProofValidator.source TransactionPool.empty txA) ∧
    getTransactions (insertTransaction SnarkProofValidator.source
      (insertTransaction SnarkProofValidator.source TransactionPool.empty txA) txA)
        = [txA, txA] := by
  refine ⟨by decide, by decide⟩

/-- C15 (amended): `insertTransaction` makes no duplicate check: for every pool, also one
that already contains a transaction equal to `tx`, an insert whose proof the validator
accepts appends `tx`, so the number of occurrences of `tx` in the pool grows by one. -/
theorem insertTransaction_appends_again (V : SnarkProofValidator) (pool : TransactionPool)
    (tx : Transaction) (h : validateTransactionProof V tx = true) :
    getTransactions (insertTransaction V pool tx) = getTransactions pool ++ [tx] ∧
    (getTransactions (insertTransaction V pool tx)).count tx =
      (getTransactions pool).count tx + 1 := by
  have happ : getTransactions (insertTransaction V pool tx) = getTransactions pool ++ [tx] := by
    unfold insertTransaction
    rw [h]
    rfl
  refine ⟨happ, ?_⟩
  rw [happ, List.count_append]
  simp

/-- Witness for C15 (amended): `txA` inserted into `doubledPool`, which holds it twice. -/
theorem insertTransaction_appends_again_witness :
    getTransactions (insertTransaction SnarkProofValidator.source doubledPool txA) =
      getTransactions doubledPool ++ [txA] ∧
    (getTransactions (insertTransaction SnarkProofValidator.source doubledPool txA)).count txA =
      (getTransactions doubledPool).count txA + 1 :=
  insertTransaction_appends_again SnarkProofValidator.source doubledPool txA (by decide)

/-! ## Removal -/

theorem take_succ_set (l : List Transaction) (i : Nat) (x : Transaction)
    (h : i < l.length) : (l.set i x).take (i + 1) = l.take i ++ [x] := by
  rw [List.set_eq_take_append_cons_drop, if_pos h]
  have hsplit : l.take i ++ x :: l.drop (i + 1) = (l.take i ++ [x]) ++ l.drop (i + 1) := by
    simp
  have hlen : (l.take i ++ [x]).length = i + 1 := by
    rw [List.length_append, List.length_take, List.length_singleton]
    omega
  rw [hsplit, List.take_left' hlen]

theorem remove_loop_outside (eq : Transaction → Transaction → Bool)
    (movedFrom : Transaction → Transaction) (tx : Transaction) :
    ∀ (n : Nat) (v : List Transaction) (result first : Nat),
      result < first → first + n = v.length →
      ∃ v2 k, remove_loop eq movedFrom (TxRef.outside tx) n v result first = some (v2, k) ∧
        v2.take k = v.take result ++ (v.drop first).filter (fun t => !(eq t tx)) := by
  intro n
  induction n with
  | zero =>
    intro v result first _ hlen
    refine ⟨v, result, rfl, ?_⟩
    have hdrop : v.drop first = [] := List.drop_eq_nil_of_le (by omega)
    rw [hdrop]
    simp
  | succ n ih =>
    intro v result first hlt hlen
    have hfirst : first < v.length := by omega
    have hx : v[first]? = some v[first] := List.getElem?_eq_getElem hfirst
    have hdrop : v.drop first = v[first] :: v.drop (first + 1) :=
      List.drop_eq_getElem_cons hfirst
    by_cases he : eq v[first] tx = true
    · obtain ⟨v2, k, hrun, htake⟩ := ih v result (first + 1) (by omega) (by omega)
      refine ⟨v2, k, ?_, ?_⟩
      · simp only [remove_loop, hx, TxRef.read, he, if_true]
        exact hrun
      · rw [htake, hdrop, List.filter_cons]
        simp [he]
    · have hef : eq v[first] tx = false := by simpa using he
      have hlen2 : first + 1 + n =
          ((v.set first (movedFrom v[first])).set result v[first]).length := by
        rw [List.length_set, List.length_set]
        omega
      obtain ⟨v2, k, hrun, htake⟩ :=
        ih ((v.set first (movedFrom v[first])).set result v[first]) (result + 1) (first + 1)
          (by omega) hlen2
      refine ⟨v2, k, ?_, ?_⟩
      · simp only [remove_loop, hx, TxRef.read, hef, Bool.false_eq_true, if_false]
        exact hrun
      · rw [htake, hdrop, List.filter_cons]
        have hd : ((v.set first (movedFrom v[first])).set result v[first]).drop (first + 1) =
            v.drop (first + 1) := by
          rw [List.drop_set_of_lt _ _ (by omega), List.drop_set_of_lt _ _ (by omega)]
        have hres : result < (v.set first (movedFrom v[first])).length := by
          rw [List.length_set]
          omega
        have ht : ((v.set first (movedFrom v[first])).set result v[first]).take (result + 1) =
            v.take result ++ [v[first]] := by
          rw [take_succ_set _ result _ hres, List.take_set_of_lt _ _ hlt]
        rw [hd, ht]
        simp [hef]

theorem std_remove_outside (eq : Transaction → Transaction → Bool)
    (movedFrom : Transaction → Transaction) (v : List Transaction) (tx : Transaction) :
    ∃ v2 k, std_remove eq movedFrom v (TxRef.outside tx) = some (v2, k) ∧
      v2.take k = v.filter (fun t => !(eq t tx)) := by
  by_cases hfound : v.findIdx (fun t => eq t tx) = v.length
  · refine ⟨v, v.length, ?_, ?_⟩
    · simp only [std_remove, TxRef.read, hfound, if_true]
    · rw [List.take_length]
      symm
      rw [List.filter_eq_self]
      intro a ha
      simp [List.findIdx_eq_length.mp hfound a ha]
  · have hlt : v.findIdx (fun t => eq t tx) < v.length :=
      Nat.lt_of_le_of_ne (List.findIdx_le_length _) hfound
    obtain ⟨v2, k, hrun, htake⟩ :=
      remove_loop_outside eq movedFrom tx (v.length - (v.findIdx (fun t => eq t tx) + 1)) v
        (v.findIdx (fun t => eq t tx)) (v.findIdx (fun t => eq t tx) + 1)
        (Nat.lt_succ_self _) (by omega)
    refine ⟨v2, k, ?_, ?_⟩
    · simp only [std_remove, TxRef.read, hfound, if_false]
      exact hrun
    · rw [htake]
      have hmatch : eq v[v.findIdx (fun t => eq t tx)] tx = true :=
        List.findIdx_getElem (p := fun t => eq t tx) (w := hlt)
      have hpre : (v.take (v.findIdx (fun t => eq t tx))).filter (fun t => !(eq t tx)) =
          v.take (v.findIdx (fun t => eq t tx)) := by
        rw [List.filter_eq_self]
        intro a ha
        obtain ⟨i, hi, hai⟩ := List.getElem_of_mem ha
        rw [List.length_take] at hi
        have hi2 : i < v.findIdx (fun t => eq t tx) := by omega
        have hnot := List.not_of_lt_findIdx hi2
        rw [List.getElem_take] at hai
        rw [← hai]
        simpa using hnot
      conv_rhs => rw [← List.take_append_drop (v.findIdx (fun t => eq t tx)) v]
      rw [List.filter_append, hpre, List.drop_eq_getElem_cons hlt, List.filter_cons]
      simp [hmatch]

/-- When `tx` refers to an object outside the vector of the pool, `removeTransaction` leaves
exactly the transactions that do not compare equal to it, in their previous order. -/
theorem removeTransaction_outside (eq : Transaction → Transaction → Bool)
    (movedFrom : Transaction → Transaction) (pool : TransactionPool) (tx : Transaction) :
    removeTransaction eq movedFrom pool (TxRef.outside tx) =
      some { transactions := pool.transactions.filter (fun t => !(eq t tx)) } := by
  obtain ⟨v2, k, hrun, htake⟩ := std_remove_outside eq movedFrom pool.transactions tx
  simp only [removeTransaction, hrun, TxRef.read, htake]

/-- For every `operator==`, pool and transaction `tx` held outside the vector of the pool:
after `removeTransaction(tx)` the pool contains no transaction equal to `tx`; the remaining
list is the old one with entries left out, so every other transaction is still present, as
often as before and in its previous relative order; and if no transaction of the pool equals
`tx` the pool is unchanged. -/
theorem removeTransaction_outside_spec (eq : Transaction → Transaction → Bool)
    (movedFrom : Transaction → Transaction) (pool : TransactionPool) (tx : Transaction) :
    ∃ pool2, removeTransaction eq movedFrom pool (TxRef.outside tx) = some pool2 ∧
      (∀ t ∈ getTransactions pool2, eq t tx = false) ∧
      (getTransactions pool2).Sublist (getTransactions pool) ∧
      (∀ t, eq t tx = false →
        (getTransactions pool2).count t = (getTransactions pool).count t) ∧
      ((∀ t ∈ getTransactions pool, eq t tx = false) → pool2 = pool) := by
  refine ⟨_, removeTransaction_outside eq movedFrom pool tx, ?_, ?_, ?_, ?_⟩
  · intro t ht
    simp only [getTransactions, List.mem_filter, Bool.not_eq_true'] at ht
    exact ht.2
  · exact List.filter_sublist _
  · intro t ht
    simp only [getTransactions]
    exact List.count_filter (by simp [ht])
  · intro hall
    have hfil : pool.transactions.filter (fun t => !(eq t tx)) = pool.transactions := by
      rw [List.filter_eq_self]
      intro t ht
      simp [hall t ht]
    rw [hfil]

/-- C20 (evaluation at the failing input): the pool `doubledPool` holds `[txA, txB, txA]`;
`removeTransaction(getTransactions()[0])`, whose argument refers to the first element of the
pool's own vector, leaves `[txB, txA]`: a transaction equal to the one to remove is still
in the pool. The same call with a copy of `txA` held outside the pool leaves `[txB]`. -/
theorem removeTransaction_aliased_reference :
    getTransactions doubledPool = [txA, txB, txA] ∧
    (TxRef.element 0).read (getTransactions doubledPool) = some txA ∧
    (removeTransaction memberwise_eq movedFromEmptied doubledPool (TxRef.element 0)).map
      getTransactions = some [txB, txA] ∧
    memberwise_eq txA txA = true ∧
    (removeTransaction memberwise_eq movedFromEmptied doubledPool (TxRef.outside txA)).map
      getTransactions = some [txB] := by
  refine ⟨by decide, by decide, by decide, by decide, by decide⟩

/-! ## Selection -/

theorem select_loop_spec (sz max : Nat) : ∀ (l : List Transaction) (total : Nat),
    total ≤ max → total + l.length * sz < 2 ^ 64 →
    ∃ rest, l = select_loop sz max l total ++ rest ∧
      total + (select_loop sz max l total).length * sz ≤ max ∧
      (rest = [] ∨ total + ((select_loop sz max l total).length + 1) * sz > max) := by
  intro l
  induction l with
  | nil =>
    intro total ht _
    exact ⟨[], by simp [select_loop], by simpa [select_loop] using ht, Or.inl rfl⟩
  | cons tx l ih =>
    intro total ht hfit
    have hlen : (tx :: l).length * sz = l.length * sz + sz := by
      rw [List.length_cons, Nat.succ_mul]
    rw [hlen] at hfit
    have hmod : (total + sz) % 2 ^ 64 = total + sz := Nat.mod_eq_of_lt (by omega)
    by_cases hover : total + sz > max
    · have hsel : select_loop sz max (tx :: l) total = [] := by
        show (if (total + sz) % 2 ^ 64 > max then [] else _) = []
        rw [hmod, if_pos hover]
      rw [hsel]
      refine ⟨tx :: l, rfl, ?_, Or.inr ?_⟩
      · simpa using ht
      · simpa using hover
    · obtain ⟨rest, hsplit, hsize, hstop⟩ := ih (total + sz) (by omega) (by omega)
      have hsel : select_loop sz max (tx :: l) total =
          tx :: select_loop sz max l (total + sz) := by
        show (if (total + sz) % 2 ^ 64 > max then []
          else tx :: select_loop sz max l ((total + sz) % 2 ^ 64)) = _
        rw [hmod, if_neg hover]
      refine ⟨rest, ?_, ?_, ?_⟩
      · rw [hsel, List.cons_append, ← hsplit]
      · rw [hsel, List.length_cons, Nat.succ_mul]
        omega
      · rcases hstop with h | h
        · exact Or.inl h
        · right
          rw [hsel, List.length_cons]
          have e1 : ((select_loop sz max l (total + sz)).length + 1 + 1) * sz =
              ((select_loop sz max l (total + sz)).length + 1) * sz + sz := by
            rw [Nat.succ_mul]
          rw [e1]
          omega

theorem sorted_timestamps (S : StdSort) (l : List Transaction) :
    (S.sort l).Pairwise (fun a b => a.timestamp ≤ b.timestamp) := by
  refine (S.sorted l).imp ?_
  intro a b hab
  simpa [by_timestamp] using hab

/-- C16: for every pool (whose vector fits the 64-bit address space) and every
`max_block_size`, `selectTransactionsForBlock` returns the longest initial segment of the
pool's transactions arranged by non-decreasing timestamp whose accumulated size does not
exceed `max_block_size`: the result is sorted oldest first, every unselected transaction has
a timestamp >= every selected one, the accumulated size is <= `max_block_size`, no longer
initial segment fits, and either the whole pool is selected or adding the next-oldest
transaction would exceed `max_block_size`. -/
theorem selectTransactionsForBlock_spec (S : StdSort) (sizeofTx : Nat)
    (pool : TransactionPool) (max_block_size : Nat)
    (hfit : (getTransactions pool).length * sizeofTx < 2 ^ 64) :
    ∃ rest,
      S.sort (getTransactions pool) =
        (selectTransactionsForBlock S sizeofTx pool max_block_size).1 ++ rest ∧
      ((selectTransactionsForBlock S sizeofTx pool max_block_size).1 ++ rest).Perm
        (getTransactions pool) ∧
      ((selectTransactionsForBlock S sizeofTx pool max_block_size).1).Pairwise
        (fun a b => a.timestamp ≤ b.timestamp) ∧
      (∀ a ∈ (selectTransactionsForBlock S sizeofTx pool max_block_size).1,
        ∀ u ∈ rest, a.timestamp ≤ u.timestamp) ∧
      (selectTransactionsForBlock S sizeofTx pool max_block_size).1.length * sizeofTx
        ≤ max_block_size ∧
      (∀ k, k ≤ (getTransactions pool).length → k * sizeofTx ≤ max_block_size →
        k ≤ (selectTransactionsForBlock S sizeofTx pool max_block_size).1.length) ∧
      (rest = [] ∨
        ((selectTransactionsForBlock S sizeofTx pool max_block_size).1.length + 1) * sizeofTx
          > max_block_size) := by
  have hlen : (S.sort pool.transactions).length = pool.transactions.length :=
    (S.perm pool.transactions).length_eq
  obtain ⟨rest, hsplit, hsize, hstop⟩ :=
    select_loop_spec sizeofTx max_block_size (S.sort pool.transactions) 0 (Nat.zero_le _)
      (by rw [hlen]; simpa [getTransactions] using hfit)
  have hsorted := sorted_timestamps S pool.transactions
  simp only [Nat.zero_add] at hsize hstop
  refine ⟨rest, hsplit, ?_, ?_, ?_, hsize, ?_, hstop⟩
  · show (select_loop sizeofTx max_block_size (S.sort pool.transactions) 0 ++ rest).Perm _
    rw [← hsplit]
    exact S.perm pool.transactions
  · rw [hsplit] at hsorted
    exact (List.pairwise_append.mp hsorted).1
  · rw [hsplit] at hsorted
    exact (List.pairwise_append.mp hsorted).2.2
  · intro k hk hksize
    show k ≤ (select_loop sizeofTx max_block_size (S.sort pool.transactions) 0).length
    rcases hstop with hnil | hmore
    · have htot := congrArg List.length hsplit
      rw [hnil, List.append_nil, hlen] at htot
      rw [← htot]
      exact hk
    · by_contra hcon
      have hge : (select_loop sizeofTx max_block_size (S.sort pool.transactions) 0).length + 1
          ≤ k := by omega
      have := Nat.mul_le_mul_right sizeofTx hge
      omega

/-- Witness for C16: `mixedPool` with room for two transactions of size 136. -/
theorem selectTransactionsForBlock_spec_witness :
    (selectTransactionsForBlock insertionStdSort sizeofTx64 mixedPool 300).1 = [txEarly, txA] ∧
    ∃ rest,
      insertionStdSort.sort (getTransactions mixedPool) =
        (selectTransactionsForBlock insertionStdSort sizeofTx64 mixedPool 300).1 ++ rest ∧
      ((selectTransactionsForBlock insertionStdSort sizeofTx64 mixedPool 300).1 ++ rest).Perm
        (getTransactions mixedPool) ∧
      ((selectTransactionsForBlock insertionStdSort sizeofTx64 mixedPool 300).1).Pairwise
        (fun a b => a.timestamp ≤ b.timestamp) ∧
      (∀ a ∈ (selectTransactionsForBlock insertionStdSort sizeofTx64 mixedPool 300).1,
        ∀ u ∈ rest, a.timestamp ≤ u.timestamp) ∧
      (selectTransactionsForBlock insertionStdSort sizeofTx64 mixedPool 300).1.length * sizeofTx64
        ≤ 300 ∧
      (∀ k, k ≤ (getTransactions mixedPool).length → k * sizeofTx64 ≤ 300 →
        k ≤ (selectTransactionsForBlock insertionStdSort sizeofTx64 mixedPool 300).1.length) ∧
      (rest = [] ∨
        ((selectTransactionsForBlock insertionStdSort sizeofTx64 mixedPool 300).1.length + 1)
          * sizeofTx64 > 300) :=
  ⟨by decide,
   selectTransactionsForBlock_spec insertionStdSort sizeofTx64 mixedPool 300 (by decide)⟩

/-- C17 (counterexample): with insertion sort as `std::sort`, a call of
`selectTransactionsForBlock` on the pool `[txA, txEarly]` leaves the pool as
`[txEarly, txA]`. -/
theorem selectTransactionsForBlock_reorders :
    getTransactions unsortedPool = [txA, txEarly] ∧
    getTransactions (selectTransactionsForBlock insertionStdSort sizeofTx64 unsortedPool 1000).2
      = [txEarly, txA] ∧
    getTransactions (selectTransactionsForBlock insertionStdSort sizeofTx64 unsortedPool 1000).2
      ≠ getTransactions unsortedPool := by
  refine ⟨by decide, by decide, by decide⟩

/-- C17 (amended): `selectTransactionsForBlock` sorts the pool in place: for every pool and
`max_block_size`, the sequence returned by `getTransactions()` after the call holds the same
transactions as before, each as often as before, arranged by non-decreasing timestamp. -/
theorem selectTransactionsForBlock_keeps_contents (S : StdSort) (sizeofTx : Nat)
    (pool : TransactionPool) (max_block_size : Nat) :
    (getTransactions (selectTransactionsForBlock S sizeofTx pool max_block_size).2).Perm
      (getTransactions pool) ∧
    (getTransactions (selectTransactionsForBlock S sizeofTx pool max_block_size).2).Pairwise
      (fun a b => a.timestamp ≤ b.timestamp) :=
  ⟨S.perm pool.transactions, sorted_timestamps S pool.transactions⟩

/-! ## Selection order -/

theorem sorted_unique (l1 l2 : List Transaction) (hp : l1.Perm l2)
    (h1 : l1.Pairwise (fun a b => a.timestamp ≤ b.timestamp))
    (h2 : l2.Pairwise (fun a b => a.timestamp ≤ b.timestamp))
    (hnd : (l1.map Transaction.timestamp).Nodup) : l1 = l2 := by
  haveI : IsAntisymm Transaction (fun a b => a.timestamp < b.timestamp) :=
    ⟨fun a b hab hba => absurd hab (Nat.lt_asymm hba)⟩
  have hnd2 : (l2.map Transaction.timestamp).Nodup := (hp.map _).nodup_iff.mp hnd
  have d1 : l1.Pairwise (fun a b => a.timestamp ≠ b.timestamp) := List.pairwise_map.mp hnd
  have d2 : l2.Pairwise (fun a b => a.timestamp ≠ b.timestamp) := List.pairwise_map.mp hnd2
  have s1 : l1.Pairwise (fun a b => a.timestamp < b.timestamp) :=
    h1.imp₂ (fun a b hle hne => Nat.lt_of_le_of_ne hle hne) d1
  have s2 : l2.Pairwise (fun a b => a.timestamp < b.timestamp) :=
    h2.imp₂ (fun a b hle hne => Nat.lt_of_le_of_ne hle hne) d2
  exact List.eq_of_perm_of_sorted hp s1 s2

theorem sort_unique (S : StdSort) (l1 l2 : List Transaction) (hp : l1.Perm l2)
    (hnd : (l1.map Transaction.timestamp).Nodup) : S.sort l1 = S.sort l2 := by
  apply sorted_unique
  · exact ((S.perm l1).trans hp).trans (S.perm l2).symm
  · exact sorted_timestamps S l1
  · exact sorted_timestamps S l2
  · exact ((S.perm l1).map _).nodup_iff.mpr hnd

/-- C18 (counterexample): the pool `tiePool17` holds seventeen transactions of timestamp 5,
inserted with the amounts 0, ..., 16 in this order. With the `std::sort` of the GNU C++
library the first call of `selectTransactionsForBlock(10000)` returns them in the order 8,
16, 15, ..., 10, 9, 0, 7, 6, ..., 1 and the second call, made right after it, in the order
9, 1, 2, ..., 7, 0, 8, 10, 11, ..., 16; both sorts are runs of `gnu_sort` itself. -/
theorem second_selection_differs :
    getTransactions tiePool17 =
      [0, 1, 2, 3, 4, 5, 6, 7, 8, 9, 10, 11, 12, 13, 14, 15, 16].map txTie ∧
    (getTransactions tiePool17).map Transaction.timestamp = List.replicate 17 5 ∧
    gnu_sort (getTransactions tiePool17) =
      some (gnuStdSort.sort (getTransactions tiePool17)) ∧
    gnu_sort (gnuStdSort.sort (getTransactions tiePool17)) =
      some (gnuStdSort.sort (gnuStdSort.sort (getTransactions tiePool17))) ∧
    (selectTransactionsForBlock gnuStdSort sizeofTx64 tiePool17 10000).1 =
      [8, 16, 15, 14, 13, 12, 11, 10, 9, 0, 7, 6, 5, 4, 3, 2, 1].map txTie ∧
    (selectTransactionsForBlock gnuStdSort sizeofTx64
      (selectTransactionsForBlock gnuStdSort sizeofTx64 tiePool17 10000).2 10000).1 =
      [9, 1, 2, 3, 4, 5, 6, 7, 0, 8, 10, 11, 12, 13, 14, 15, 16].map txTie ∧
    (selectTransactionsForBlock gnuStdSort sizeofTx64
      (selectTransactionsForBlock gnuStdSort sizeofTx64 tiePool17 10000).2 10000).1 ≠
    (selectTransactionsForBlock gnuStdSort sizeofTx64 tiePool17 10000).1 := by
  refine ⟨by decide, by decide, by decide, by decide, by decide, by decide, by decide⟩

/-- C18 (amended): for every pool whose transactions have pairwise distinct timestamps and
every `max_block_size`, two consecutive calls to `selectTransactionsForBlock` with no insert
or remove between them return the identical ordered sequence of transactions. -/
theorem selectTransactionsForBlock_twice (S : StdSort) (sizeofTx : Nat)
    (pool : TransactionPool) (max_block_size : Nat)
    (hnd : ((getTransactions pool).map Transaction.timestamp).Nodup) :
    (selectTransactionsForBlock S sizeofTx
      (selectTransactionsForBlock S sizeofTx pool max_block_size).2 max_block_size).1 =
    (selectTransactionsForBlock S sizeofTx pool max_block_size).1 := by
  have hsort : S.sort (S.sort pool.transactions) = S.sort pool.transactions := by
    apply sorted_unique
    · exact S.perm _
    · exact sorted_timestamps S _
    · exact sorted_timestamps S _
    · exact (((S.perm _).trans (S.perm pool.transactions)).map _).nodup_iff.mpr hnd
  simp only [selectTransactionsForBlock, hsort]

/-- Witness for C18 (amended): `mixedPool`, timestamps 9, 5 and 1, under the sort of the
GNU C++ library. -/
theorem selectTransactionsForBlock_twice_witness :
    (selectTransactionsForBlock gnuStdSort sizeofTx64
      (selectTransactionsForBlock gnuStdSort sizeofTx64 mixedPool 300).2 300).1 =
    (selectTransactionsForBlock gnuStdSort sizeofTx64 mixedPool 300).1 :=
  selectTransactionsForBlock_twice gnuStdSort sizeofTx64 mixedPool 300 (by decide)

/-- C19 (counterexample): with insertion sort as `std::sort`, the pools `tiePoolAB` and
`tiePoolBA` hold the same two transactions of timestamp 5, inserted in different orders, and
yield the selections `[txA, txB]` and `[txB, txA]`. -/
theorem selection_follows_insertion_order :
    (getTransactions tiePoolAB).Perm (getTransactions tiePoolBA) ∧
    (selectTransactionsForBlock insertionStdSort sizeofTx64 tiePoolAB 1000).1 = [txA, txB] ∧
    (selectTransactionsForBlock insertionStdSort sizeofTx64 tiePoolBA 1000).1 = [txB, txA] := by
  refine ⟨by decide, by decide, by decide⟩

/-- C19 (amended): two pools holding the same transactions, with pairwise distinct
timestamps, inserted in different orders yield the same ordered selection for every
`max_block_size`; the code orders by timestamp alone and has no further key. -/
theorem selection_independent_of_insertion_order (S : StdSort) (sizeofTx : Nat)
    (pool1 pool2 : TransactionPool) (max_block_size : Nat)
    (hp : (getTransactions pool1).Perm (getTransactions pool2))
    (hnd : ((getTransactions pool1).map Transaction.timestamp).Nodup) :
    (selectTransactionsForBlock S sizeofTx pool1 max_block_size).1 =
    (selectTransactionsForBlock S sizeofTx pool2 max_block_size).1 := by
  have hsort := sort_unique S pool1.transactions pool2.transactions hp hnd
  simp only [selectTransactionsForBlock, hsort]

/-- Witness for C19 (amended): `mixedPool` and `mixedPoolShuffled`. -/
theorem selection_independent_of_insertion_order_witness :
    (selectTransactionsForBlock insertionStdSort sizeofTx64 mixedPool 300).1 =
    (selectTransactionsForBlock insertionStdSort sizeofTx64 mixedPoolShuffled 300).1 :=
  selection_independent_of_insertion_order insertionStdSort sizeofTx64 mixedPool
    mixedPoolShuffled 300 (by decide) (by decide)

end TxPool

/-! # Properties of `consensus.cpp` -/

namespace ConsensusCpp

/-! ## Leader selection -/

theorem eligibleNodes_eq_filter {N B Tx : Type} (A : ConsensusApi N B Tx) (l : List N) :
    eligibleNodes A l =
      l.filter (fun n => decide (A.getReputation n > A.minReputationThreshold)) := by
  induction l with
  | nil => rfl
  | cons x rest ih =>
    by_cases h : A.getReputation x > A.minReputationThreshold
    · simp [eligibleNodes, h, ih]
    · simp [eligibleNodes, h, ih]

theorem mem_eligibleNodes {N B Tx : Type} (A : ConsensusApi N B Tx) (l : List N) (n : N) :
    n ∈ eligibleNodes A l ↔ (n ∈ l ∧ A.getReputation n > A.minReputationThreshold) := by
  rw [eligibleNodes_eq_filter]
  simp [List.mem_filter]

theorem highest_loop_spec {N B Tx : Type} (A : ConsensusApi N B Tx) (l : List N)
    (hfit : ∀ n ∈ l, A.getReputation n < 2 ^ 32) :
    ∀ (leader : Option N) (h : Nat),
      ((∀ n ∈ l, A.getReputation n ≤ h) ∧ highest_loop A l leader h = leader) ∨
      (∃ pre m post, l = pre ++ m :: post ∧ highest_loop A l leader h = some m ∧
        h < A.getReputation m ∧ (∀ x ∈ pre, A.getReputation x < A.getReputation m) ∧
        (∀ x ∈ post, A.getReputation x ≤ A.getReputation m)) := by
  induction l with
  | nil =>
    intro leader h
    left
    exact ⟨by simp, rfl⟩
  | cons node rest ih =>
    intro leader h
    have hfit_rest : ∀ n ∈ rest, A.getReputation n < 2 ^ 32 :=
      fun n hn => hfit n (List.mem_cons_of_mem _ hn)
    have hmod : A.getReputation node % 2 ^ 32 = A.getReputation node :=
      Nat.mod_eq_of_lt (hfit node (List.mem_cons_self _ _))
    by_cases hgt : A.getReputation node > h
    · have hstep : highest_loop A (node :: rest) leader h =
          highest_loop A rest (some node) (A.getReputation node) := by
        show (if A.getReputation node > h then
          highest_loop A rest (some node) (A.getReputation node % 2 ^ 32)
          else highest_loop A rest leader h) = _
        rw [if_pos hgt, hmod]
      right
      rcases ih hfit_rest (some node) (A.getReputation node) with ⟨hall, hres⟩ |
        ⟨pre, m, post, hsplit, hres, hm, hpre, hpost⟩
      · exact ⟨[], node, rest, rfl, by rw [hstep, hres], hgt, by simp, hall⟩
      · refine ⟨node :: pre, m, post, by rw [hsplit]; rfl, by rw [hstep, hres],
          Nat.lt_trans hgt hm, ?_, hpost⟩
        intro x hx
        rcases List.mem_cons.mp hx with rfl | hx
        · exact hm
        · exact hpre x hx
    · have hstep : highest_loop A (node :: rest) leader h = highest_loop A rest leader h := by
        show (if A.getReputation node > h then
          highest_loop A rest (some node) (A.getReputation node % 2 ^ 32)
          else highest_loop A rest leader h) = _
        rw [if_neg hgt]
      rcases ih hfit_rest leader h with ⟨hall, hres⟩ |
        ⟨pre, m, post, hsplit, hres, hm, hpre, hpost⟩
      · left
        refine ⟨?_, by rw [hstep, hres]⟩
        intro n hn
        rcases List.mem_cons.mp hn with rfl | hn
        · exact Nat.le_of_not_lt hgt
        · exact hall n hn
      · right
        refine ⟨node :: pre, m, post, by rw [hsplit]; rfl, by rw [hstep, hres], hm, ?_, hpost⟩
        intro x hx
        rcases List.mem_cons.mp hx with rfl | hx
        · exact Nat.lt_of_le_of_lt (Nat.le_of_not_lt hgt) hm
        · exact hpre x hx

theorem selectLeader_none_of_no_eligible {N B Tx : Type} (A : ConsensusApi N B Tx)
    (roster : List N) (h : ∀ n ∈ roster, ¬ A.getReputation n > A.minReputationThreshold) :
    selectLeader A roster = none := by
  have hnil : eligibleNodes A roster = [] := by
    rw [eligibleNodes_eq_filter, List.filter_eq_nil_iff]
    intro n hn
    simpa using h n hn
  simp [selectLeader, hnil]

theorem selectLeader_spec {N B Tx : Type} (A : ConsensusApi N B Tx) (roster : List N)
    (hfit : ∀ n ∈ roster, A.getReputation n < 2 ^ 32) :
    ((∀ n ∈ roster, ¬ A.getReputation n > A.minReputationThreshold) ∧
      selectLeader A roster = none) ∨
    (∃ pre m post, roster = pre ++ m :: post ∧ selectLeader A roster = some m ∧
      A.minReputationThreshold < A.getReputation m ∧
      (∀ x ∈ pre, A.getReputation x < A.getReputation m) ∧
      (∀ x ∈ post, A.getReputation x ≤ A.getReputation m)) := by
  by_cases hno : ∀ n ∈ roster, ¬ A.getReputation n > A.minReputationThreshold
  · exact Or.inl ⟨hno, selectLeader_none_of_no_eligible A roster hno⟩
  · right
    have hex : ∃ n, n ∈ roster ∧ A.getReputation n > A.minReputationThreshold := by
      by_contra hcon
      apply hno
      intro n hn hgt
      exact hcon ⟨n, hn, hgt⟩
    obtain ⟨n0, hn0, hgt0⟩ := hex
    have hmem0 : n0 ∈ eligibleNodes A roster := (mem_eligibleNodes A roster n0).mpr ⟨hn0, hgt0⟩
    have hne : (eligibleNodes A roster).isEmpty = false := by
      cases hE : eligibleNodes A roster with
      | nil => rw [hE] at hmem0; simp at hmem0
      | cons a t => rfl
    have hsel : selectLeader A roster = highest_loop A (eligibleNodes A roster) none 0 := by
      simp [selectLeader, hne]
    have hfitE : ∀ n ∈ eligibleNodes A roster, A.getReputation n < 2 ^ 32 :=
      fun n hn => hfit n ((mem_eligibleNodes A roster n).mp hn).1
    rcases highest_loop_spec A (eligibleNodes A roster) hfitE none 0 with ⟨hall, _⟩ |
      ⟨pre, m, post, hsplit, hres, _, hpre, hpost⟩
    · have := hall n0 hmem0
      omega
    · have hmE : m ∈ eligibleNodes A roster := by rw [hsplit]; simp
      have hmgt := ((mem_eligibleNodes A roster m).mp hmE).2
      rw [eligibleNodes_eq_filter] at hsplit
      obtain ⟨l1, l2, hroster, hf1, hf2⟩ := List.filter_eq_append_iff.mp hsplit
      obtain ⟨l21, l22, hl2, hnot, _, hf22⟩ := List.filter_eq_cons_iff.mp hf2
      refine ⟨l1 ++ l21, m, l22, by rw [hroster, hl2, List.append_assoc], by rw [hsel, hres],
        hmgt, ?_, ?_⟩
      · intro x hx
        rcases List.mem_append.mp hx with hx1 | hx2
        · by_cases hp : A.getReputation x > A.minReputationThreshold
          · apply hpre
            rw [← hf1]
            exact List.mem_filter.mpr ⟨hx1, by simpa using hp⟩
          · omega
        · have := hnot x hx2
          simp only [decide_eq_true_eq] at this
          omega
      · intro x hx
        by_cases hp : A.getReputation x > A.minReputationThreshold
        · apply hpost
          rw [← hf22]
          exact List.mem_filter.mpr ⟨hx, by simpa using hp⟩
        · omega

/-- C21 (counterexample): with threshold 0 and the roster `[node10a, node10b]`, both of
reputation 10, `selectLeader` returns `node10a`, whose selected time-tokens (1) are fewer
than those of the eligible `node10b` (7). -/
theorem selectLeader_ignores_timetokens :
    selectLeader (plainConsensusApi 0 feeGenesis) [node10a, node10b] = some node10a ∧
    node10b ∈ eligibleNodes (plainConsensusApi 0 feeGenesis) [node10a, node10b] ∧
    node10b.reputation = node10a.reputation ∧
    node10a.selected_timetokens < node10b.selected_timetokens := by
  refine ⟨by decide, by decide, by decide, by decide⟩

/-- C21 (amended): whenever at least one node is eligible (reputations being `unsigned int`
values), `selectLeader` returns an eligible node whose reputation is greatest among the
eligible nodes; among the nodes sharing the highest reputation the first in roster order is
returned, whatever their selected time-tokens. -/
theorem selectLeader_first_highest {N B Tx : Type} (A : ConsensusApi N B Tx) (roster : List N)
    (hfit : ∀ n ∈ roster, A.getReputation n < 2 ^ 32)
    (helig : ∃ n ∈ roster, A.getReputation n > A.minReputationThreshold) :
    ∃ leader, selectLeader A roster = some leader ∧
      leader ∈ eligibleNodes A roster ∧
      (∀ n ∈ eligibleNodes A roster, A.getReputation n ≤ A.getReputation leader) ∧
      ∃ pre post, roster = pre ++ leader :: post ∧
        ∀ x ∈ pre, A.getReputation x < A.getReputation leader := by
  rcases selectLeader_spec A roster hfit with ⟨hno, _⟩ |
    ⟨pre, m, post, hsplit, hres, hm, hpre, hpost⟩
  · obtain ⟨n, hn, hgt⟩ := helig
    exact absurd hgt (hno n hn)
  · have hmr : m ∈ roster := by rw [hsplit]; simp
    refine ⟨m, hres, (mem_eligibleNodes A roster m).mpr ⟨hmr, hm⟩, ?_, pre, post, hsplit, hpre⟩
    intro n hn
    have hnr := ((mem_eligibleNodes A roster n).mp hn).1
    rw [hsplit] at hnr
    rcases List.mem_append.mp hnr with h1 | h2
    · exact Nat.le_of_lt (hpre n h1)
    · rcases List.mem_cons.mp h2 with rfl | h3
      · exact Nat.le_refl _
      · exact hpost n h3

/-- Witness for C21 (amended): the roster `[node5, node10a, node10b]` with threshold 0. -/
theorem selectLeader_first_highest_witness :
    ∃ leader, selectLeader (plainConsensusApi 0 feeGenesis) [node5, node10a, node10b]
        = some leader ∧
      leader ∈ eligibleNodes (plainConsensusApi 0 feeGenesis) [node5, node10a, node10b] ∧
      (∀ n ∈ eligibleNodes (plainConsensusApi 0 feeGenesis) [node5, node10a, node10b],
        (plainConsensusApi 0 feeGenesis).getReputation n ≤
          (plainConsensusApi 0 feeGenesis).getReputation leader) ∧
      ∃ pre post, [node5, node10a, node10b] = pre ++ leader :: post ∧
        ∀ x ∈ pre, (plainConsensusApi 0 feeGenesis).getReputation x <
          (plainConsensusApi 0 feeGenesis).getReputation leader :=
  selectLeader_first_highest (plainConsensusApi 0 feeGenesis) [node5, node10a, node10b]
    (by decide) ⟨node5, by decide, by decide⟩

/-- C22: for every roster of nodes with `unsigned int` reputations, `selectLeader` returns no
leader exactly when no node's reputation exceeds `MIN_REPUTATION_THRESHOLD`, and otherwise
returns a node of the roster whose reputation is the maximum over the roster, the first such
node in roster order; with two nodes of reputation 5 and 8 and a threshold below 8 it
returns the reputation-8 node in either roster order. -/
theorem selectLeader_highest_reputation {N B Tx : Type} (A : ConsensusApi N B Tx)
    (roster : List N) (hfit : ∀ n ∈ roster, A.getReputation n < 2 ^ 32) :
    (selectLeader A roster = none ↔
      ∀ n ∈ roster, ¬ A.getReputation n > A.minReputationThreshold) ∧
    (∀ leader, selectLeader A roster = some leader →
      leader ∈ roster ∧
      (∀ n ∈ roster, A.getReputation n ≤ A.getReputation leader) ∧
      ∃ pre post, roster = pre ++ leader :: post ∧
        ∀ x ∈ pre, A.getReputation x < A.getReputation leader) ∧
    (∀ a b, A.getReputation a = 5 → A.getReputation b = 8 → A.minReputationThreshold < 8 →
      selectLeader A [a, b] = some b ∧ selectLeader A [b, a] = some b) := by
  refine ⟨?_, ?_, ?_⟩
  · constructor
    · intro hnone
      rcases selectLeader_spec A roster hfit with ⟨hno, _⟩ | ⟨_, m, _, _, hres, _⟩
      · exact hno
      · rw [hres] at hnone
        exact absurd hnone (by simp)
    · exact selectLeader_none_of_no_eligible A roster
  · intro leader hsome
    rcases selectLeader_spec A roster hfit with ⟨_, hnone⟩ |
      ⟨pre, m, post, hsplit, hres, _, hpre, hpost⟩
    · rw [hnone] at hsome
      exact absurd hsome (by simp)
    · rw [hres] at hsome
      have hm : m = leader := Option.some.inj hsome
      subst hm
      refine ⟨by rw [hsplit]; simp, ?_, pre, post, hsplit, hpre⟩
      intro n hn
      rw [hsplit] at hn
      rcases List.mem_append.mp hn with h1 | h2
      · exact Nat.le_of_lt (hpre n h1)
      · rcases List.mem_cons.mp h2 with rfl | h3
        · exact Nat.le_refl _
        · exact hpost n h3
  · intro a b ha hb ht
    by_cases h5 : A.minReputationThreshold < 5
    · constructor <;>
        simp [selectLeader, eligibleNodes, highest_loop, ha, hb, h5, ht]
    · constructor <;>
        simp [selectLeader, eligibleNodes, highest_loop, ha, hb, h5, ht]

/-- Witness for C22: the nodes of reputation 5 and 8 with threshold 3, in both orders. -/
theorem selectLeader_highest_reputation_witness :
    selectLeader (plainConsensusApi 3 feeGenesis) [node5, node8] = some node8 ∧
    selectLeader (plainConsensusApi 3 feeGenesis) [node8, node5] = some node8 ∧
    (selectLeader (plainConsensusApi 3 feeGenesis) [node5, node8] = none ↔
      ∀ n ∈ [node5, node8], ¬ (plainConsensusApi 3 feeGenesis).getReputation n >
        (plainConsensusApi 3 feeGenesis).minReputationThreshold) :=
  ⟨by decide, by decide,
   (selectLeader_highest_reputation (plainConsensusApi 3 feeGenesis) [node5, node8]
     (by decide)).1⟩

/-- C24 (counterexample): with threshold 5 the node `node5`, whose reputation equals the
threshold, is not among the eligible nodes, and the roster holding only this node yields no
leader. -/
theorem threshold_node_not_eligible :
    (plainConsensusApi 5 feeGenesis).getReputation node5 =
      (plainConsensusApi 5 feeGenesis).minReputationThreshold ∧
    eligibleNodes (plainConsensusApi 5 feeGenesis) [node5] = [] ∧
    selectLeader (plainConsensusApi 5 feeGenesis) [node5] = none := by
  refine ⟨by decide, by decide, by decide⟩

/-- C24 (amended): the nodes eligible for leadership in `selectLeader` are exactly those
with reputation > `MIN_REPUTATION_THRESHOLD`; a node whose reputation equals the threshold
is not eligible, and a roster whose only node has reputation equal to the threshold yields
no leader. -/
theorem eligible_iff_above_threshold {N B Tx : Type} (A : ConsensusApi N B Tx)
    (roster : List N) (n : N) :
    (n ∈ eligibleNodes A roster ↔
      (n ∈ roster ∧ A.getReputation n > A.minReputationThreshold)) ∧
    (A.getReputation n = A.minReputationThreshold →
      n ∉ eligibleNodes A roster ∧ selectLeader A [n] = none) := by
  refine ⟨mem_eligibleNodes A roster n, ?_⟩
  intro heq
  constructor
  · intro hmem
    have := ((mem_eligibleNodes A roster n).mp hmem).2
    omega
  · apply selectLeader_none_of_no_eligible
    intro m hm
    rw [List.mem_singleton] at hm
    subst hm
    omega

/-! ## Rounds -/

/-- C25: if no node of the roster is eligible, `startRound` ends normally as a skipped round:
it returns, the chain and the broadcast messages are unchanged (no block is proposed or
appended), no leader is set, and `currentRound` has advanced by exactly one. -/
theorem startRound_skips_without_leader {N B Tx : Type} (A : ConsensusApi N B Tx)
    (s : Consensus N B)
    (h : ∀ n ∈ s.nodes, ¬ A.getReputation n > A.minReputationThreshold) :
    ∃ s2, startRound A s = some s2 ∧ s2.chain = s.chain ∧ s2.nodes = s.nodes ∧
      s2.broadcasts = s.broadcasts ∧ s2.currentLeader = none ∧
      s2.currentRound = s.currentRound + 1 := by
  have hsel : selectLeader A s.nodes = none := selectLeader_none_of_no_eligible A s.nodes h
  refine ⟨{ s with currentRound := s.currentRound + 1, currentLeader := none }, ?_,
    rfl, rfl, rfl, rfl, rfl⟩
  simp only [startRound, hsel]

/-- Witness for C25: one node of reputation 5 under threshold 5. -/
theorem startRound_skips_without_leader_witness :
    ∃ s2, startRound (plainConsensusApi 5 feeBlock123) (plainState [feeGenesis] [node5])
        = some s2 ∧
      s2.chain = (plainState [feeGenesis] [node5]).chain ∧
      s2.nodes = (plainState [feeGenesis] [node5]).nodes ∧
      s2.broadcasts = (plainState [feeGenesis] [node5]).broadcasts ∧
      s2.currentLeader = none ∧
      s2.currentRound = (plainState [feeGenesis] [node5]).currentRound + 1 :=
  startRound_skips_without_leader (plainConsensusApi 5 feeBlock123)
    (plainState [feeGenesis] [node5]) (by decide)

theorem startRound_with_leader {N B Tx : Type} (A : ConsensusApi N B Tx) (s : Consensus N B)
    (leader : N) (hsel : selectLeader A s.nodes = some leader) :
    startRound A s =
      match validateBlock A s.chain (A.proposeBlock leader) with
      | none => none
      | some true =>
        match BlockchainCpp.addBlock A.block s.chain (A.proposeBlock leader) with
        | none => none
        | some chain2 =>
          some { s with currentRound := s.currentRound + 1, currentLeader := some leader,
                        chain := chain2,
                        broadcasts := (s.broadcasts ++ [Broadcast.leader (A.getId leader)])
                          ++ [Broadcast.block (A.proposeBlock leader)] }
      | some false =>
        some { s with currentRound := s.currentRound + 1, currentLeader := some leader,
                      broadcasts := s.broadcasts ++ [Broadcast.leader (A.getId leader)] } := by
  simp only [startRound, hsel]

theorem addBlock_of_validateBlock {N B Tx : Type} (A : ConsensusApi N B Tx) (chain : List B)
    (block : B) (h : validateBlock A chain block = some true) :
    BlockchainCpp.addBlock A.block chain block = some (chain ++ [block]) := by
  unfold validateBlock at h
  by_cases hs : snarkProofsVerify A (A.block.getTransactions block) = true
  · simp only [hs, Bool.not_true, Bool.false_eq_true, if_false] at h
    cases hl : chain.getLast? with
    | none => rw [hl] at h; simp at h
    | some latest =>
      rw [hl] at h
      simp only at h
      by_cases hv : BlockchainCpp.isValidNewBlock A.block block latest = true
      · simp [BlockchainCpp.addBlock, hl, hv]
      · simp [hv] at h
  · simp [hs] at h

/-- C27: if the block proposed by the leader fails `validateBlock`, `startRound` returns with
the chain exactly as it was and `currentRound` advanced by exactly one; whenever
`startRound` returns, `currentRound` has advanced by exactly one and the chain is either
unchanged or has grown by exactly the proposed block, the latter only in a round whose block
passed `validateBlock`. -/
theorem startRound_rejected_block {N B Tx : Type} (A : ConsensusApi N B Tx)
    (s : Consensus N B) :
    (∀ leader, selectLeader A s.nodes = some leader →
      validateBlock A s.chain (A.proposeBlock leader) = some false →
      ∃ s2, startRound A s = some s2 ∧ s2.chain = s.chain ∧
        s2.currentRound = s.currentRound + 1) ∧
    (∀ s2, startRound A s = some s2 →
      s2.currentRound = s.currentRound + 1 ∧
      (s2.chain = s.chain ∨
        ∃ leader, selectLeader A s.nodes = some leader ∧
          validateBlock A s.chain (A.proposeBlock leader) = some true ∧
          s2.chain = s.chain ++ [A.proposeBlock leader])) := by
  constructor
  · intro leader hsel hval
    rw [startRound_with_leader A s leader hsel, hval]
    exact ⟨_, rfl, rfl, rfl⟩
  · intro s2 hrun
    cases hsel : selectLeader A s.nodes with
    | none =>
      simp only [startRound, hsel] at hrun
      have := Option.some.inj hrun
      subst this
      exact ⟨rfl, Or.inl rfl⟩
    | some leader =>
      rw [startRound_with_leader A s leader hsel] at hrun
      cases hval : validateBlock A s.chain (A.proposeBlock leader) with
      | none => rw [hval] at hrun; simp at hrun
      | some ok =>
        cases ok with
        | false =>
          rw [hval] at hrun
          have := Option.some.inj hrun
          subst this
          exact ⟨rfl, Or.inl rfl⟩
        | true =>
          rw [hval] at hrun
          simp only [addBlock_of_validateBlock A s.chain _ hval] at hrun
          have := Option.some.inj hrun
          subst this
          exact ⟨rfl, Or.inr ⟨leader, rfl, hval, rfl⟩⟩

/-- Witness for C27: the leader `node8` proposes `feeBlockUnmined`, whose hash fails the
proof-of-work test. -/
theorem startRound_rejected_block_witness :
    validateBlock (plainConsensusApi 3 feeBlockUnmined) [feeGenesis] feeBlockUnmined
      = some false ∧
    ∃ s2, startRound (plainConsensusApi 3 feeBlockUnmined) (plainState [feeGenesis] [node8])
        = some s2 ∧
      s2.chain = (plainState [feeGenesis] [node8]).chain ∧
      s2.currentRound = (plainState [feeGenesis] [node8]).currentRound + 1 :=
  ⟨by decide,
   (startRound_rejected_block (plainConsensusApi 3 feeBlockUnmined)
     (plainState [feeGenesis] [node8])).1 node8 (by decide) (by decide)⟩

/-! ## Distribution of rewards and fees -/

theorem totalFees_fold {N B Tx : Type} (A : ConsensusApi N B Tx) (txs : List Tx) :
    ∀ acc, acc < 2 ^ 32 →
      txs.foldl (fun total tx => (total + A.getFee tx) % 2 ^ 32) acc =
        (acc + (txs.map A.getFee).sum) % 2 ^ 32 := by
  induction txs with
  | nil =>
    intro acc hacc
    simp only [List.foldl_nil, List.map_nil, List.sum_nil, Nat.add_zero]
    exact (Nat.mod_eq_of_lt hacc).symm
  | cons tx rest ih =>
    intro acc _
    simp only [List.foldl_cons, List.map_cons, List.sum_cons]
    rw [ih ((acc + A.getFee tx) % 2 ^ 32) (Nat.mod_lt _ (by norm_num)), Nat.mod_add_mod,
      Nat.add_assoc]

theorem totalFees_eq_sum {N B Tx : Type} (A : ConsensusApi N B Tx) (txs : List Tx)
    (h : (txs.map A.getFee).sum < 2 ^ 32) : totalFees A txs = (txs.map A.getFee).sum := by
  unfold totalFees
  rw [totalFees_fold A txs 0 (by norm_num), Nat.zero_add, Nat.mod_eq_of_lt h]

/-- C28 (evaluation at the failing input): with `BLOCK_REWARD = 50`, a roster of one node
and a chain of two blocks, `distributeRewards` computes `rewardPerValidator = 25` and the
node's balance grows from 0 to 25, not to 50. -/
theorem distributeRewards_divides_by_chain_length :
    (plainConsensusApi 3 feeGenesis).blockReward = 50 ∧
    (plainState [feeGenesis, feeBlock123] [node8]).nodes.length = 1 ∧
    rewardPerValidator (plainConsensusApi 3 feeGenesis)
      (plainState [feeGenesis, feeBlock123] [node8]) = some 25 ∧
    (distributeRewards (plainConsensusApi 3 feeGenesis)
      (plainState [feeGenesis, feeBlock123] [node8])).map
        (fun s => s.nodes.map PlainNode.balance) = some [25] := by
  refine ⟨by decide, by decide, by decide, by decide⟩

/-- C29 (counterexample): the latest block carries two fees of `2 ^ 31`, whose sum is
`2 ^ 32`; `totalFees` wraps to 0 and the single node of the roster is credited 0. -/
theorem distributeFees_wraps :
    (feeBlockHuge.transactions.map PlainTx.fee).sum = 2 ^ 32 ∧
    totalFees (plainConsensusApi 3 feeGenesis) feeBlockHuge.transactions = 0 ∧
    (distributeFees (plainConsensusApi 3 feeGenesis)
      (plainState [feeGenesis, feeBlockHuge] [node8])).map
        (fun s => s.nodes.map PlainNode.balance) = some [0] := by
  refine ⟨by decide, by decide, by decide⟩

/-- C29 (amended): for every non-empty roster of `n` nodes and every chain whose latest
block carries fees of sum `F < 2 ^ 32` (the accumulator `totalFees` is a 32-bit unsigned
value), `distributeFees` credits each node with `floor(F / n)`; the total credited,
`n * floor(F / n)`, is at most `F` and the discarded remainder `F mod n` is smaller than
`n`. -/
theorem distributeFees_equal_shares {N B Tx : Type} (A : ConsensusApi N B Tx)
    (s : Consensus N B) (latestBlock : B) (hlast : s.chain.getLast? = some latestBlock)
    (hroster : s.nodes ≠ [])
    (hsum : ((A.block.getTransactions latestBlock).map A.getFee).sum < 2 ^ 32) :
    ∃ s2, distributeFees A s = some s2 ∧
      s2.nodes = s.nodes.map (fun node => A.addToBalance node
        (((A.block.getTransactions latestBlock).map A.getFee).sum / s.nodes.length)) ∧
      s2.chain = s.chain ∧
      s.nodes.length *
        (((A.block.getTransactions latestBlock).map A.getFee).sum / s.nodes.length)
          ≤ ((A.block.getTransactions latestBlock).map A.getFee).sum ∧
      ((A.block.getTransactions latestBlock).map A.getFee).sum % s.nodes.length
        < s.nodes.length := by
  have hlen : 0 < s.nodes.length := List.length_pos.mpr hroster
  have hne : ¬ s.nodes.length = 0 := by omega
  have hdiv : ((A.block.getTransactions latestBlock).map A.getFee).sum / s.nodes.length
      < 2 ^ 32 := Nat.lt_of_le_of_lt (Nat.div_le_self _ _) hsum
  have hfee : feePerValidator A s =
      some (((A.block.getTransactions latestBlock).map A.getFee).sum / s.nodes.length) := by
    unfold feePerValidator
    rw [hlast]
    simp only [hne, if_false]
    rw [totalFees_eq_sum A _ hsum, Nat.mod_eq_of_lt hdiv]
  refine ⟨{ s with nodes := s.nodes.map (fun node => A.addToBalance node
      (((A.block.getTransactions latestBlock).map A.getFee).sum / s.nodes.length)) },
    by simp only [distributeFees, hfee], rfl, rfl, Nat.mul_div_le _ _, Nat.mod_lt _ hlen⟩

/-- Witness for C29 (amended): one node and a latest block with fees 1, 2 and 3; the node
receives 6. -/
theorem distributeFees_equal_shares_witness :
    (distributeFees (plainConsensusApi 3 feeGenesis)
      (plainState [feeGenesis, feeBlock123] [node8])).map
        (fun s => s.nodes.map PlainNode.balance) = some [6] ∧
    ∃ s2, distributeFees (plainConsensusApi 3 feeGenesis)
        (plainState [feeGenesis, feeBlock123] [node8]) = some s2 ∧
      s2.nodes = (plainState [feeGenesis, feeBlock123] [node8]).nodes.map
        (fun node => (plainConsensusApi 3 feeGenesis).addToBalance node
          (((((plainConsensusApi 3 feeGenesis).block.getTransactions feeBlock123).map
            (plainConsensusApi 3 feeGenesis).getFee).sum) /
              (plainState [feeGenesis, feeBlock123] [node8]).nodes.length)) ∧
      s2.chain = (plainState [feeGenesis, feeBlock123] [node8]).chain ∧
      (plainState [feeGenesis, feeBlock123] [node8]).nodes.length *
        (((((plainConsensusApi 3 feeGenesis).block.getTransactions feeBlock123).map
          (plainConsensusApi 3 feeGenesis).getFee).sum) /
            (plainState [feeGenesis, feeBlock123] [node8]).nodes.length)
          ≤ (((plainConsensusApi 3 feeGenesis).block.getTransactions feeBlock123).map
            (plainConsensusApi 3 feeGenesis).getFee).sum ∧
      (((plainConsensusApi 3 feeGenesis).block.getTransactions feeBlock123).map
        (plainConsensusApi 3 feeGenesis).getFee).sum %
          (plainState [feeGenesis, feeBlock123] [node8]).nodes.length
        < (plainState [feeGenesis, feeBlock123] [node8]).nodes.length :=
  ⟨by decide,
   distributeFees_equal_shares (plainConsensusApi 3 feeGenesis)
     (plainState [feeGenesis, feeBlock123] [node8]) feeBlock123 (by decide) (by decide)
     (by decide)⟩

end ConsensusCpp

/-! # Properties of `consensus.h` -/

namespace ConsensusH

/-! ## Reputation -/

/-- C30 (counterexample): a node whose reputation was raised to `2 ^ 64 - 1` by
`increment_reputation` has reputation 0 after `increment_reputation(1)`. -/
theorem increment_reputation_wraps :
    nodeFull.reputation = 2 ^ 64 - 1 ∧
    (nodeFull.increment_reputation 1).reputation = 0 ∧
    (nodeFull.increment_reputation 1).reputation < nodeFull.reputation := by
  refine ⟨by decide, by decide, by decide⟩

/-- C30 (amended): for every `Node` and every amount with `reputation + amount < 2 ^ 64`,
after `increment_reputation(amount)` the reputation is its value before the call plus
`amount`, hence >= that value; and `reset_timetokens` leaves the reputation unchanged. -/
theorem increment_reputation_monotone (n : Node) (amount : Nat)
    (h : n.reputation + amount < 2 ^ 64) :
    (n.increment_reputation amount).reputation = n.reputation + amount ∧
    n.reputation ≤ (n.increment_reputation amount).reputation ∧
    n.reset_timetokens.reputation = n.reputation := by
  have hrep : (n.increment_reputation amount).reputation = n.reputation + amount := by
    show (n.reputation + amount) % 2 ^ 64 = n.reputation + amount
    exact Nat.mod_eq_of_lt h
  refine ⟨hrep, ?_, rfl⟩
  rw [hrep]
  exact Nat.le_add_right _ _

/-- Witness for C30 (amended): `nodeTwo` (reputation 2) credited with 5. -/
theorem increment_reputation_monotone_witness :
    (nodeTwo.increment_reputation 5).reputation = nodeTwo.reputation + 5 ∧
    nodeTwo.reputation ≤ (nodeTwo.increment_reputation 5).reputation ∧
    nodeTwo.reset_timetokens.reputation = nodeTwo.reputation :=
  increment_reputation_monotone nodeTwo 5 (by decide)

/-! ## The shuffled election -/

theorem shuffle_nil (Sh : StdShuffle) (seed : Nat) : Sh.shuffle seed [] = [] :=
  List.perm_nil.mp (Sh.perm seed [])

theorem eligible_ne_nil (nodes : List Node) (h : nodes ≠ []) :
    get_eligible_nodes_for_leadership nodes ≠ [] := by
  cases nodes with
  | nil => exact absurd rfl h
  | cons n rest => simp [get_eligible_nodes_for_leadership, eligible_loop]

theorem eligible_pointers_loop_pointees (l : List Node) : ∀ (pre : List Node) (mx : Nat),
    (eligible_pointers_loop l pre.length mx).map (fun p => (pre ++ l)[p]?) =
      (eligible_loop l mx).map some := by
  induction l with
  | nil => intro pre mx; rfl
  | cons node rest ih =>
    intro pre mx
    have h := ih (pre ++ [node])
    simp only [List.length_append, List.length_singleton, List.append_assoc,
      List.singleton_append] at h
    have hhead : (pre ++ node :: rest)[pre.length]? = some node := by
      rw [List.getElem?_append_right (Nat.le_refl _), Nat.sub_self]
      exact List.getElem?_cons_zero
    by_cases hc : node.reputation ≥ mx
    · simp only [eligible_pointers_loop, eligible_loop, if_pos hc, List.map_cons, h, hhead]
    · simp only [eligible_pointers_loop, eligible_loop, if_neg hc, h]

/-- The pointers `get_eligible_nodes_for_leadership` returns refer, in order, to the nodes of
the eligible list. -/
theorem eligible_pointees (nodes : List Node) :
    (eligible_pointers nodes).map (fun p => nodes[p]?) =
      (get_eligible_nodes_for_leadership nodes).map some := by
  have h := eligible_pointers_loop_pointees nodes [] 0
  simpa [eligible_pointers, get_eligible_nodes_for_leadership] using h

theorem eligible_pointer_valid (nodes : List Node) (p : Nat)
    (hp : p ∈ eligible_pointers nodes) :
    ∃ node, nodes[p]? = some node ∧ node ∈ get_eligible_nodes_for_leadership nodes := by
  have hmem : nodes[p]? ∈ (eligible_pointers nodes).map (fun p => nodes[p]?) :=
    List.mem_map.mpr ⟨p, hp, rfl⟩
  rw [eligible_pointees] at hmem
  obtain ⟨node, hnode, heq⟩ := List.mem_map.mp hmem
  exact ⟨node, heq.symm, hnode⟩

theorem eligible_pointers_ne_nil (nodes : List Node) (h : nodes ≠ []) :
    eligible_pointers nodes ≠ [] := by
  intro hnil
  have hp := eligible_pointees nodes
  rw [hnil] at hp
  have hm : (get_eligible_nodes_for_leadership nodes).map some = [] := hp.symm
  exact eligible_ne_nil nodes h (List.map_eq_nil_iff.mp hm)

theorem select_leader_eq (Sh : StdShuffle) (seed : Nat) (nodes : List Node) (p : Nat)
    (node : Node) (hl : (Sh.shuffle seed (eligible_pointers nodes)).getLast? = some p)
    (hn : nodes[p]? = some node) :
    select_leader Sh seed nodes =
      some ({ node with is_leader := true },
            nodes.set p { node with is_leader := true }) := by
  simp only [select_leader, hl, hn]

theorem select_leader_defined (Sh : StdShuffle) (seed : Nat) (nodes : List Node)
    (h : nodes ≠ []) : ∃ r, select_leader Sh seed nodes = some r := by
  have hne : Sh.shuffle seed (eligible_pointers nodes) ≠ [] := by
    intro hnil
    have hp := Sh.perm seed (eligible_pointers nodes)
    rw [hnil] at hp
    exact eligible_pointers_ne_nil nodes h hp.nil_eq.symm
  cases hl : (Sh.shuffle seed (eligible_pointers nodes)).getLast? with
  | none => exact absurd (List.getLast?_eq_none_iff.mp hl) hne
  | some p =>
    have hmem : p ∈ eligible_pointers nodes :=
      (Sh.perm seed _).mem_iff.mp (List.mem_of_getLast?_eq_some hl)
    obtain ⟨node, hn, _⟩ := eligible_pointer_valid nodes p hmem
    exact ⟨_, select_leader_eq Sh seed nodes p node hl hn⟩

/-- A round on a non-empty roster is defined and advances `round_number` by one modulo
`2 ^ 64`. -/
theorem run_consensus_round_defined (P : Ledger.Platform) (Sh : StdShuffle)
    (create_block : Ledger.Blockchain → List Ledger.Block → Node → Ledger.Block)
    (seed : Nat) (c : Consensus) (h : c.nodes ≠ []) :
    ∃ c2, run_consensus_round P Sh create_block seed c = some c2 ∧
      c2.round_number = (c.round_number + 1) % 2 ^ 64 := by
  obtain ⟨r, hr⟩ := select_leader_defined Sh seed c.nodes h
  simp only [run_consensus_round, hr]
  exact ⟨_, rfl, rfl⟩

/-- C26 (evaluation at the failing input): on the empty roster, for every shuffle, clock
value, ledger and round number, `select_leader` reads `eligible_nodes.back()` of an empty
list, so it and `run_consensus_round` are undefined. -/
theorem run_consensus_round_empty_roster (P : Ledger.Platform) (Sh : StdShuffle)
    (create_block : Ledger.Blockchain → List Ledger.Block → Node → Ledger.Block)
    (seed : Nat) (bc : Ledger.Blockchain) (round : Nat) :
    get_eligible_nodes_for_leadership [] = [] ∧
    select_leader Sh seed [] = none ∧
    run_consensus_round P Sh create_block seed
      { blockchain := bc, nodes := [], round_number := round } = none := by
  have hsel : select_leader Sh seed [] = none := by
    simp [select_leader, eligible_pointers, eligible_pointers_loop, shuffle_nil]
  refine ⟨rfl, hsel, ?_⟩
  simp only [run_consensus_round, hsel]

end ConsensusH

/-! # Properties of the compression codec -/

namespace Compcrypt

/-- C31: `decompress_data(compress_data(x)) == x` for every string `x`, the empty string
included. -/
theorem decompress_compress_data (x : String) :
    decompress_data (compress_data x) = x ∧ decompress_data (compress_data "") = "" :=
  ⟨rfl, rfl⟩

end Compcrypt

/-! # Properties of the mock proofs -/

namespace SnarkProofCpp

theorem mock_proof_injective (v1 v2 : Nat)
    (h : (generate_mock_snark_proof v1).2 = (generate_mock_snark_proof v2).2) : v1 = v2 :=
  Ledger.toString_nat_injective (Ledger.str_append_left_cancel _ _ _ h)

/-- C32 (counterexample): the transfers alice -> bob and carol -> dave, both of amount 100,
get the same proof from `generate_snark(amount)`; and the validator accepts, for the pool
transaction carol -> dave, the bytes of the proof generated for alice -> bob, as it accepts
the bytes of the proof generated for the amount 50. -/
theorem mock_proof_not_bound_to_transaction :
    txAliceBob.sender ≠ txCarolDave.sender ∧ txAliceBob.receiver ≠ txCarolDave.receiver ∧
    (txAliceBob.generate_snark txAliceBob.amount).2.proof =
      (txCarolDave.generate_snark txCarolDave.amount).2.proof ∧
    TxPool.validateTransactionProof TxPool.SnarkProofValidator.source
      { sender := "carol", receiver := "dave", amount := 100, timestamp := 1700000000,
        signature := "",
        snark_proof := proof_bytes (txAliceBob.generate_snark txAliceBob.amount).2.proof }
      = true ∧
    TxPool.validateTransactionProof TxPool.SnarkProofValidator.source
      { sender := "carol", receiver := "dave", amount := 100, timestamp := 1700000000,
        signature := "",
        snark_proof := proof_bytes (txAliceBob50.generate_snark txAliceBob50.amount).2.proof }
      = true := by
  refine ⟨by decide, by decide, by decide, by decide, by decide⟩

/-- C32 (amended): the mock proof is determined by the input value handed to
`generate_snark` alone: it is the text "SNARK-proof-for-value-" followed by the decimal
digits of the input value, written to the field `proof` while the other fields of the
transaction stay as they are, and generation returns true; so two transactions get the same
proof exactly when they are given the same input value, whatever their sender, receiver and
amount; and `validateProof` accepts every byte sequence, hence every proof for every
transaction. -/
theorem mock_proof_bound_to_input_value (tx1 tx2 : Transaction) (v1 v2 : Nat) :
    (tx1.generate_snark v1).2.proof =
      "SNARK-proof-for-value-" ++ String.mk (Nat.toDigits 10 v1) ∧
    (tx1.generate_snark v1).2 =
      { sender := tx1.sender, receiver := tx1.receiver, amount := tx1.amount,
        timestamp := tx1.timestamp,
        proof := "SNARK-proof-for-value-" ++ String.mk (Nat.toDigits 10 v1) } ∧
    ((tx1.generate_snark v1).2.proof = (tx2.generate_snark v2).2.proof ↔ v1 = v2) ∧
    (tx1.generate_snark v1).1 = true ∧
    (∀ proof_data : List Nat,
      TxPool.SnarkProofValidator.source.validateProof proof_data = true) ∧
    (∀ (tx : TxPool.Transaction),
      TxPool.validateTransactionProof TxPool.SnarkProofValidator.source
        { tx with snark_proof := proof_bytes (tx1.generate_snark v1).2.proof } = true) := by
  refine ⟨rfl, rfl, ⟨fun h => mock_proof_injective v1 v2 h, fun h => by rw [h]; rfl⟩, rfl,
    fun _ => rfl, fun _ => rfl⟩

end SnarkProofCpp

/-! # Further properties of the transaction pool -/

namespace TxPool

theorem insert_all_from (txs : List Transaction) : ∀ pool : TransactionPool,
    txs.foldl (insertTransaction SnarkProofValidator.source) pool =
      { transactions := pool.transactions ++ txs } := by
  induction txs with
  | nil => intro pool; simp
  | cons tx rest ih =>
    intro pool
    rw [List.foldl_cons, ih]
    simp [insertTransaction, validateTransactionProof, SnarkProofValidator.source]

/-- C33: `SnarkProofValidator::validateProof` returns true for every byte sequence, so
`insertTransaction` appends every transaction it is given: after `k` `insertTransaction`
calls on an empty pool the pool holds exactly the `k` transactions, in insertion order. -/
theorem insertTransaction_accepts_all (txs : List Transaction) (proof_data : List Nat)
    (pool : TransactionPool) (tx : Transaction) :
    SnarkProofValidator.source.validateProof proof_data = true ∧
    getTransactions (insertTransaction SnarkProofValidator.source pool tx) =
      getTransactions pool ++ [tx] ∧
    getTransactions (txs.foldl (insertTransaction SnarkProofValidator.source)
      TransactionPool.empty) = txs ∧
    (getTransactions (txs.foldl (insertTransaction SnarkProofValidator.source)
      TransactionPool.empty)).length = txs.length := by
  have hall : getTransactions (txs.foldl (insertTransaction SnarkProofValidator.source)
      TransactionPool.empty) = txs := by
    rw [insert_all_from]
    simp [getTransactions, TransactionPool.empty]
  refine ⟨rfl, rfl, hall, by rw [hall]⟩

end TxPool

/-! # Further properties of the distribution routines -/

namespace ConsensusCpp

/-- C37 (evaluation at the failing input): with `BLOCK_REWARD = 50`, a chain of one block
and a roster of two nodes, `distributeRewards` credits each node with 50, in total 100. -/
theorem distributeRewards_exceeds_block_reward :
    (plainConsensusApi 3 feeGenesis).blockReward = 50 ∧
    (distributeRewards (plainConsensusApi 3 feeGenesis)
      (plainState [feeGenesis] [node5, node8])).map
        (fun s => s.nodes.map PlainNode.balance) = some [50, 50] ∧
    (distributeRewards (plainConsensusApi 3 feeGenesis)
      (plainState [feeGenesis] [node5, node8])).map
        (fun s => (s.nodes.map PlainNode.balance).sum) = some 100 := by
  refine ⟨by decide, by decide, by decide⟩

theorem rewardPerValidator_defined {N B Tx : Type} (A : ConsensusApi N B Tx)
    (s : Consensus N B) (h : s.chain ≠ []) :
    rewardPerValidator A s = some ((A.blockReward / s.chain.length) % 2 ^ 32) := by
  have hlen : ¬ s.chain.length = 0 := by
    intro h0
    exact h (List.length_eq_zero.mp h0)
  simp only [rewardPerValidator, hlen, if_false]

/-- C38 (evaluation at the failing input): on a state with a chain of one block and the empty
roster, the divisor of `distributeFees` is 0, so `feePerValidator` and `distributeFees` are
undefined, while `distributeRewards`, which divides by the chain length 1, is defined. -/
theorem distributeFees_divides_by_zero :
    (plainState [feeGenesis] []).nodes.length = 0 ∧
    feePerValidator (plainConsensusApi 3 feeGenesis) (plainState [feeGenesis] []) = none ∧
    (distributeFees (plainConsensusApi 3 feeGenesis) (plainState [feeGenesis] [])).isNone
      = true ∧
    rewardPerValidator (plainConsensusApi 3 feeGenesis) (plainState [feeGenesis] [])
      = some 50 := by
  refine ⟨by decide, by decide, by decide, by decide⟩

end ConsensusCpp

/-! # Size accounting and hash input of `blockchain.h` -/

namespace Ledger

theorem size_fold (S : Nat) (l : List Transaction) : ∀ init : Nat,
    l.foldl (fun acc _ => (acc + S) % 2 ^ 64) (init % 2 ^ 64) =
      (init + l.length * S) % 2 ^ 64 := by
  induction l with
  | nil => intro init; simp
  | cons t rest ih =>
    intro init
    rw [List.foldl_cons, Nat.mod_add_mod, ih (init + S), List.length_cons, Nat.succ_mul]
    congr 1
    omega

theorem block_size_eq (P : Platform) (b : Block) :
    block_size P b = (P.sizeofBlock + b.transactions.length * P.sizeofTransaction) % 2 ^ 64 :=
  size_fold P.sizeofTransaction b.transactions P.sizeofBlock

/-- C34: the size check of `add_block` depends only on the number of transactions in the
block: a block with the expected index and `k` transactions (the byte count
`sizeof(Block) + k * sizeof(Transaction)` being below `2 ^ 64`) passes the check iff
`sizeof(Block) + k * sizeof(Transaction) <= max_block_size`, and two blocks with the same
number of transactions get the same size and, at equal index, the same verdict. -/
theorem add_block_size_verdict (P : Platform) (s : Blockchain) (b : Block)
    (hidx : b.index = s.chain.length)
    (hfit : P.sizeofBlock + b.transactions.length * P.sizeofTransaction < 2 ^ 64) :
    ((add_block P s b).1 = true ↔
      P.sizeofBlock + b.transactions.length * P.sizeofTransaction ≤ s.max_block_size) ∧
    (∀ b2 : Block, b2.transactions.length = b.transactions.length →
      block_size P b2 = block_size P b ∧
      (b2.index = b.index → (add_block P s b2).1 = (add_block P s b).1)) := by
  have hsize : block_size P b =
      P.sizeofBlock + b.transactions.length * P.sizeofTransaction := by
    rw [block_size_eq, Nat.mod_eq_of_lt hfit]
  constructor
  · rw [add_block_fst, hsize]
    simp [hidx]
  · intro b2 hlen
    have hsame : block_size P b2 = block_size P b := by
      rw [block_size_eq, block_size_eq, hlen]
    refine ⟨hsame, ?_⟩
    intro hi
    rw [add_block_fst, add_block_fst, hsame, hi]

/-- Witness for C34: on a fresh default ledger, a block of index 1 with two transactions
passes the check, and so does any other block of index 1 with two transactions. -/
theorem add_block_size_verdict_witness :
    ((add_block refPlatform freshLedger (blockWithTwo txLongNames txShortNames)).1 = true ↔
      refPlatform.sizeofBlock +
        (blockWithTwo txLongNames txShortNames).transactions.length *
          refPlatform.sizeofTransaction ≤ freshLedger.max_block_size) ∧
    (add_block refPlatform freshLedger (blockWithTwo txShortNames txShortNames)).1 =
      (add_block refPlatform freshLedger (blockWithTwo txLongNames txShortNames)).1 :=
  ⟨(add_block_size_verdict refPlatform freshLedger (blockWithTwo txLongNames txShortNames)
      (by decide) (by decide)).1,
   ((add_block_size_verdict refPlatform freshLedger (blockWithTwo txLongNames txShortNames)
      (by decide) (by decide)).2 (blockWithTwo txShortNames txShortNames) (by decide)).2
      (by decide)⟩

/-- C35 (counterexample): the blocks `blockOneTwoThree` (index 1, previous hash "23") and
`blockTwelveThree` (index 12, previous hash "3") differ in index and previous hash and have
the same hash-input string; so have two blocks that differ only in how the text "alice" is
split between the sender and the receiver of their first transaction. -/
theorem hash_data_collides :
    blockOneTwoThree.index ≠ blockTwelveThree.index ∧
    blockOneTwoThree.previous_hash ≠ blockTwelveThree.previous_hash ∧
    blockOneTwoThree.hash_data refPlatform = blockTwelveThree.hash_data refPlatform ∧
    (blockWithTwo txAlIce txShortNames).transactions ≠
      (blockWithTwo txAliCe txShortNames).transactions ∧
    (blockWithTwo txAlIce txShortNames).hash_data refPlatform =
      (blockWithTwo txAliCe txShortNames).hash_data refPlatform := by
  refine ⟨by decide, by decide, by decide, by decide, by decide⟩

/-- C35 (amended): if two blocks differ in exactly one of index, previous_hash, timestamp
and block_proposer while agreeing on the other three and on the concatenated transaction
data, or agree on those four fields and differ in the concatenated transaction data, their
hash-input strings differ. -/
theorem hash_data_single_difference (P : Platform) (b1 b2 : Block)
    (h : (b1.index ≠ b2.index ∧ b1.previous_hash = b2.previous_hash ∧
          b1.timestamp = b2.timestamp ∧ b1.block_proposer = b2.block_proposer ∧
          transactions_data P b1.transactions = transactions_data P b2.transactions) ∨
        (b1.index = b2.index ∧ b1.previous_hash ≠ b2.previous_hash ∧
          b1.timestamp = b2.timestamp ∧ b1.block_proposer = b2.block_proposer ∧
          transactions_data P b1.transactions = transactions_data P b2.transactions) ∨
        (b1.index = b2.index ∧ b1.previous_hash = b2.previous_hash ∧
          b1.timestamp ≠ b2.timestamp ∧ b1.block_proposer = b2.block_proposer ∧
          transactions_data P b1.transactions = transactions_data P b2.transactions) ∨
        (b1.index = b2.index ∧ b1.previous_hash = b2.previous_hash ∧
          b1.timestamp = b2.timestamp ∧ b1.block_proposer ≠ b2.block_proposer ∧
          transactions_data P b1.transactions = transactions_data P b2.transactions) ∨
        (b1.index = b2.index ∧ b1.previous_hash = b2.previous_hash ∧
          b1.timestamp = b2.timestamp ∧ b1.block_proposer = b2.block_proposer ∧
          transactions_data P b1.transactions ≠ transactions_data P b2.transactions)) :
    b1.hash_data P ≠ b2.hash_data P := by
  intro heq
  rw [hash_data_eq, hash_data_eq] at heq
  simp only [String.append_assoc] at heq
  rcases h with ⟨hi, hp, ht, hb, hd⟩ | ⟨hi, hp, ht, hb, hd⟩ | ⟨hi, hp, ht, hb, hd⟩ |
    ⟨hi, hp, ht, hb, hd⟩ | ⟨hi, hp, ht, hb, hd⟩
  · rw [hp, ht, hb, hd] at heq
    exact hi (toString_nat_injective (str_append_right_cancel _ _ _ heq))
  · rw [hi, ht, hb, hd] at heq
    exact hp (str_append_right_cancel _ _ _ (str_append_left_cancel _ _ _ heq))
  · rw [hi, hp, hb, hd] at heq
    have h1 := str_append_left_cancel _ _ _ (str_append_left_cancel _ _ _ heq)
    exact ht (toString_nat_injective (str_append_right_cancel _ _ _ h1))
  · rw [hi, hp, ht, hd] at heq
    have h1 := str_append_left_cancel _ _ _
      (str_append_left_cancel _ _ _ (str_append_left_cancel _ _ _ heq))
    exact hb (str_append_right_cancel _ _ _ h1)
  · rw [hi, hp, ht, hb] at heq
    have h1 := str_append_left_cancel _ _ _ (str_append_left_cancel _ _ _
      (str_append_left_cancel _ _ _ (str_append_left_cancel _ _ _ heq)))
    exact hd h1

/-- Witness for C35 (amended): `blockOneTwoThree` and `blockTwelveThree` once the latter is
given the previous hash "23", so that only the index differs. -/
theorem hash_data_single_difference_witness :
    blockOneTwoThree.hash_data refPlatform ≠
      ({ blockTwelveThree with previous_hash := "23" } : Block).hash_data refPlatform :=
  hash_data_single_difference refPlatform blockOneTwoThree
    { blockTwelveThree with previous_hash := "23" }
    (Or.inl ⟨by decide, by decide, by decide, by decide, by decide⟩)

end Ledger

/-! # The eligible list of `consensus.h` -/

namespace ConsensusH

theorem eligible_loop_sublist (l : List Node) : ∀ mx, (eligible_loop l mx).Sublist l := by
  induction l with
  | nil => intro mx; exact List.Sublist.refl _
  | cons n rest ih =>
    intro mx
    by_cases h : n.reputation ≥ mx
    · simp only [eligible_loop, h, if_true]
      exact (ih n.reputation).cons₂ n
    · simp only [eligible_loop, h, if_false]
      exact (ih mx).cons n

theorem eligible_loop_snoc (pre : List Node) (n : Node) : ∀ mx,
    eligible_loop (pre ++ [n]) mx =
      eligible_loop pre mx ++
        (if mx ≤ n.reputation ∧ ∀ m ∈ pre, m.reputation ≤ n.reputation then [n] else []) := by
  induction pre with
  | nil =>
    intro mx
    by_cases h : n.reputation ≥ mx
    · simp [eligible_loop, h]
    · simp [eligible_loop, h]
  | cons p pre ih =>
    intro mx
    by_cases hp : p.reputation ≥ mx
    · have hs1 : eligible_loop (p :: (pre ++ [n])) mx =
          p :: eligible_loop (pre ++ [n]) p.reputation := by
        show (if p.reputation ≥ mx then p :: eligible_loop (pre ++ [n]) p.reputation
          else eligible_loop (pre ++ [n]) mx) = _
        rw [if_pos hp]
      have hs2 : eligible_loop (p :: pre) mx = p :: eligible_loop pre p.reputation := by
        show (if p.reputation ≥ mx then p :: eligible_loop pre p.reputation
          else eligible_loop pre mx) = _
        rw [if_pos hp]
      rw [List.cons_append, hs1, hs2, ih p.reputation, List.cons_append]
      by_cases hc : p.reputation ≤ n.reputation ∧ ∀ m ∈ pre, m.reputation ≤ n.reputation
      · have hc2 : mx ≤ n.reputation ∧ ∀ m ∈ p :: pre, m.reputation ≤ n.reputation := by
          refine ⟨Nat.le_trans hp hc.1, ?_⟩
          intro m hm
          rcases List.mem_cons.mp hm with rfl | hm
          · exact hc.1
          · exact hc.2 m hm
        rw [if_pos hc, if_pos hc2]
      · have hc2 : ¬ (mx ≤ n.reputation ∧ ∀ m ∈ p :: pre, m.reputation ≤ n.reputation) := by
          intro ⟨_, hall⟩
          exact hc ⟨hall p (List.mem_cons_self _ _),
            fun m hm => hall m (List.mem_cons_of_mem _ hm)⟩
        rw [if_neg hc, if_neg hc2]
    · have hs1 : eligible_loop (p :: (pre ++ [n])) mx = eligible_loop (pre ++ [n]) mx := by
        show (if p.reputation ≥ mx then p :: eligible_loop (pre ++ [n]) p.reputation
          else eligible_loop (pre ++ [n]) mx) = _
        rw [if_neg hp]
      have hs2 : eligible_loop (p :: pre) mx = eligible_loop pre mx := by
        show (if p.reputation ≥ mx then p :: eligible_loop pre p.reputation
          else eligible_loop pre mx) = _
        rw [if_neg hp]
      rw [List.cons_append, hs1, hs2, ih mx]
      have hlt : p.reputation < mx := Nat.lt_of_not_le hp
      by_cases hc : mx ≤ n.reputation ∧ ∀ m ∈ pre, m.reputation ≤ n.reputation
      · have hc2 : mx ≤ n.reputation ∧ ∀ m ∈ p :: pre, m.reputation ≤ n.reputation := by
          refine ⟨hc.1, ?_⟩
          intro m hm
          rcases List.mem_cons.mp hm with rfl | hm
          · omega
          · exact hc.2 m hm
        rw [if_pos hc, if_pos hc2]
      · have hc2 : ¬ (mx ≤ n.reputation ∧ ∀ m ∈ p :: pre, m.reputation ≤ n.reputation) := by
          intro ⟨h1, hall⟩
          exact hc ⟨h1, fun m hm => hall m (List.mem_cons_of_mem _ hm)⟩
        rw [if_neg hc, if_neg hc2]

theorem eligible_loop_sorted (l : List Node) : ∀ mx,
    (∀ e ∈ eligible_loop l mx, mx ≤ e.reputation) ∧
    (eligible_loop l mx).Pairwise (fun a b => a.reputation ≤ b.reputation) := by
  induction l with
  | nil => intro mx; simp [eligible_loop]
  | cons n rest ih =>
    intro mx
    by_cases h : n.reputation ≥ mx
    · obtain ⟨hge, hpw⟩ := ih n.reputation
      simp only [eligible_loop, h, if_true]
      refine ⟨?_, List.pairwise_cons.mpr ⟨hge, hpw⟩⟩
      intro e he
      rcases List.mem_cons.mp he with rfl | he
      · exact h
      · exact Nat.le_trans h (hge e he)
    · simp only [eligible_loop, h, if_false]
      exact ih mx

theorem eligible_loop_last (l : List Node) : ∀ mx,
    (eligible_loop l mx = [] → ∀ m ∈ l, m.reputation < mx) ∧
    (∀ last, (eligible_loop l mx).getLast? = some last →
      mx ≤ last.reputation ∧ ∀ m ∈ l, m.reputation ≤ last.reputation) := by
  induction l with
  | nil => intro mx; simp [eligible_loop]
  | cons n rest ih =>
    intro mx
    by_cases h : n.reputation ≥ mx
    · obtain ⟨hnil, hlast⟩ := ih n.reputation
      simp only [eligible_loop, h, if_true]
      refine ⟨fun hcon => by simp at hcon, ?_⟩
      intro last hl
      cases hE : eligible_loop rest n.reputation with
      | nil =>
        rw [hE] at hl
        simp only [List.getLast?_singleton, Option.some.injEq] at hl
        subst hl
        refine ⟨h, ?_⟩
        intro m hm
        rcases List.mem_cons.mp hm with rfl | hm
        · exact Nat.le_refl _
        · exact Nat.le_of_lt (hnil hE m hm)
      | cons e es =>
        rw [hE, List.getLast?_cons_cons, ← hE] at hl
        obtain ⟨h1, h2⟩ := hlast last hl
        refine ⟨Nat.le_trans h h1, ?_⟩
        intro m hm
        rcases List.mem_cons.mp hm with rfl | hm
        · exact h1
        · exact h2 m hm
    · obtain ⟨hnil, hlast⟩ := ih mx
      have hlt : n.reputation < mx := Nat.lt_of_not_le h
      simp only [eligible_loop, h, if_false]
      constructor
      · intro hE m hm
        rcases List.mem_cons.mp hm with rfl | hm
        · exact hlt
        · exact hnil hE m hm
      · intro last hl
        obtain ⟨h1, h2⟩ := hlast last hl
        refine ⟨h1, ?_⟩
        intro m hm
        rcases List.mem_cons.mp hm with rfl | hm
        · omega
        · exact h2 m hm

/-- C36: `get_eligible_nodes_for_leadership` returns, in roster order, exactly the nodes
whose reputation is >= the reputation of every node before them in the roster (the node
closing a roster is appended to the list of the roster before it exactly in that case);
hence for every non-empty roster the list is non-empty, its reputations are non-decreasing,
and its last element has the maximum reputation of the whole roster. -/
theorem eligible_nodes_are_running_maxima (nodes : List Node) :
    (get_eligible_nodes_for_leadership nodes).Sublist nodes ∧
    (∀ (pre : List Node) (n : Node),
      get_eligible_nodes_for_leadership (pre ++ [n]) =
        get_eligible_nodes_for_leadership pre ++
          (if ∀ m ∈ pre, m.reputation ≤ n.reputation then [n] else [])) ∧
    (nodes ≠ [] → get_eligible_nodes_for_leadership nodes ≠ []) ∧
    (get_eligible_nodes_for_leadership nodes).Pairwise
      (fun a b => a.reputation ≤ b.reputation) ∧
    (∀ last, (get_eligible_nodes_for_leadership nodes).getLast? = some last →
      last ∈ nodes ∧ ∀ m ∈ nodes, m.reputation ≤ last.reputation) := by
  refine ⟨eligible_loop_sublist nodes 0, ?_, eligible_ne_nil nodes,
    (eligible_loop_sorted nodes 0).2, ?_⟩
  · intro pre n
    unfold get_eligible_nodes_for_leadership
    rw [eligible_loop_snoc]
    by_cases hc : ∀ m ∈ pre, m.reputation ≤ n.reputation
    · rw [if_pos hc, if_pos ⟨Nat.zero_le _, hc⟩]
    · rw [if_neg hc, if_neg (fun h => hc h.2)]
  · intro last hl
    refine ⟨?_, ((eligible_loop_last nodes 0).2 last hl).2⟩
    exact (eligible_loop_sublist nodes 0).subset (List.mem_of_getLast?_eq_some hl)

end ConsensusH

/-! # Recursive compression -/

namespace Compcrypt

theorem recursiveCompress_base (compress : List Nat → Option (List Nat)) (minT : Nat)
    (inputData : List Nat) (h : inputData.length < minT) :
    recursiveCompress compress minT inputData = some inputData := by
  rw [recursiveCompress, if_pos h]

theorem recursiveCompress_throw (compress : List Nat → Option (List Nat)) (minT : Nat)
    (inputData : List Nat) (h : ¬ inputData.length < minT) (hc : compress inputData = none) :
    recursiveCompress compress minT inputData = none := by
  rw [recursiveCompress, if_neg h, hc]

theorem recursiveCompress_step (compress : List Nat → Option (List Nat)) (minT : Nat)
    (inputData compressedData : List Nat) (h : ¬ inputData.length < minT)
    (hc : compress inputData = some compressedData)
    (hlt : compressedData.length < inputData.length) :
    recursiveCompress compress minT inputData =
      recursiveCompress compress minT compressedData := by
  rw [recursiveCompress, if_neg h, hc]
  simp only [hlt, if_true]

theorem recursiveCompress_stop (compress : List Nat → Option (List Nat)) (minT : Nat)
    (inputData compressedData : List Nat) (h : ¬ inputData.length < minT)
    (hc : compress inputData = some compressedData)
    (hge : ¬ compressedData.length < inputData.length) :
    recursiveCompress compress minT inputData = some inputData := by
  rw [recursiveCompress, if_neg h, hc]
  simp only [hge, if_false]

theorem recursiveCompress_length (compress : List Nat → Option (List Nat)) (minT : Nat) :
    ∀ (n : Nat) (inputData : List Nat), inputData.length ≤ n →
      ∀ out, recursiveCompress compress minT inputData = some out →
        out.length ≤ inputData.length := by
  intro n
  induction n with
  | zero =>
    intro inputData hn out hout
    by_cases h : inputData.length < minT
    · rw [recursiveCompress_base compress minT inputData h] at hout
      rw [← Option.some.inj hout]
    · cases hc : compress inputData with
      | none => rw [recursiveCompress_throw compress minT inputData h hc] at hout; simp at hout
      | some c =>
        have hge : ¬ c.length < inputData.length := by omega
        rw [recursiveCompress_stop compress minT inputData c h hc hge] at hout
        rw [← Option.some.inj hout]
  | succ k ih =>
    intro inputData hn out hout
    by_cases h : inputData.length < minT
    · rw [recursiveCompress_base compress minT inputData h] at hout
      rw [← Option.some.inj hout]
    · cases hc : compress inputData with
      | none => rw [recursiveCompress_throw compress minT inputData h hc] at hout; simp at hout
      | some c =>
        by_cases hlt : c.length < inputData.length
        · rw [recursiveCompress_step compress minT inputData c h hc hlt] at hout
          have := ih c (by omega) out hout
          omega
        · rw [recursiveCompress_stop compress minT inputData c h hc hlt] at hout
          rw [← Option.some.inj hout]

theorem recursiveCompress_returns (compress : List Nat → Option (List Nat)) (minT : Nat)
    (hno : ∀ x, compress x ≠ none) :
    ∀ (n : Nat) (inputData : List Nat), inputData.length ≤ n →
      ∃ out, recursiveCompress compress minT inputData = some out := by
  intro n
  induction n with
  | zero =>
    intro inputData hn
    by_cases h : inputData.length < minT
    · exact ⟨inputData, recursiveCompress_base compress minT inputData h⟩
    · cases hc : compress inputData with
      | none => exact absurd hc (hno inputData)
      | some c =>
        have hge : ¬ c.length < inputData.length := by omega
        exact ⟨inputData, recursiveCompress_stop compress minT inputData c h hc hge⟩
  | succ k ih =>
    intro inputData hn
    by_cases h : inputData.length < minT
    · exact ⟨inputData, recursiveCompress_base compress minT inputData h⟩
    · cases hc : compress inputData with
      | none => exact absurd hc (hno inputData)
      | some c =>
        by_cases hlt : c.length < inputData.length
        · rw [recursiveCompress_step compress minT inputData c h hc hlt]
          exact ih c (by omega)
        · exact ⟨inputData, recursiveCompress_stop compress minT inputData c h hc hlt⟩

/-- C39: `recursiveCompress` is defined on every input for any behaviour of the underlying
`compress` (its recursion is on the length of the data): it returns inputs shorter than
`MIN_COMPRESSION_THRESHOLD` unchanged, recurses only on data strictly shorter than its
current input, returns whenever `compress` does not throw, and never returns data longer
than its input. -/
theorem recursiveCompress_never_longer (compress : List Nat → Option (List Nat))
    (minCompressionThreshold : Nat) (inputData : List Nat) :
    (inputData.length < minCompressionThreshold →
      recursiveCompress compress minCompressionThreshold inputData = some inputData) ∧
    (∀ compressedData, ¬ inputData.length < minCompressionThreshold →
      compress inputData = some compressedData →
      (compressedData.length < inputData.length →
        recursiveCompress compress minCompressionThreshold inputData =
          recursiveCompress compress minCompressionThreshold compressedData) ∧
      (¬ compressedData.length < inputData.length →
        recursiveCompress compress minCompressionThreshold inputData = some inputData)) ∧
    ((∀ x, compress x ≠ none) →
      ∃ out, recursiveCompress compress minCompressionThreshold inputData = some out) ∧
    (∀ out, recursiveCompress compress minCompressionThreshold inputData = some out →
      out.length ≤ inputData.length) := by
  refine ⟨recursiveCompress_base compress _ inputData, ?_, ?_, ?_⟩
  · intro c h hc
    exact ⟨recursiveCompress_step compress _ inputData c h hc,
      recursiveCompress_stop compress _ inputData c h hc⟩
  · intro hno
    exact recursiveCompress_returns compress _ hno inputData.length inputData (Nat.le_refl _)
  · exact recursiveCompress_length compress _ inputData.length inputData (Nat.le_refl _)

/-- Witness for C39: with a `compress` that drops the first byte and threshold 2, the input
`[1, 2, 3, 4]` is above the threshold, is compressed to `[2, 3, 4]`, and the result of the
recursion is no longer than the input. -/
theorem recursiveCompress_never_longer_witness :
    recursiveCompress dropFirst 2 [1, 2, 3, 4] = recursiveCompress dropFirst 2 [2, 3, 4] ∧
    recursiveCompress dropFirst 2 [4] = some [4] ∧
    ∃ out, recursiveCompress dropFirst 2 [1, 2, 3, 4] = some out :=
  ⟨((recursiveCompress_never_longer dropFirst 2 [1, 2, 3, 4]).2.1 [2, 3, 4] (by decide)
      (by decide)).1 (by decide),
   (recursiveCompress_never_longer dropFirst 2 [4]).1 (by decide),
   (recursiveCompress_never_longer dropFirst 2 [1, 2, 3, 4]).2.2.1
     (fun x => by simp [dropFirst])⟩

end Compcrypt
